import Mathlib

/-! Verification of `combos`, a grammar-combinator engine.

Shallow embedding of `combinator.go` and `parse_error.go`.

* A Go `Consumer` is a state transformer on the parse state `Parser`; it
  returns `none` when the Go call does not return (a run-time panic such as a
  failed type assertion or a nil interface call, or a recursion through lazy
  references that never ends).
* Pointers to `ParseError`, `Node` and `lex.Token` are `Option` values, `nil`
  being `none`.
* Go `int` is `Int`; no arithmetic is performed on it by the engine apart from
  comparisons.
* The `fmt.Printf` calls guarded by `Debug` only write to standard output and
  are left out.
* The combinators are first defined on arbitrary sub-consumers (`Consume`,
  `Peek`, `Epsilon`, `Concat`, `Effect`, `Alt`, `Memoize`). A production of a
  grammar is a tree of constructor calls (`Combinator`), and
  `Combinator.Consume` maps a tree to the consumer it stands for; since a lazy
  reference is resolved at every call, this map takes a bound on the depth of
  nested calls, and a larger bound does not change a result
  (`Combinator_fuel_mono`).
* The state threaded through a run carries, next to the fields of the Go
  struct `Parser`, the variables captured by the `Memoize` closures and a
  ghost counter of failed actions.
-/

namespace Combos

/-! ## Data model -/

/-- Token of the external scanner (`lex.Token`): its type id, lexeme and span. -/
structure Token where
  /-- Field `Type` of `lex.Token` (a reserved word here). -/
  Type_ : Int
  Lexeme : String
  StartLine : Int
  StartColumn : Int
  EndLine : Int
  EndColumn : Int
  deriving DecidableEq, Repr

/-- Source span of an error; the fields are those read by `ParseError.Less`
and `ParseError.error`. -/
structure SourceLocation where
  StartLine : Int
  StartColumn : Int
  EndLine : Int
  EndColumn : Int
  deriving DecidableEq, Repr

mutual
/-- The struct `ParseError` of `parse_error.go`. -/
inductive ParseError where
  | mk (Reason : String) (At : Option SourceLocation) (Chained : List GoError)
/-- A value of Go's interface type `error` as it is stored in `Chained`:
either an error of another package, known by its message, or a boxed
`*ParseError`, whose pointer may be nil. -/
inductive GoError where
  | foreign (msg : String)
  | boxed (e : Option ParseError)
end

/-- Field `Reason`. -/
def ParseError.Reason : ParseError → String
  | .mk r _ _ => r

/-- Field `At`; `none` is the nil location of an end-of-stream error. -/
def ParseError.At : ParseError → Option SourceLocation
  | .mk _ a _ => a

/-- Field `Chained`, oldest cause first. -/
def ParseError.Chained : ParseError → List GoError
  | .mk _ _ c => c

/-- Parse-tree value. Modelled from the spec: the struct `Node` and its
constructors `NewNode` and `NewTokenNode` are declared in a file that is not
part of the sources at hand; a node has a label, the token it was built from
(leaves only) and its children, which are pointers and may be nil. -/
inductive Node where
  | mk (Label : String) (Token : Option Token) (Children : List (Option Node))

/-- Field `Label`. -/
def Node.Label : Node → String
  | .mk l _ _ => l

/-- Field `Children`. -/
def Node.Children : Node → List (Option Node)
  | .mk _ _ c => c

/-- Modelled from the spec: `NewNode(label)` is a node with that label and no
children. -/
def NewNode (label : String) : Node := .mk label none []

/-- The assignment `n.Children = nodes`. -/
def Node.setChildren : Node → List (Option Node) → Node
  | .mk l t _, cs => .mk l t cs

/-! ## Errors (`parse_error.go`) -/

/-- Method `Chain`: `p.Chained = append(p.Chained, e)`. -/
def ParseError.Chain : ParseError → GoError → ParseError
  | .mk r a c, e => .mk r a (c ++ [e])

/-- Method `Less` of `parse_error.go`, with a nil receiver or argument as
`none`. The chain of `if ... else if` of the source is kept as it stands. -/
def ParseError.Less (p o : Option ParseError) : Bool :=
  match p, o with
  | none, _ => false
  | _, none => false
  | some p, some o =>
    match p.At, o.At with
    | none, _ => false
    | _, none => false
    | some pa, some oa =>
      if pa.StartLine < oa.StartLine then true
      else if pa.StartLine > oa.StartLine then false
      else if pa.StartColumn < oa.StartColumn then true
      else if pa.StartColumn > oa.StartColumn then false
      else if pa.EndLine > oa.EndLine then true
      else if pa.EndLine < oa.EndLine then false
      else if pa.EndColumn > oa.EndColumn then true
      else if pa.EndColumn < oa.EndColumn then false
      else false

/-- Modelled from the spec: `TokenLocation(tok)`, declared in a file that is
not part of the sources at hand, is the span of the token. -/
def TokenLocation (tok : Token) : SourceLocation :=
  { StartLine := tok.StartLine, StartColumn := tok.StartColumn,
    EndLine := tok.EndLine, EndColumn := tok.EndColumn }

/-- Modelled from the spec: the two-argument `Error(reason, tok)` that
`combinator.go` calls is not part of the sources at hand (`parse_error.go`
holds a constructor of another signature). It builds a fresh error with the
given reason, located at the span of `tok`, or without location when `tok` is
nil, and with no chained cause. -/
def Error (reason : String) (tok : Option Token) : ParseError :=
  .mk reason (tok.map TokenLocation) []

/-! ## Scanner and parse state -/

/-- What one call of `Scanner.Next` returns: `(tok, err, eos)`. -/
structure Scanned where
  tok : Option Token
  err : Option GoError
  eof : Bool

/-- The external scanner `lex.Scanner`, as far as the engine uses it: its
identity as a pointer, the settable cursor `TC`, and what a read started at a
given cursor yields together with the cursor it leaves. -/
structure Scanner where
  Id : Nat
  TC : Int
  scan : Int → Scanned × Int

/-- Method `Next` of the scanner: read at the cursor and move it. -/
def Scanner.Next (s : Scanner) : Scanned × Scanner :=
  ((s.scan s.TC).1, { s with TC := (s.scan s.TC).2 })

/-- The struct `result` local to `Memoize`. -/
structure MemoResult where
  n : Option Node
  e : Option ParseError
  tc : Int

/-- The two variables `s` and `cache` captured by the closure that one call of
`Memoize` returns. A nil map is `none`; a map is an association list in which
the first entry of a key is the current one. -/
structure MemoVars where
  s : Option Nat
  cache : Option (List (Int × MemoResult))

/-- The struct `Parser`, for a user context of type `κ`. Field `G` is only read
for the debug flag and is left out. Two components that are not fields of the
Go struct are threaded along with it: `Memo`, the captured variables of every
`Memoize` closure (by the number the grammar gives the closure), and
`ActionFailures`, a ghost counter of the failures returned so far by a
`Concat` action or an `Effect` function, which no definition reads. -/
structure Parser (κ : Type) where
  Ctx : κ
  S : Scanner
  LastError : Option ParseError
  UserError : Option ParseError
  Memo : Nat → MemoVars
  ActionFailures : Nat

/-- The assignment `p.S.TC = tc`. -/
def Parser.setTC {κ : Type} (p : Parser κ) (tc : Int) : Parser κ :=
  { p with S := { p.S with TC := tc } }

/-- The call `p.S.Next()`: what was read and the state with the moved cursor. -/
def Parser.next {κ : Type} (p : Parser κ) : Scanned × Parser κ :=
  (p.S.Next.1, { p with S := p.S.Next.2 })

/-- What `Consume` returns: `(*Node, *ParseError)`. -/
abbrev Result := Option Node × Option ParseError

/-- The interface `Consumer` (and `FnConsumer`): a call either does not return
(`none`) or returns a result and leaves a parse state. -/
abbrev Consumer (κ : Type) := Parser κ → Option (Result × Parser κ)

/-- The type `Action`; since the context may be a pointer the action writes
through, the context it leaves is returned as well. -/
abbrev Action (κ : Type) := κ → List (Option Node) → Result × κ

/-- The argument `do` of `Effect`, of type `func(interface{}, ...*Node) error`. -/
abbrev SideEffect (κ : Type) := κ → List (Option Node) → Option GoError × κ

/-! ## Combinators (`combinator.go`), on arbitrary sub-consumers -/

/-- Modelled from the spec: `NewTokenNode(g, tk)`, declared in a file that is
not part of the sources at hand, is a leaf labelled by the token's type (its
name in the token vocabulary) that wraps the token. -/
def NewTokenNode (tokens : List String) (tk : Token) : Node :=
  .mk (tokens.getD tk.Type_.toNat "") (some tk) []

/-- Rendering of a `[]string` by the verb `%v`. -/
def fmtStrings (tokens : List String) : String :=
  "[" ++ " ".intercalate tokens ++ "]"

/-- The closure returned by `Grammar.Consume(token)`; `tokens` and `tokenIds`
are the fields `Tokens` and `TokenIds` of the grammar (a missing key of the Go
map reads as 0). -/
def Consume {κ : Type} (tokens : List String) (tokenIds : String → Option Int)
    (token : String) : Consumer κ := fun p =>
  let tc := p.S.TC
  let r := p.next
  if r.1.eof then
    some ((none, some (Error ("Ran off the end of the input. expected '" ++ token ++ "''") none)),
      r.2.setTC tc)
  else
    match r.1.err with
    | some err => some ((none, some ((Error "Lexer Error" none).Chain err)), r.2.setTC tc)
    | none =>
      match r.1.tok with
      | none => none
      | some tk =>
        if tk.Type_ = (tokenIds token).getD 0 then
          some ((some (NewTokenNode tokens tk), none), r.2)
        else
          some ((none, some (Error ("Expected " ++ token) (some tk))), r.2.setTC tc)

/-- The closure returned by `Grammar.Peek(tokens...)`. -/
def Peek {κ : Type} (tokenIds : String → Option Int) (tokens : List String) :
    Consumer κ := fun p =>
  let tc := p.S.TC
  let r := p.next
  let p1 := r.2.setTC tc
  if r.1.eof then
    some ((none, some (Error
      ("Ran off the end of the input. expected '" ++ fmtStrings tokens ++ "''") none)), p1)
  else
    match r.1.err with
    | some err => some ((none, some ((Error "Lexer Error" none).Chain err)), p1)
    | none =>
      match r.1.tok with
      | none => none
      | some tk =>
        if tokens.any (fun token => tk.Type_ = (tokenIds token).getD 0) then
          some ((none, none), p1)
        else
          some ((none, some (Error ("Expected one of " ++ fmtStrings tokens) (some tk))), p1)

/-- The closure returned by `Grammar.Epsilon(n)`. -/
def Epsilon {κ : Type} (n : Option Node) : Consumer κ := fun p =>
  some ((n, none), p)

/-- The loop of `Grammar.concat`, entered with the nodes gathered so far; `tc`
is the cursor saved before the loop. -/
def concatLoop {κ : Type} (tc : Int) :
    List (Consumer κ) → List (Option Node) → Parser κ →
      Option ((List (Option Node) × Option ParseError) × Parser κ)
  | [], nodes, p => some ((nodes, none), p)
  | c :: cs, nodes, p =>
    match c p with
    | none => none
    | some ((n, none), p1) => concatLoop tc cs (nodes ++ [n]) p1
    | some ((_, some err), p1) => some (([], some err), p1.setTC tc)

/-- The method `Grammar.concat`. -/
def concat {κ : Type} (consumers : List (Consumer κ)) (p : Parser κ) :
    Option ((List (Option Node) × Option ParseError) × Parser κ) :=
  concatLoop p.S.TC consumers [] p

/-- The closure returned by `Grammar.Concat(consumers...)(action)`. -/
def Concat {κ : Type} (consumers : List (Consumer κ)) (action : Action κ) :
    Consumer κ := fun p =>
  let tc := p.S.TC
  match concat consumers p with
  | none => none
  | some ((_, some err), p1) => some ((none, some err), p1.setTC tc)
  | some ((nodes, none), p1) =>
    let a := action p1.Ctx nodes
    let p2 := { p1 with Ctx := a.2 }
    match a.1.2 with
    | some aerr =>
      some ((none, some aerr),
        { p2.setTC tc with UserError := some aerr, ActionFailures := p2.ActionFailures + 1 })
    | none => some ((a.1.1, none), p2)

/-- The closure returned by `Grammar.Effect(consumers...)(do)`. -/
def Effect {κ : Type} (consumers : List (Consumer κ)) (act : SideEffect κ) :
    Consumer κ := fun p =>
  let tc := p.S.TC
  match concat consumers p with
  | none => none
  | some ((_, some err), p1) => some ((none, some err), p1.setTC tc)
  | some ((nodes, none), p1) =>
    let d := act p1.Ctx nodes
    let p2 := { p1 with Ctx := d.2 }
    match d.1 with
    | some doerr =>
      let r := (p2.setTC tc).next
      let err := (Error "Side Effect Error" r.1.tok).Chain doerr
      some ((none, some err),
        { r.2 with UserError := some err, ActionFailures := r.2.ActionFailures + 1 })
    | none => some ((some ((NewNode "Effect").setChildren nodes), none), p2)

/-- The local variables `err` and `always` of the closure of `Grammar.Alt`. -/
structure AltVars where
  err : Option ParseError
  always : Bool

/-- Outcome of one pass through the body of the loop of `Alt`: the closure
returns, or the loop goes on after the alternative failed with `e`. -/
inductive AltStep (κ : Type) where
  | ret (n : Option Node) (p : Parser κ)
  | cont (e : ParseError) (v : AltVars) (p : Parser κ)

/-- The body of the loop of `Grammar.Alt` for the alternative `c`. -/
def altBody {κ : Type} (tc : Int) (c : Consumer κ) (v : AltVars) (p : Parser κ) :
    Option (AltStep κ) :=
  match c (p.setTC tc) with
  | none => none
  | some ((n, none), p1) => some (.ret n p1)
  | some ((_, some e), p1) =>
    let err : Option ParseError :=
      if v.err.isNone then some e
      else if ParseError.Less (some e) v.err then v.err
      else some e
    if p1.LastError.isNone || v.always then
      some (.cont e { err := err, always := v.always } { p1 with LastError := err })
    else if ParseError.Less p1.LastError err then
      some (.cont e { err := err, always := true } { p1 with LastError := err })
    else
      some (.cont e { err := err, always := v.always } p1)

/-- The loop of `Grammar.Alt` over the alternatives still to try, and the two
statements after it. -/
def altLoop {κ : Type} (tc : Int) :
    List (Consumer κ) → AltVars → Parser κ → Option (Result × Parser κ)
  | [], v, p => some ((none, v.err), p.setTC tc)
  | c :: cs, v, p =>
    match altBody tc c v p with
    | none => none
    | some (.ret n p1) => some ((n, none), p1)
    | some (.cont _ v1 p1) => altLoop tc cs v1 p1

/-- The closure returned by `Grammar.Alt(consumers...)`. -/
def Alt {κ : Type} (consumers : List (Consumer κ)) : Consumer κ := fun p =>
  altLoop p.S.TC consumers { err := none, always := false } p

/-- The read `cache[tc]` of a Go map. -/
def memoLookup (tc : Int) : List (Int × MemoResult) → Option MemoResult
  | [] => none
  | (k, r) :: rest => if k = tc then some r else memoLookup tc rest

/-- Assignment to the captured variables of the `Memoize` closure `cell`. -/
def Parser.setMemo {κ : Type} (p : Parser κ) (cell : Nat) (m : MemoVars) : Parser κ :=
  { p with Memo := Function.update p.Memo cell m }

/-- The closure returned by `Grammar.Memoize(c)`; `cell` names the closure, so
that its captured variables `s` and `cache` are `p.Memo cell`. -/
def Memoize {κ : Type} (cell : Nat) (c : Consumer κ) : Consumer κ := fun p =>
  let m0 := p.Memo cell
  let m : MemoVars :=
    if m0.cache.isNone || m0.s != some p.S.Id then { s := some p.S.Id, cache := some [] }
    else m0
  let p0 := p.setMemo cell m
  let tc := p0.S.TC
  match memoLookup tc (m.cache.getD []) with
  | some res => some ((res.n, res.e), p0.setTC res.tc)
  | none =>
    match c p0 with
    | none => none
    | some ((n, e), p1) =>
      match (p1.Memo cell).cache with
      | none => none
      | some l =>
        some ((n, e), p1.setMemo cell
          { s := (p1.Memo cell).s, cache := some ((tc, { n := n, e := e, tc := p1.S.TC }) :: l) })

/-! ## Grammars -/

/-- The closed set of consumers that the constructors of `Grammar` build: the
tree of constructor calls that makes up a production. `lazy` is the
`LazyConsumer` returned by `Grammar.P`. -/
inductive Combinator (κ : Type) where
  | consume (token : String)
  | peek (tokens : List String)
  | epsilon (n : Option Node)
  | lazy (ProductionName : String)
  | concat (consumers : List (Combinator κ)) (action : Action κ)
  | effect (consumers : List (Combinator κ)) (act : SideEffect κ)
  | alt (consumers : List (Combinator κ))
  | memoize (cell : Nat) (c : Combinator κ)

/-- The struct `Grammar`; the two Go maps are lookup functions, a missing key
being `none`. -/
structure Grammar (κ : Type) where
  Tokens : List String
  TokenIds : String → Option Int
  productions : String → Option (Combinator κ)
  startProduction : String

/-- Method `AddRule`: `g.productions[name] = c`. -/
def Grammar.AddRule {κ : Type} (g : Grammar κ) (name : String) (c : Combinator κ) :
    Grammar κ :=
  { g with productions := fun k => if k = name then some c else g.productions k }

/-- Method `Start`. -/
def Grammar.Start {κ : Type} (g : Grammar κ) (name : String) : Grammar κ :=
  { g with startProduction := name }

/-- Method `P`: a lazy reference to a production. -/
def Grammar.P {κ : Type} (_g : Grammar κ) (productionName : String) : Combinator κ :=
  .lazy productionName

/-- The function `NewGrammar`: every token name is registered as the production
that consumes this token. -/
def NewGrammar {κ : Type} (tokens : List String) (tokenIds : String → Option Int) :
    Grammar κ :=
  tokens.foldl (fun g token => g.AddRule token (.consume token))
    { Tokens := tokens, TokenIds := tokenIds, productions := fun _ => none,
      startProduction := "" }

/-- The method `Consume` of the consumer a combinator tree stands for. A lazy
reference is looked up in the grammar at every call, so that productions may
be recursive: `fuel` bounds the depth of nested calls, and a call that needs
more, or that reaches a production that is not registered (a nil interface in
Go), does not return. -/
def Combinator.Consume {κ : Type} (g : Grammar κ) : Nat → Combinator κ → Consumer κ
  | 0, _ => fun _ => none
  | _ + 1, .consume token => Combos.Consume g.Tokens g.TokenIds token
  | _ + 1, .peek tokens => Peek g.TokenIds tokens
  | _ + 1, .epsilon n => Epsilon n
  | fuel + 1, .lazy name =>
    match g.productions name with
    | none => fun _ => none
    | some c => Combinator.Consume g fuel c
  | fuel + 1, .concat cs action => Concat (cs.map (Combinator.Consume g fuel)) action
  | fuel + 1, .effect cs act => Effect (cs.map (Combinator.Consume g fuel)) act
  | fuel + 1, .alt cs => Alt (cs.map (Combinator.Consume g fuel))
  | fuel + 1, .memoize cell c => Memoize cell (Combinator.Consume g fuel c)

/-- The parse state that `Grammar.Parse` builds; `memo` holds the variables
captured by the `Memoize` closures of the grammar, which outlive a run. -/
def Grammar.newParser {κ : Type} (memo : Nat → MemoVars) (s : Scanner) (parserCtx : κ) :
    Parser κ :=
  { Ctx := parserCtx, S := s, LastError := none, UserError := none, Memo := memo,
    ActionFailures := 0 }

/-- The first statement of `Grammar.Parse`: the start production consumes from
a fresh parse state. -/
def Grammar.consumeStart {κ : Type} (g : Grammar κ) (fuel : Nat) (memo : Nat → MemoVars)
    (s : Scanner) (parserCtx : κ) : Option (Result × Parser κ) :=
  match g.productions g.startProduction with
  | none => none
  | some c => c.Consume g fuel (Grammar.newParser memo s parserCtx)

/-- The statements of `Grammar.Parse` after the start production returned
`(n, err)` and left the state `p`; the scanner `s` of `Parse` is `p.S`. -/
def Grammar.finish {κ : Type} (r : Result) (p : Parser κ) : Option Result :=
  match r.2 with
  | some err => some (none, some err)
  | none =>
    match p.UserError with
    | some ue => some (none, some ue)
    | none =>
      let x := p.S.Next.1
      if x.eof then some (r.1, none)
      else if p.LastError.isSome then some (none, p.LastError)
      else
        match x.err with
        | some _ => some (none, some ((Error "Unconsumed Input" none).Chain (.boxed r.2)))
        | none =>
          match x.tok with
          | none => none
          | some t => some (none, some (Error "Unconsumed Input" (some t)))

/-- The method `Grammar.Parse`. -/
def Grammar.Parse {κ : Type} (g : Grammar κ) (fuel : Nat) (memo : Nat → MemoVars)
    (s : Scanner) (parserCtx : κ) : Option Result :=
  match g.consumeStart fuel memo s parserCtx with
  | none => none
  | some (r, p) => Grammar.finish r p

/-! ## Specification-side definitions and examples -/

/-- The order of the spec on two spans: the start position of `la` is
lexicographically smaller, or the start positions are equal and the end
position of `la` is lexicographically larger. -/
def spanLess (la lb : SourceLocation) : Prop :=
  (la.StartLine < lb.StartLine ∨
      (la.StartLine = lb.StartLine ∧ la.StartColumn < lb.StartColumn)) ∨
    (la.StartLine = lb.StartLine ∧ la.StartColumn = lb.StartColumn ∧
      (lb.EndLine < la.EndLine ∨ (lb.EndLine = la.EndLine ∧ lb.EndColumn < la.EndColumn)))

instance (la lb : SourceLocation) : Decidable (spanLess la lb) := by
  unfold spanLess; infer_instance

/-- A scanner over a list of tokens, read by index: a read at an index inside
the list yields the token there and moves the cursor by one, any other read
reports the end of the stream and leaves the cursor. -/
def listScan (toks : List Token) (tc : Int) : Scanned × Int :=
  if tc < 0 then ({ tok := none, err := none, eof := true }, tc)
  else
    match toks.get? tc.toNat with
    | none => ({ tok := none, err := none, eof := true }, tc)
    | some t => ({ tok := some t, err := none, eof := false }, tc + 1)

/-- A scanner at the start of a list of tokens. -/
def listScanner (toks : List Token) : Scanner :=
  { Id := 0, TC := 0, scan := listScan toks }

/-- A token of type `ty` with lexeme `lx`, on line 1 at column `col`. -/
def tokenAt (ty : Int) (lx : String) (col : Int) : Token :=
  { Type_ := ty, Lexeme := lx, StartLine := 1, StartColumn := col, EndLine := 1,
    EndColumn := col }

/-- Token ids of the vocabulary `a b c d x`. -/
def abcIds : String → Option Int
  | "a" => some 0
  | "b" => some 1
  | "c" => some 2
  | "d" => some 3
  | "x" => some 4
  | _ => none

/-- The vocabulary `a b c d x`. -/
def abcTokens : List String := ["a", "b", "c", "d", "x"]

/-- No `Memoize` closure has been called yet. -/
def freshMemo : Nat → MemoVars := fun _ => { s := none, cache := none }

/-- A fresh parse state on the tokens `a b x` with the unit context. -/
def abxParser : Parser Unit :=
  Grammar.newParser freshMemo
    (listScanner [tokenAt 0 "a" 1, tokenAt 1 "b" 2, tokenAt 4 "x" 3]) ()

/-- An action that builds a node from its arguments. -/
def wrapAction : Action Unit := fun ctx nodes => ((some (.mk "wrap" none nodes), none), ctx)

/-- An action that always fails, with an error without location. -/
def failAction : Action Unit := fun ctx _ => ((none, some (Error "refused" none)), ctx)

/-- The run of the loop of `Alt` over alternatives that all fail: the errors
they returned, in order, and the local variables and parse state the loop is
left with; `none` when one of them succeeds or does not return. -/
def altFailed {κ : Type} (tc : Int) :
    List (Consumer κ) → AltVars → Parser κ → Option (List ParseError × AltVars × Parser κ)
  | [], v, p => some ([], v, p)
  | c :: cs, v, p =>
    match altBody tc c v p with
    | some (.cont e v1 p1) =>
      match altFailed tc cs v1 p1 with
      | some (es, v2, p2) => some (e :: es, v2, p2)
      | none => none
    | _ => none

/-- One step of the fold of the spec: keep the current best when the candidate
is less than it, otherwise replace the best with the candidate. -/
def keepOrReplace (best candidate : ParseError) : ParseError :=
  if ParseError.Less (some candidate) (some best) then best else candidate

/-- The fold of the spec over the errors `e1, ..., en` of the alternatives:
`best_1 = e1` and `best_(k+1) = keepOrReplace best_k e_(k+1)`. -/
def representative : List ParseError → Option ParseError
  | [] => none
  | e :: es => some (es.foldl keepOrReplace e)

/-- The grammar of the vocabulary `a b c d x` without productions of its own. -/
def abcGrammar : Grammar Unit := NewGrammar abcTokens abcIds

/-- First alternative of `nestedChoice`: a choice whose only alternative is `b`. -/
def nestedFirst : Combinator Unit := .alt [.consume "b"]

/-- Second alternative of `nestedChoice`: the sequence `a c`. -/
def nestedSecond : Combinator Unit := .concat [.consume "a", .consume "c"] wrapAction

/-- Third alternative of `nestedChoice`: the choice between the sequence
`a b (c)` and `a`, followed by `d`. -/
def nestedThird : Combinator Unit :=
  .concat [.alt [.concat [.consume "a", .consume "b", .alt [.consume "c"]] wrapAction,
    .consume "a"], .consume "d"] wrapAction

/-- A grammar with nested choices: the start production is the choice between
`nestedChoice = Alt(nestedFirst, nestedSecond, nestedThird)` and `a`. -/
def nestedGrammar : Grammar Unit :=
  (abcGrammar.AddRule "S" (.alt [.alt [nestedFirst, nestedSecond, nestedThird],
    .consume "a"])).Start "S"

/-- The parse state `abxParser` in which an earlier choice has left an error
located at column 0 in `LastError`. -/
def earlierParser : Parser Unit :=
  { abxParser with LastError := some (Error "earlier" (some (tokenAt 4 "x" 0))) }

/-- Relation between the parse state `p` at the entry of a call and the state
`p'` it leaves: the count of failed actions has not gone down, and if
`UserError` was set at entry or an action failed during the call, `UserError`
is set at the end. -/
def Sticky {κ : Type} (p p' : Parser κ) : Prop :=
  p.ActionFailures ≤ p'.ActionFailures ∧
    ((p.UserError ≠ none ∨ p.ActionFailures < p'.ActionFailures) → p'.UserError ≠ none)

/-- Every returning call of the consumer relates its entry and exit states by
`Sticky`. -/
def KeepsSticky {κ : Type} (c : Consumer κ) : Prop :=
  ∀ (p : Parser κ) (r : Result) (p' : Parser κ), c p = some (r, p') → Sticky p p'

/-- A sequence of no sub-consumer whose action fails. -/
def failingSequence : Combinator Unit := .concat [] failAction

/-- A grammar whose start production is the choice between a sequence whose
action fails and the empty match. -/
def absorbGrammar : Grammar Unit :=
  (abcGrammar.AddRule "S" (.alt [failingSequence, .epsilon (some (NewNode "empty"))])).Start "S"

/-- A grammar whose start production is the choice between a sequence whose
action fails and the token `a`. -/
def maskGrammar : Grammar Unit :=
  (abcGrammar.AddRule "S" (.alt [failingSequence, .consume "a"])).Start "S"

/-- A side-effect function that always fails. -/
def refuse : SideEffect Unit := fun ctx _ => (some (.foreign "refused"), ctx)

/-- Every call of `c` that returns also returns, with the same result and
state, as a call of `c'`. -/
def Refines {κ : Type} (c c' : Consumer κ) : Prop :=
  ∀ (p : Parser κ) (r : Result × Parser κ), c p = some r → c' p = some r

/-- The parse state `abxParser` after an action has failed with `refused`. -/
def refusedParser : Parser Unit :=
  { abxParser with UserError := some (Error "refused" none) }

/-- The state that the choice between `b` and the memoized `a` (closure 0)
leaves when it is entered in `refusedParser`. -/
def refusedAfterChoice : Parser Unit :=
  Parser.setMemo
    (Parser.setTC
      (Parser.setMemo
        { refusedParser with LastError := some (Error "Expected b" (some (tokenAt 0 "a" 1))) }
        0 { s := some 0, cache := some [] })
      1)
    0 { s := some 0,
        cache := some [(0, ⟨some (NewTokenNode abcTokens (tokenAt 0 "a" 1)), none, 1⟩)] }

/-- The consumers of a sequence called one after the other, each from the
state the previous one left, as long as they succeed: the nodes they return,
in order, and the state the last one leaves; `none` when one of them fails or
does not return. -/
def runInOrder {κ : Type} :
    List (Consumer κ) → Parser κ → Option (List (Option Node) × Parser κ)
  | [], p => some ([], p)
  | c :: cs, p =>
    match c p with
    | some ((n, none), p1) =>
      match runInOrder cs p1 with
      | some (ns, q) => some (n :: ns, q)
      | none => none
    | _ => none

/-- A scanner whose first read yields the token `a` and whose reads at any
other cursor report the lexical error `bad input`. -/
def badInputScan (tc : Int) : Scanned × Int :=
  if tc = 0 then ({ tok := some (tokenAt 0 "a" 1), err := none, eof := false }, 1)
  else ({ tok := none, err := some (.foreign "bad input"), eof := false }, tc)

/-- The scanner of `badInputScan` at its start. -/
def badInputScanner : Scanner := { Id := 0, TC := 0, scan := badInputScan }

/-- Method `error` of `parse_error.go`: the line of the error itself; `%v` of
an `int` is its decimal notation. -/
def ParseError.error (p : ParseError) : String :=
  match p.At with
  | none => "Parse Error @ EOS : " ++ p.Reason
  | some l =>
    "Parse Error @ " ++ toString l.StartLine ++ ":" ++ toString l.StartColumn ++ "-" ++
      toString l.EndLine ++ ":" ++ toString l.EndColumn ++ " : " ++ p.Reason

mutual
/-- Method `Error` of `parse_error.go`. The loop runs from the last chained
cause down to the first and appends the rendering of each, then the line of
the error itself is appended and the lines are joined by newlines: the
renderings of the causes, taken in the order of `Chained`, are reversed.
`none` when the call panics. -/
def ParseError.Error : ParseError → Option String
  | .mk r a c =>
    match renderChained c with
    | none => none
    | some lines => some ("\n".intercalate (lines.reverse ++ [(ParseError.mk r a c).error]))
/-- The call `c.Error()` on a value of the interface `error`: the message of a
foreign error, the method above on a `*ParseError`, a panic on a nil
`*ParseError` (the method reads `p.Chained`). -/
def GoError.Error : GoError → Option String
  | .foreign msg => some msg
  | .boxed none => none
  | .boxed (some e) => e.Error
/-- The renderings `p.Chained[i].Error()` of all causes, in the order of
`Chained`; `none` when one of the calls panics. -/
def renderChained : List GoError → Option (List String)
  | [] => some []
  | c :: cs =>
    match c.Error, renderChained cs with
    | some l, some ls => some (l :: ls)
    | _, _ => none
end

/-- Relation between the state `p` at the entry of a call and the state `p'`
it leaves: the scanner is the same object, and every entry that a `Memoize`
closure holds for this scanner is still held, with the same recorded result. -/
def MemoKept {κ : Type} (p p' : Parser κ) : Prop :=
  p'.S.Id = p.S.Id ∧
    ∀ (j : Nat) (k : Int) (res : MemoResult) (l : List (Int × MemoResult)),
      (p.Memo j).s = some p.S.Id → (p.Memo j).cache = some l → memoLookup k l = some res →
        ∃ l', (p'.Memo j).s = some p.S.Id ∧ (p'.Memo j).cache = some l' ∧
          memoLookup k l' = some res

/-- Every returning call of the consumer relates its entry and exit states by
`MemoKept`. -/
def KeepsMemo {κ : Type} (c : Consumer κ) : Prop :=
  ∀ (p : Parser κ) (r : Result) (p' : Parser κ), c p = some (r, p') → MemoKept p p'

/-- The variables of the `Memoize` closure `cell` after the first statement of
the closure, which empties the cache when it is nil or belongs to another
scanner. -/
def memoAtEntry {κ : Type} (p : Parser κ) (cell : Nat) : MemoVars :=
  if (p.Memo cell).cache.isNone || (p.Memo cell).s != some p.S.Id then
    { s := some p.S.Id, cache := some [] }
  else p.Memo cell

/-- The state that the first call of the memoized `a` (closure 0) leaves on
the tokens `a b x`. -/
def memoizedOnce : Parser Unit :=
  Parser.setMemo
    (Parser.setTC (Parser.setMemo abxParser 0 { s := some 0, cache := some [] }) 1)
    0 { s := some 0,
        cache := some [(0, ⟨some (NewTokenNode abcTokens (tokenAt 0 "a" 1)), none, 1⟩)] }

/-- The sub-production that the example of memoization wraps: the choice
between the tokens `c` and `b`. -/
def replayTarget : Combinator Unit := .alt [.consume "c", .consume "b"]

/-- The start production of the example of memoization, built around the
sub-production `m`: the choice between the sequences `a m d` and `a b x a`,
the token `b`, and the sequence `a m`. -/
def replayStart (m : Combinator Unit) : Combinator Unit :=
  .alt [.concat [.consume "a", m, .consume "d"] wrapAction,
    .concat [.consume "a", .consume "b", .consume "x", .consume "a"] wrapAction,
    .consume "b",
    .concat [.consume "a", m] wrapAction]

/-- The example grammar without memoization. -/
def replayPlain : Grammar Unit :=
  (abcGrammar.AddRule "S" (replayStart replayTarget)).Start "S"

/-- The example grammar in which the sub-production `replayTarget` is replaced
by `Memoize(replayTarget)`, closure 0. -/
def replayMemoized : Grammar Unit :=
  (abcGrammar.AddRule "S" (replayStart (.memoize 0 replayTarget))).Start "S"

/-- What a result of `Parse` shows to the caller, without the chained causes:
whether there is a node, and the reason and location of the error. -/
def reported (r : Option Result) : Option (Bool × Option (String × Option SourceLocation)) :=
  r.map (fun x => (x.1.isSome, x.2.map (fun e => (e.Reason, e.At))))

/-- The relation "`t'` is `t` with sub-productions wrapped in `Memoize`".
`t` holds no `Memoize`; a wrapper of closure `cell` always wraps (a memoized
form of) the same sub-production `cellTree cell`, as one closure wraps one
consumer; and the actions and side-effect functions are free of side effects:
they leave the user context as it is. -/
inductive Memoized {κ : Type} (cellTree : Nat → Combinator κ) :
    Combinator κ → Combinator κ → Prop where
  | consume (token : String) : Memoized cellTree (.consume token) (.consume token)
  | peek (tokens : List String) : Memoized cellTree (.peek tokens) (.peek tokens)
  | epsilon (n : Option Node) : Memoized cellTree (.epsilon n) (.epsilon n)
  | lazy (name : String) : Memoized cellTree (.lazy name) (.lazy name)
  | concat (cs cs' : List (Combinator κ)) (action : Action κ) :
      List.Forall₂ (Memoized cellTree) cs cs' → (∀ ctx nodes, (action ctx nodes).2 = ctx) →
      Memoized cellTree (.concat cs action) (.concat cs' action)
  | effect (cs cs' : List (Combinator κ)) (act : SideEffect κ) :
      List.Forall₂ (Memoized cellTree) cs cs' → (∀ ctx nodes, (act ctx nodes).2 = ctx) →
      Memoized cellTree (.effect cs act) (.effect cs' act)
  | alt (cs cs' : List (Combinator κ)) :
      List.Forall₂ (Memoized cellTree) cs cs' → Memoized cellTree (.alt cs) (.alt cs')
  | wrap (cell : Nat) (c c' : Combinator κ) :
      cellTree cell = c → Memoized cellTree c c' → Memoized cellTree c (.memoize cell c')

/-- The grammar `g'` is the grammar `g` with sub-productions wrapped in
`Memoize`: same vocabulary, same start production, and every production of
`g'` is the memoized form of the production of `g` of that name. -/
def GrammarMemoized {κ : Type} (cellTree : Nat → Combinator κ) (g g' : Grammar κ) : Prop :=
  g'.Tokens = g.Tokens ∧ g'.TokenIds = g.TokenIds ∧ g'.startProduction = g.startProduction ∧
    ∀ name, (g.productions name = none ∧ g'.productions name = none) ∨
      ∃ t t', g.productions name = some t ∧ g'.productions name = some t' ∧
        Memoized cellTree t t'

/-- What is fixed during the comparison of a run of a memoized grammar with
runs of the grammar without `Memoize`: that grammar, the sub-production each
closure wraps, the scanner (what it reads at each cursor, and its identity)
and the user context. -/
structure MemoWorld (κ : Type) where
  plain : Grammar κ
  cellTree : Nat → Combinator κ
  scan : Int → Scanned × Int
  sid : Nat
  ctx : κ

/-- `UserError` is set. -/
def ueSet {κ : Type} (p : Parser κ) : Prop := p.UserError ≠ none

/-- `LastError` is set. -/
def leSet {κ : Type} (p : Parser κ) : Prop := p.LastError ≠ none

/-- How a flag `f` of the parse state evolves in two runs side by side, from
`p` to `q` in the plain run and from `p'` to `q'` in the memoized run: a flag
that is set stays set, and a flag set at the end of one run was set at its
start or is set at the end of the other run. -/
def Up {κ : Type} (f : Parser κ → Prop) (p p' q q' : Parser κ) : Prop :=
  (f p → f q) ∧ (f p' → f q') ∧ (f q → f p ∨ f q') ∧ (f q' → f p' ∨ f q)

/-- The relation `Up` for both `UserError` and `LastError`. -/
def Track {κ : Type} (p p' q q' : Parser κ) : Prop :=
  Up ueSet p p' q q' ∧ Up leSet p p' q q'

/-- An entry `k -> res` of the cache of a closure that wraps `t` is sound:
from every state of the plain grammar at the cursor `k`, the sub-production
`t` returns, with enough fuel, the recorded node and error and leaves the
recorded cursor; it sets `UserError` (`LastError`) only if `U` (`L`) holds. -/
def EntryOK {κ : Type} (w : MemoWorld κ) (U L : Prop) (t : Combinator κ) (k : Int)
    (res : MemoResult) : Prop :=
  ∀ q : Parser κ, q.S.scan = w.scan → q.S.Id = w.sid → q.S.TC = k → q.Ctx = w.ctx →
    ∃ m q1, t.Consume w.plain m q = some ((res.n, res.e), q1) ∧
      q1.S.scan = w.scan ∧ q1.S.Id = w.sid ∧ q1.S.TC = res.tc ∧ q1.Ctx = w.ctx ∧
      (ueSet q → ueSet q1) ∧ (ueSet q1 → ueSet q ∨ U) ∧
      (leSet q → leSet q1) ∧ (leSet q1 → leSet q ∨ L)

/-- Every entry that a closure holds for the scanner of the run is sound. -/
def MemoOK {κ : Type} (w : MemoWorld κ) (U L : Prop) (memo : Nat → MemoVars) : Prop :=
  ∀ (j : Nat) (l : List (Int × MemoResult)) (k : Int) (res : MemoResult),
    (memo j).s = some w.sid → (memo j).cache = some l → memoLookup k l = some res →
      EntryOK w U L (w.cellTree j) k res

/-- Invariant of the states of the memoized run. -/
def MemoInv {κ : Type} (w : MemoWorld κ) (p' : Parser κ) : Prop :=
  p'.S.scan = w.scan ∧ p'.S.Id = w.sid ∧ p'.Ctx = w.ctx ∧
    MemoOK w (ueSet p') (leSet p') p'.Memo

/-- Outcome of two calls side by side, `p -> (r, q)` in the plain run and
`p' -> (r', q')` in the memoized run: same node and error, same scanner state
(cursor included), and the invariants. -/
def Agree {κ : Type} (w : MemoWorld κ) (p p' : Parser κ) (r r' : Result)
    (q q' : Parser κ) : Prop :=
  r' = r ∧ q.S = q'.S ∧ q.Ctx = w.ctx ∧ MemoInv w q' ∧ Track p p' q q'

/-- The consumer `c'` of the memoized run is simulated by the sub-production
`t` of the plain grammar: whenever `c'` returns from a state that satisfies
the invariant, `t` returns, with enough fuel, from every state with the same
scanner state and context, and the outcomes agree. -/
def SimT {κ : Type} (w : MemoWorld κ) (t : Combinator κ) (c' : Consumer κ) : Prop :=
  ∀ (p' : Parser κ) (r' : Result) (q' : Parser κ), MemoInv w p' → c' p' = some (r', q') →
    ∀ p : Parser κ, p.S = p'.S → p.Ctx = w.ctx →
      ∃ m r q, t.Consume w.plain m p = some (r, q) ∧ Agree w p p' r r' q q'

/-! ## A small memoized grammar -/

/-- The start production of the small example of memoization, built around the
sub-production `m`: the choice between the sequence `m d` and `m`. -/
def cachedStart (m : Combinator Unit) : Combinator Unit :=
  .alt [.concat [m, .consume "d"] wrapAction, m]

/-- The small example grammar without memoization: `m` is the token `a`. -/
def cachedPlain : Grammar Unit :=
  (abcGrammar.AddRule "S" (cachedStart (.consume "a"))).Start "S"

/-- The small example grammar in which the sub-production `a` is replaced by
`Memoize(a)`, closure 0. -/
def cachedMemoized : Grammar Unit :=
  (abcGrammar.AddRule "S" (cachedStart (.memoize 0 (.consume "a")))).Start "S"

/-- The state in which the start production of `cachedMemoized` returns on the
input `a`: the first alternative stored the entry for the cursor 0 and failed
on the end of the input, the second alternative was a cache hit. -/
def cachedExit : Parser Unit :=
  { Ctx := (),
    S := { Id := 0, TC := 1, scan := listScan [tokenAt 0 "a" 1] },
    LastError := some (Error "Ran off the end of the input. expected 'd''" none),
    UserError := none,
    Memo := Function.update (Function.update (Function.update freshMemo 0
        { s := some 0, cache := some [] })
        0 { s := some 0,
            cache := some [(0, ⟨some (NewTokenNode abcTokens (tokenAt 0 "a" 1)), none, 1⟩)] })
        0 { s := some 0,
            cache := some [(0, ⟨some (NewTokenNode abcTokens (tokenAt 0 "a" 1)), none, 1⟩)] },
    ActionFailures := 0 }

/-! ## Memoization: returning runs -/

/-- Relation between the state `p` at the entry of a call and the state `q` it
leaves: a `Memoize` closure whose map is not nil at entry has a map that is
not nil at exit. -/
def CacheLive {κ : Type} (p q : Parser κ) : Prop :=
  ∀ j : Nat, (p.Memo j).cache ≠ none → (q.Memo j).cache ≠ none

/-- Every returning call of the consumer relates its entry and exit states by
`CacheLive`. -/
def KeepsLive {κ : Type} (c : Consumer κ) : Prop :=
  ∀ (p : Parser κ) (r : Result) (p' : Parser κ), c p = some (r, p') → CacheLive p p'

/-- The memoized form `t'` returns whenever the sub-production `t` of the plain
grammar returns with fuel `m`, from every state of the memoized run that
satisfies the invariant and has the same scanner state and context. -/
def Returns {κ : Type} (w : MemoWorld κ) (g' : Grammar κ) (m : Nat) (t t' : Combinator κ) :
    Prop :=
  ∀ (p : Parser κ) (r : Result) (q : Parser κ), t.Consume w.plain m p = some (r, q) →
    ∀ p' : Parser κ, MemoInv w p' → p.S = p'.S → p.Ctx = w.ctx →
      ∃ n x, t'.Consume g' n p' = some x

/-! # Properties -/

/-! ## The comparator `Less` -/

theorem Less_none_left (o : Option ParseError) : ParseError.Less none o = false := by
  simp [ParseError.Less]

theorem Less_none_right (p : Option ParseError) : ParseError.Less p none = false := by
  cases p <;> simp [ParseError.Less]

theorem Less_unlocated_left (x y : ParseError) (h : x.At = none) :
    ParseError.Less (some x) (some y) = false := by
  simp [ParseError.Less, h]

theorem Less_unlocated_right (x y : ParseError) (h : y.At = none) :
    ParseError.Less (some x) (some y) = false := by
  cases hx : x.At <;> simp [ParseError.Less, h, hx]

theorem Less_located (x y : ParseError) (la lb : SourceLocation)
    (hx : x.At = some la) (hy : y.At = some lb) :
    ParseError.Less (some x) (some y) = true ↔ spanLess la lb := by
  simp only [ParseError.Less, hx, hy, spanLess]
  split_ifs <;> simp <;> omega

/-- C4. `a.Less(b)` holds exactly when both errors are non-nil, both have a
location, and the span of `a` starts lexicographically before that of `b` or
starts at the same position and ends lexicographically after it. So `Less` is
false when either error has no location and when the two spans are equal. -/
theorem Less_characterisation (a b : Option ParseError) :
    (ParseError.Less a b = true ↔
      ∃ x y la lb, a = some x ∧ b = some y ∧ x.At = some la ∧ y.At = some lb ∧
        ((la.StartLine < lb.StartLine ∨
            (la.StartLine = lb.StartLine ∧ la.StartColumn < lb.StartColumn)) ∨
          (la.StartLine = lb.StartLine ∧ la.StartColumn = lb.StartColumn ∧
            (lb.EndLine < la.EndLine ∨
              (lb.EndLine = la.EndLine ∧ lb.EndColumn < la.EndColumn))))) ∧
    (∀ x y : ParseError, a = some x → b = some y → (x.At = none ∨ y.At = none) →
      ParseError.Less a b = false) ∧
    (∀ x y : ParseError, a = some x → b = some y → x.At = y.At →
      ParseError.Less a b = false) := by
  refine ⟨?_, ?_, ?_⟩
  · constructor
    · intro h
      cases a with
      | none => simp [Less_none_left] at h
      | some x =>
        cases b with
        | none => simp [Less_none_right] at h
        | some y =>
          cases hx : x.At with
          | none => simp [Less_unlocated_left x y hx] at h
          | some la =>
            cases hy : y.At with
            | none => simp [Less_unlocated_right x y hy] at h
            | some lb =>
              exact ⟨x, y, la, lb, rfl, rfl, hx, hy, (Less_located x y la lb hx hy).1 h⟩
    · rintro ⟨x, y, la, lb, rfl, rfl, hx, hy, h⟩
      exact (Less_located x y la lb hx hy).2 h
  · rintro x y rfl rfl (h | h)
    · exact Less_unlocated_left x y h
    · exact Less_unlocated_right x y h
  · rintro x y rfl rfl h
    cases hx : x.At with
    | none => exact Less_unlocated_left x y hx
    | some la =>
      have hy : y.At = some la := by rw [← h, hx]
      have := Less_located x y la la hx hy
      cases hl : ParseError.Less (some x) (some y) with
      | false => rfl
      | true =>
        have h2 := this.1 hl
        unfold spanLess at h2
        omega

/-! ## Choice and sequence return when their sub-consumers do -/

theorem altBody_returns {κ : Type} (tc : Int) (c : Consumer κ) (v : AltVars) (p : Parser κ)
    (h : (c (p.setTC tc)).isSome = true) : (altBody tc c v p).isSome = true := by
  simp only [altBody]
  cases hc : c (p.setTC tc) with
  | none => simp [hc] at h
  | some x =>
    obtain ⟨⟨n, e⟩, p1⟩ := x
    cases e with
    | none => rfl
    | some err =>
      simp only
      split_ifs <;> rfl

theorem altLoop_returns {κ : Type} (tc : Int) (cs : List (Consumer κ))
    (h : ∀ c ∈ cs, ∀ p, (c p).isSome = true) :
    ∀ (v : AltVars) (p : Parser κ), (altLoop tc cs v p).isSome = true := by
  induction cs with
  | nil => intro v p; rfl
  | cons c cs ih =>
    intro v p
    have hb := altBody_returns tc c v p (h c (List.mem_cons_self _ _) _)
    simp only [altLoop]
    cases hx : altBody tc c v p with
    | none => simp [hx] at hb
    | some x =>
      cases x with
      | ret n p1 => rfl
      | cont e v1 p1 => exact ih (fun a ha => h a (List.mem_cons_of_mem _ ha)) _ _

theorem Alt_returns {κ : Type} (cs : List (Consumer κ))
    (h : ∀ c ∈ cs, ∀ p, (c p).isSome = true) (p : Parser κ) : (Alt cs p).isSome = true :=
  altLoop_returns _ cs h _ _

theorem concatLoop_returns {κ : Type} (tc : Int) (cs : List (Consumer κ))
    (h : ∀ c ∈ cs, ∀ p, (c p).isSome = true) :
    ∀ (nodes : List (Option Node)) (p : Parser κ), (concatLoop tc cs nodes p).isSome = true := by
  induction cs with
  | nil => intro nodes p; rfl
  | cons c cs ih =>
    intro nodes p
    have hc := h c (List.mem_cons_self _ _) p
    simp only [concatLoop]
    cases hx : c p with
    | none => simp [hx] at hc
    | some x =>
      obtain ⟨⟨n, e⟩, p1⟩ := x
      cases e with
      | none => exact ih (fun a ha => h a (List.mem_cons_of_mem _ ha)) _ _
      | some err => rfl

theorem Concat_returns {κ : Type} (cs : List (Consumer κ)) (action : Action κ)
    (h : ∀ c ∈ cs, ∀ p, (c p).isSome = true) (p : Parser κ) :
    (Concat cs action p).isSome = true := by
  have hl := concatLoop_returns p.S.TC cs h [] p
  simp only [Concat, concat]
  cases hx : concatLoop p.S.TC cs [] p with
  | none => simp [hx] at hl
  | some x =>
    obtain ⟨⟨nodes, e⟩, p1⟩ := x
    cases e with
    | some err => rfl
    | none =>
      simp only
      split <;> rfl

/-! ## Rollback -/

theorem setTC_TC {κ : Type} (p : Parser κ) (tc : Int) : (p.setTC tc).S.TC = tc := rfl

theorem altLoop_error_cursor {κ : Type} (tc : Int) (cs : List (Consumer κ)) :
    ∀ (v : AltVars) (p : Parser κ) (n : Option Node) (e : ParseError) (p' : Parser κ),
      altLoop tc cs v p = some ((n, some e), p') → p'.S.TC = tc := by
  induction cs with
  | nil =>
    intro v p n e p' h
    simp only [altLoop, Option.some.injEq, Prod.mk.injEq] at h
    rw [← h.2]; rfl
  | cons c cs ih =>
    intro v p n e p' h
    simp only [altLoop] at h
    split at h
    · exact absurd h (by simp)
    · simp at h
    · exact ih _ _ _ _ _ h

theorem concatLoop_error_cursor {κ : Type} (tc : Int) (cs : List (Consumer κ)) :
    ∀ (nodes : List (Option Node)) (p : Parser κ) (ns : List (Option Node)) (e : ParseError)
      (p' : Parser κ),
      concatLoop tc cs nodes p = some ((ns, some e), p') → p'.S.TC = tc := by
  induction cs with
  | nil =>
    intro nodes p ns e p' h
    simp [concatLoop] at h
  | cons c cs ih =>
    intro nodes p ns e p' h
    simp only [concatLoop] at h
    split at h
    · exact absurd h (by simp)
    · exact ih _ _ _ _ _ h
    · simp only [Option.some.injEq, Prod.mk.injEq] at h
      rw [← h.2]; rfl

theorem Concat_error_cursor {κ : Type} (consumers : List (Consumer κ)) (action : Action κ)
    (p : Parser κ) (n : Option Node) (e : ParseError) (p' : Parser κ)
    (h : Concat consumers action p = some ((n, some e), p')) : p'.S.TC = p.S.TC := by
  simp only [Concat] at h
  split at h
  · exact absurd h (by simp)
  · simp only [Option.some.injEq, Prod.mk.injEq] at h
    rw [← h.2]; rfl
  · split at h
    · simp only [Option.some.injEq, Prod.mk.injEq] at h
      rw [← h.2]; rfl
    · simp at h

/-- C1. Rollback of choice and sequence: whatever the sub-consumers do, when
the consumer built by `Alt` returns an error, or the consumer built by `Concat`
returns an error (from a sub-consumer or from the action), the token cursor
after the call is the cursor at entry. -/
theorem rollback_on_failure {κ : Type} (consumers : List (Consumer κ)) (action : Action κ)
    (p p' : Parser κ) (n : Option Node) (e : ParseError)
    (h : Alt consumers p = some ((n, some e), p') ∨
      Concat consumers action p = some ((n, some e), p')) :
    p'.S.TC = p.S.TC := by
  rcases h with h | h
  · exact altLoop_error_cursor _ _ _ _ _ _ _ h
  · exact Concat_error_cursor _ _ _ _ _ _ h

/-- Witness of C1: a sequence that reads `a` and whose action fails leaves the
cursor at 0, and so does a choice whose only alternative reads `a` and then
fails on `b`. -/
theorem rollback_on_failure_witness :
    (Concat [Consume abcTokens abcIds "a"] failAction abxParser =
        some ((none, some (Error "refused" none)),
          { abxParser with UserError := some (Error "refused" none), ActionFailures := 1 })) ∧
      ({ abxParser with UserError := some (Error "refused" none), ActionFailures := 1 } :
        Parser Unit).S.TC = abxParser.S.TC :=
  ⟨rfl, rollback_on_failure [Consume abcTokens abcIds "a"] failAction abxParser _ none
    (Error "refused" none) (Or.inr rfl)⟩

/-! ## Ordered choice -/

theorem altLoop_append_failed {κ : Type} (tc : Int) (pre rest : List (Consumer κ)) :
    ∀ (v : AltVars) (p : Parser κ) (es : List ParseError) (v' : AltVars) (q : Parser κ),
      altFailed tc pre v p = some (es, v', q) →
        altLoop tc (pre ++ rest) v p = altLoop tc rest v' q := by
  induction pre with
  | nil =>
    intro v p es v' q h
    simp only [altFailed, Option.some.injEq, Prod.mk.injEq] at h
    obtain ⟨-, rfl, rfl⟩ := h
    rfl
  | cons c cs ih =>
    intro v p es v' q h
    simp only [altFailed] at h
    split at h
    · rename_i e v1 p1 hb
      split at h
      · rename_i es2 v2 p2 hf
        simp only [Option.some.injEq, Prod.mk.injEq] at h
        obtain ⟨-, rfl, rfl⟩ := h
        simp only [List.cons_append, altLoop, hb]
        exact ih _ _ _ _ _ hf
      · simp at h
    · simp at h

theorem altBody_reset {κ : Type} (tc : Int) (c : Consumer κ) (v : AltVars) (p : Parser κ) :
    altBody tc (fun s => c (s.setTC tc)) v p = altBody tc c v p := rfl

theorem altLoop_reset {κ : Type} (tc : Int) (cs : List (Consumer κ)) :
    ∀ (v : AltVars) (p : Parser κ),
      altLoop tc (cs.map (fun c s => c (s.setTC tc))) v p = altLoop tc cs v p := by
  induction cs with
  | nil => intro v p; rfl
  | cons c cs ih =>
    intro v p
    simp only [List.map_cons, altLoop, altBody_reset]
    split
    · rfl
    · rfl
    · exact ih _ _

theorem altBody_success {κ : Type} (tc : Int) (c : Consumer κ) (v : AltVars) (p q : Parser κ)
    (n : Option Node) (h : c (p.setTC tc) = some ((n, none), q)) :
    altBody tc c v p = some (.ret n q) := by
  simp [altBody, h]

/-- C2. Ordered choice is first-match-wins. Every alternative sees the cursor
that `Alt` was entered with (the choice is unchanged when every alternative
first resets the cursor to it). When the alternatives before `c` all fail and
`c`, started at the entry cursor in the state they leave, returns no error,
`Alt` returns the node of `c` with no error and the state `c` left, cursor
included, whatever the alternatives after `c` are: they are not called. -/
theorem first_match_wins {κ : Type} (before after : List (Consumer κ)) (c : Consumer κ)
    (p q q' : Parser κ) (es : List ParseError) (v : AltVars) (n : Option Node)
    (hbefore : altFailed p.S.TC before { err := none, always := false } p = some (es, v, q))
    (hc : c (q.setTC p.S.TC) = some ((n, none), q')) :
    Alt (before ++ c :: after) p = some ((n, none), q') ∧
      Alt (before ++ c :: after) p = Alt (before ++ [c]) p ∧
      Alt ((before ++ c :: after).map (fun a s => a (s.setTC p.S.TC))) p =
        Alt (before ++ c :: after) p := by
  have key : ∀ rest : List (Consumer κ),
      Alt (before ++ c :: rest) p = some ((n, none), q') := by
    intro rest
    simp only [Alt]
    rw [altLoop_append_failed _ _ _ _ _ _ _ _ hbefore]
    simp only [altLoop, altBody_success _ _ _ _ _ _ hc]
  refine ⟨key after, ?_, ?_⟩
  · rw [key after, key []]
  · simp only [Alt]
    exact altLoop_reset _ _ _ _

/-- Witness of C2: on the tokens `a b x`, the choice between `b`, `a` and `x`
returns the leaf of `a`: `b` fails, `a` succeeds, `x` is not tried. -/
theorem first_match_wins_witness :
    altFailed abxParser.S.TC [Consume abcTokens abcIds "b"] { err := none, always := false }
        abxParser =
      some ([Error "Expected b" (some (tokenAt 0 "a" 1))],
        { err := some (Error "Expected b" (some (tokenAt 0 "a" 1))), always := false },
        { abxParser with LastError := some (Error "Expected b" (some (tokenAt 0 "a" 1))) }) ∧
    Alt ([Consume abcTokens abcIds "b"] ++
        Consume abcTokens abcIds "a" :: [Consume abcTokens abcIds "x"]) abxParser =
      some ((some (NewTokenNode abcTokens (tokenAt 0 "a" 1)), none),
        ({ abxParser with
          LastError := some (Error "Expected b" (some (tokenAt 0 "a" 1))) }).setTC 1) :=
  ⟨rfl, (first_match_wins [Consume abcTokens abcIds "b"] [Consume abcTokens abcIds "x"]
    (Consume abcTokens abcIds "a") abxParser _ _ _ _ _ rfl rfl).1⟩

theorem foldl_keepOrReplace_mem (es : List ParseError) :
    ∀ e : ParseError, es.foldl keepOrReplace e ∈ e :: es := by
  induction es with
  | nil => intro e; simp
  | cons x xs ih =>
    intro e
    simp only [List.foldl_cons]
    have h := ih (keepOrReplace e x)
    rcases List.mem_cons.1 h with h1 | h1
    · rw [h1]
      unfold keepOrReplace
      split <;> simp
    · exact List.mem_cons_of_mem _ (List.mem_cons_of_mem _ h1)

theorem altBody_cont_err {κ : Type} (tc : Int) (c : Consumer κ) (v v1 : AltVars)
    (p p1 : Parser κ) (e : ParseError) (h : altBody tc c v p = some (.cont e v1 p1)) :
    v1.err = match v.err with
      | none => some e
      | some b => some (keepOrReplace b e) := by
  simp only [altBody] at h
  split at h
  · simp at h
  · simp at h
  · rename_i n e' q hc
    have herr : (if v.err.isNone then some e'
        else if ParseError.Less (some e') v.err then v.err else some e') =
        match v.err with
        | none => some e'
        | some b => some (keepOrReplace b e') := by
      cases hv : v.err with
      | none => simp
      | some b =>
        simp only [Option.isNone_some, Bool.false_eq_true, if_false, keepOrReplace]
        split <;> rfl
    rw [herr] at h
    split at h
    · simp only [Option.some.injEq, AltStep.cont.injEq] at h
      obtain ⟨rfl, rfl, -⟩ := h
      rfl
    · split at h
      · simp only [Option.some.injEq, AltStep.cont.injEq] at h
        obtain ⟨rfl, rfl, -⟩ := h
        rfl
      · simp only [Option.some.injEq, AltStep.cont.injEq] at h
        obtain ⟨rfl, rfl, -⟩ := h
        rfl

theorem altFailed_err {κ : Type} (tc : Int) (cs : List (Consumer κ)) :
    ∀ (v v' : AltVars) (p q : Parser κ) (es : List ParseError),
      altFailed tc cs v p = some (es, v', q) →
        es.length = cs.length ∧
        v'.err = match v.err with
          | none => representative es
          | some b => some (es.foldl keepOrReplace b) := by
  induction cs with
  | nil =>
    intro v v' p q es h
    simp only [altFailed, Option.some.injEq, Prod.mk.injEq] at h
    obtain ⟨rfl, rfl, -⟩ := h
    cases hv : v.err <;> simp [representative]
  | cons c cs ih =>
    intro v v' p q es h
    simp only [altFailed] at h
    split at h
    · rename_i e v1 p1 hb
      split at h
      · rename_i es2 v2 p2 hf
        simp only [Option.some.injEq, Prod.mk.injEq] at h
        obtain ⟨rfl, rfl, rfl⟩ := h
        have h1 := altBody_cont_err _ _ _ _ _ _ _ hb
        obtain ⟨hl, h2⟩ := ih _ _ _ _ _ hf
        refine ⟨by simp [hl], ?_⟩
        rw [h2, h1]
        cases hv : v.err <;> simp [representative]
      · simp at h
    · simp at h

/-- C3. Representative error of a failed choice: when the alternatives of
`Alt(c1, ..., cn)`, n >= 1, all fail, with the errors `e1, ..., en`, the choice
returns no node and the error of the fold `best_1 = e1`,
`best_(k+1) = best_k` if `e_(k+1).Less(best_k)` and `e_(k+1)` otherwise. That
error is one of the `ei`; in a step of the fold a located candidate replaces a
best without location, and of two mutually not-less errors the later wins. -/
theorem representative_error {κ : Type} (consumers : List (Consumer κ)) (p q : Parser κ)
    (es : List ParseError) (v : AltVars) (hn : consumers ≠ [])
    (hfail : altFailed p.S.TC consumers { err := none, always := false } p = some (es, v, q)) :
    es.length = consumers.length ∧
      (∃ r, representative es = some r ∧ r ∈ es ∧
        Alt consumers p = some ((none, some r), q.setTC p.S.TC)) ∧
      (∀ best cand : ParseError, best.At = none → cand.At ≠ none →
        keepOrReplace best cand = cand) ∧
      (∀ best cand : ParseError, ParseError.Less (some best) (some cand) = false →
        ParseError.Less (some cand) (some best) = false → keepOrReplace best cand = cand) := by
  obtain ⟨hl, herr⟩ := altFailed_err _ _ _ _ _ _ _ hfail
  simp only at herr
  refine ⟨hl, ?_, ?_, ?_⟩
  · cases es with
    | nil =>
      cases consumers with
      | nil => exact absurd rfl hn
      | cons c cs => simp at hl
    | cons e rest =>
      refine ⟨rest.foldl keepOrReplace e, rfl, foldl_keepOrReplace_mem rest e, ?_⟩
      have h := altLoop_append_failed p.S.TC consumers [] _ _ _ _ _ hfail
      simp only [List.append_nil] at h
      simp only [Alt, h, altLoop, herr, representative]
  · intro best cand hb _
    simp [keepOrReplace, Less_unlocated_right cand best hb]
  · intro best cand _ h
    simp [keepOrReplace, h]

/-- Witness of C3: on the tokens `a b x`, the alternatives `b` and `x` both
fail at the first token; the two errors have the same span, so the later one
is returned. -/
theorem representative_error_witness :
    [Consume abcTokens abcIds "b", Consume abcTokens abcIds "x"] ≠ ([] : List (Consumer Unit)) ∧
    altFailed abxParser.S.TC [Consume abcTokens abcIds "b", Consume abcTokens abcIds "x"]
        { err := none, always := false } abxParser =
      some ([Error "Expected b" (some (tokenAt 0 "a" 1)),
          Error "Expected x" (some (tokenAt 0 "a" 1))],
        { err := some (Error "Expected x" (some (tokenAt 0 "a" 1))), always := false },
        { abxParser with LastError := some (Error "Expected b" (some (tokenAt 0 "a" 1))) }) ∧
    ∃ r, representative [Error "Expected b" (some (tokenAt 0 "a" 1)),
          Error "Expected x" (some (tokenAt 0 "a" 1))] = some r ∧
      r ∈ [Error "Expected b" (some (tokenAt 0 "a" 1)),
          Error "Expected x" (some (tokenAt 0 "a" 1))] ∧
      Alt [Consume abcTokens abcIds "b", Consume abcTokens abcIds "x"] abxParser =
        some ((none, some r),
          ({ abxParser with
            LastError := some (Error "Expected b" (some (tokenAt 0 "a" 1))) }).setTC
              abxParser.S.TC) :=
  ⟨by simp, rfl,
    (representative_error [Consume abcTokens abcIds "b", Consume abcTokens abcIds "x"]
      abxParser _ _ _ (by simp) rfl).2.1⟩

/-! ## `LastError` -/

theorem Less_irrefl (a : Option ParseError) : ParseError.Less a a = false := by
  cases a with
  | none => exact Less_none_left _
  | some x =>
    cases hx : x.At with
    | none => exact Less_unlocated_left x x hx
    | some la =>
      cases hl : ParseError.Less (some x) (some x) with
      | false => rfl
      | true =>
        have h2 := (Less_located x x la la hx hx).1 hl
        unfold spanLess at h2
        omega

theorem Less_asymm (a b : Option ParseError) (h : ParseError.Less a b = true) :
    ParseError.Less b a = false := by
  cases a with
  | none => simp [Less_none_left] at h
  | some x =>
    cases b with
    | none => simp [Less_none_right] at h
    | some y =>
      cases hx : x.At with
      | none => simp [Less_unlocated_left x y hx] at h
      | some la =>
        cases hy : y.At with
        | none => simp [Less_unlocated_right x y hy] at h
        | some lb =>
          have h1 := (Less_located x y la lb hx hy).1 h
          cases hl : ParseError.Less (some y) (some x) with
          | false => rfl
          | true =>
            have h2 := (Less_located y x lb la hy hx).1 hl
            unfold spanLess at h1 h2
            omega

theorem nested_first_two :
    altFailed 0 [nestedFirst.Consume nestedGrammar 6, nestedSecond.Consume nestedGrammar 6]
        { err := none, always := false } abxParser =
      some ([Error "Expected b" (some (tokenAt 0 "a" 1)),
          Error "Expected c" (some (tokenAt 1 "b" 2))],
        { err := some (Error "Expected c" (some (tokenAt 1 "b" 2))), always := true },
        { abxParser with LastError := some (Error "Expected c" (some (tokenAt 1 "b" 2))) }) :=
  rfl

theorem nested_third :
    nestedThird.Consume nestedGrammar 6
        (({ abxParser with
          LastError := some (Error "Expected c" (some (tokenAt 1 "b" 2))) }).setTC 0) =
      some ((none, some (Error "Expected d" (some (tokenAt 1 "b" 2)))),
        { abxParser with LastError := some (Error "Expected c" (some (tokenAt 4 "x" 3))) }) :=
  rfl

theorem nested_third_pass :
    altBody 0 (nestedThird.Consume nestedGrammar 6)
        { err := some (Error "Expected c" (some (tokenAt 1 "b" 2))), always := true }
        { abxParser with LastError := some (Error "Expected c" (some (tokenAt 1 "b" 2))) } =
      some (.cont (Error "Expected d" (some (tokenAt 1 "b" 2)))
        { err := some (Error "Expected d" (some (tokenAt 1 "b" 2))), always := true }
        { abxParser with LastError := some (Error "Expected d" (some (tokenAt 1 "b" 2))) }) := by
  simp only [altBody, nested_third]
  rfl

set_option maxHeartbeats 1000000 in
theorem nested_start :
    nestedGrammar.consumeStart 8 freshMemo
        (listScanner [tokenAt 0 "a" 1, tokenAt 1 "b" 2, tokenAt 4 "x" 3]) () =
      some ((some (NewTokenNode abcTokens (tokenAt 0 "a" 1)), none),
        ({ abxParser with
          LastError := some (Error "Expected d" (some (tokenAt 1 "b" 2))) }).setTC 1) :=
  rfl

theorem nested_parse :
    nestedGrammar.Parse 8 freshMemo
        (listScanner [tokenAt 0 "a" 1, tokenAt 1 "b" 2, tokenAt 4 "x" 3]) () =
      some (none, some (Error "Expected d" (some (tokenAt 1 "b" 2)))) := by
  simp only [Grammar.Parse, nested_start]
  rfl

/-- Counterexample to C5. In the grammar `nestedGrammar` on the tokens `a b x`,
the third pass of the loop of the choice `nestedChoice` finds `LastError` at
the error `Expected c` at column 3, which a choice nested in its third
alternative stored, and, its flag `always` being set, replaces it by its own
best error `Expected d` at column 2, which is `Less` than the replaced one.
The start production then succeeds on `a`, input is left, and `Parse` reports
that downgraded `LastError`. -/
theorem lastError_downgraded :
    altFailed 0 [nestedFirst.Consume nestedGrammar 6, nestedSecond.Consume nestedGrammar 6]
        { err := none, always := false } abxParser =
      some ([Error "Expected b" (some (tokenAt 0 "a" 1)),
          Error "Expected c" (some (tokenAt 1 "b" 2))],
        { err := some (Error "Expected c" (some (tokenAt 1 "b" 2))), always := true },
        { abxParser with LastError := some (Error "Expected c" (some (tokenAt 1 "b" 2))) }) ∧
    nestedThird.Consume nestedGrammar 6
        (({ abxParser with
          LastError := some (Error "Expected c" (some (tokenAt 1 "b" 2))) }).setTC 0) =
      some ((none, some (Error "Expected d" (some (tokenAt 1 "b" 2)))),
        { abxParser with LastError := some (Error "Expected c" (some (tokenAt 4 "x" 3))) }) ∧
    altBody 0 (nestedThird.Consume nestedGrammar 6)
        { err := some (Error "Expected c" (some (tokenAt 1 "b" 2))), always := true }
        { abxParser with LastError := some (Error "Expected c" (some (tokenAt 1 "b" 2))) } =
      some (.cont (Error "Expected d" (some (tokenAt 1 "b" 2)))
        { err := some (Error "Expected d" (some (tokenAt 1 "b" 2))), always := true }
        { abxParser with LastError := some (Error "Expected d" (some (tokenAt 1 "b" 2))) }) ∧
    ParseError.Less (some (Error "Expected d" (some (tokenAt 1 "b" 2))))
      (some (Error "Expected c" (some (tokenAt 4 "x" 3)))) = true ∧
    nestedGrammar.consumeStart 8 freshMemo
        (listScanner [tokenAt 0 "a" 1, tokenAt 1 "b" 2, tokenAt 4 "x" 3]) () =
      some ((some (NewTokenNode abcTokens (tokenAt 0 "a" 1)), none),
        ({ abxParser with
          LastError := some (Error "Expected d" (some (tokenAt 1 "b" 2))) }).setTC 1) ∧
    nestedGrammar.Parse 8 freshMemo
        (listScanner [tokenAt 0 "a" 1, tokenAt 1 "b" 2, tokenAt 4 "x" 3]) () =
      some (none, some (Error "Expected d" (some (tokenAt 1 "b" 2)))) :=
  ⟨nested_first_two, nested_third, nested_third_pass, by decide, nested_start, nested_parse⟩

theorem altBody_cont_cases {κ : Type} (tc : Int) (c : Consumer κ) (v v1 : AltVars)
    (p p1 : Parser κ) (e : ParseError) (h : altBody tc c v p = some (.cont e v1 p1)) :
    ∃ n q', c (p.setTC tc) = some ((n, some e), q') ∧
      (((q'.LastError = none ∨ v.always = true) ∧ v1.always = v.always ∧
          p1 = { q' with LastError := v1.err }) ∨
        (q'.LastError ≠ none ∧ v.always = false ∧
          ParseError.Less q'.LastError v1.err = true ∧ v1.always = true ∧
          p1 = { q' with LastError := v1.err }) ∨
        (q'.LastError ≠ none ∧ v.always = false ∧
          ParseError.Less q'.LastError v1.err = false ∧ v1.always = false ∧ p1 = q')) := by
  simp only [altBody] at h
  split at h
  · simp at h
  · simp at h
  · rename_i n e' q hc
    generalize (if v.err.isNone then some e'
        else if ParseError.Less (some e') v.err then v.err else some e') = err at h
    split at h
    · rename_i hcond
      simp only [Option.some.injEq, AltStep.cont.injEq] at h
      obtain ⟨rfl, rfl, rfl⟩ := h
      refine ⟨n, q, hc, Or.inl ⟨?_, rfl, rfl⟩⟩
      simpa [Option.isNone_iff_eq_none] using hcond
    · rename_i hcond
      have hcond' : q.LastError ≠ none ∧ v.always = false := by
        simpa [Option.isNone_iff_eq_none] using hcond
      split at h
      · rename_i hless
        simp only [Option.some.injEq, AltStep.cont.injEq] at h
        obtain ⟨rfl, rfl, rfl⟩ := h
        exact ⟨n, q, hc, Or.inr (Or.inl ⟨hcond'.1, hcond'.2, hless, rfl, rfl⟩)⟩
      · rename_i hless
        simp only [Option.some.injEq, AltStep.cont.injEq] at h
        obtain ⟨rfl, rfl, rfl⟩ := h
        refine ⟨n, q, hc, Or.inr (Or.inr ⟨hcond'.1, hcond'.2, ?_, hcond'.2, rfl⟩)⟩
        simpa using hless

theorem altBody_always_inv {κ : Type} (tc : Int) (c : Consumer κ) (v v1 : AltVars)
    (p p1 : Parser κ) (e : ParseError) (h : altBody tc c v p = some (.cont e v1 p1)) :
    v1.always = true → p1.LastError = v1.err := by
  obtain ⟨n, q', hc, hcase⟩ := altBody_cont_cases _ _ _ _ _ _ _ h
  intro h1
  rcases hcase with ⟨_, _, rfl⟩ | ⟨_, _, _, _, rfl⟩ | ⟨_, _, _, h2, _⟩
  · rfl
  · rfl
  · rw [h2] at h1; exact absurd h1 (by simp)

theorem altFailed_always_inv {κ : Type} (tc : Int) (cs : List (Consumer κ)) :
    ∀ (v v' : AltVars) (p q : Parser κ) (es : List ParseError),
      altFailed tc cs v p = some (es, v', q) →
        (v.always = true → p.LastError = v.err) → v'.always = true → q.LastError = v'.err := by
  induction cs with
  | nil =>
    intro v v' p q es h hinv
    simp only [altFailed, Option.some.injEq, Prod.mk.injEq] at h
    obtain ⟨-, rfl, rfl⟩ := h
    exact hinv
  | cons c cs ih =>
    intro v v' p q es h _
    simp only [altFailed] at h
    split at h
    · rename_i e v1 p1 hb
      split at h
      · rename_i es2 v2 p2 hf
        simp only [Option.some.injEq, Prod.mk.injEq] at h
        obtain ⟨-, rfl, rfl⟩ := h
        exact ih _ _ _ _ _ hf (altBody_always_inv _ _ _ _ _ _ _ hb)
      · simp at h
    · simp at h

/-- C5, amended. In a call of `Alt`, let the alternatives `before` have failed
and let the next alternative `c` fail, leaving `LastError` at a non-nil value
`old`. If the flag `always` of this call is unset, or if `c` left `LastError`
as it found it (no choice nested in `c` changed it), then the value this pass
of the loop leaves in `LastError` is not `Less` than `old`; and when the flag
is unset and the value changed, `old` is `Less` than the new value. -/
theorem lastError_step_not_downgraded {κ : Type} (tc : Int) (before : List (Consumer κ))
    (c : Consumer κ) (p q q' q1 : Parser κ) (es : List ParseError) (v v1 : AltVars)
    (n : Option Node) (e old : ParseError)
    (hbefore : altFailed tc before { err := none, always := false } p = some (es, v, q))
    (hc : c (q.setTC tc) = some ((n, some e), q'))
    (hold : q'.LastError = some old)
    (hpass : altBody tc c v q = some (.cont e v1 q1))
    (hkeep : v.always = true → q'.LastError = q.LastError) :
    ParseError.Less q1.LastError (some old) = false ∧
      (v.always = false → q1.LastError ≠ some old →
        ParseError.Less (some old) q1.LastError = true) := by
  obtain ⟨n', q'', hc', hcase⟩ := altBody_cont_cases _ _ _ _ _ _ _ hpass
  rw [hc] at hc'
  simp only [Option.some.injEq, Prod.mk.injEq, true_and] at hc'
  obtain ⟨-, rfl⟩ := hc'
  have herr := altBody_cont_err _ _ _ _ _ _ _ hpass
  rcases hcase with ⟨hcond, hal, rfl⟩ | ⟨_, hal, hless, _, rfl⟩ | ⟨_, hal, _, _, rfl⟩
  · rcases hcond with hnone | htrue
    · rw [hold] at hnone; exact absurd hnone (by simp)
    · have hq : q.LastError = v.err :=
        altFailed_always_inv _ _ _ _ _ _ _ hbefore (by simp) htrue
      have hv : v.err = some old := by rw [← hq, ← hkeep htrue, hold]
      refine ⟨?_, fun h => by rw [htrue] at h; exact absurd h (by simp)⟩
      simp only [herr, hv, keepOrReplace]
      split
      · exact Less_irrefl _
      · rename_i hl; simpa using hl
  · rw [hold] at hless
    exact ⟨Less_asymm _ _ hless, fun _ _ => hless⟩
  · refine ⟨?_, fun _ h => absurd hold h⟩
    rw [hold]; exact Less_irrefl _

/-- Witness of C5, amended: entered with `LastError` at column 0, the choice
between `b` and `x` on the tokens `a b x` sets its flag in the first pass
(`Expected b` at column 1 is stored) and in the second pass replaces the
stored error by `Expected x` at the same span, which is not less than it. -/
theorem lastError_step_not_downgraded_witness :
    altFailed 0 [Consume abcTokens abcIds "b"] { err := none, always := false } earlierParser =
      some ([Error "Expected b" (some (tokenAt 0 "a" 1))],
        { err := some (Error "Expected b" (some (tokenAt 0 "a" 1))), always := true },
        { abxParser with LastError := some (Error "Expected b" (some (tokenAt 0 "a" 1))) }) ∧
    Consume abcTokens abcIds "x"
        (({ abxParser with
          LastError := some (Error "Expected b" (some (tokenAt 0 "a" 1))) }).setTC 0) =
      some ((none, some (Error "Expected x" (some (tokenAt 0 "a" 1)))),
        { abxParser with LastError := some (Error "Expected b" (some (tokenAt 0 "a" 1))) }) ∧
    altBody 0 (Consume abcTokens abcIds "x")
        { err := some (Error "Expected b" (some (tokenAt 0 "a" 1))), always := true }
        { abxParser with LastError := some (Error "Expected b" (some (tokenAt 0 "a" 1))) } =
      some (.cont (Error "Expected x" (some (tokenAt 0 "a" 1)))
        { err := some (Error "Expected x" (some (tokenAt 0 "a" 1))), always := true }
        { abxParser with LastError := some (Error "Expected x" (some (tokenAt 0 "a" 1))) }) ∧
    ParseError.Less (some (Error "Expected x" (some (tokenAt 0 "a" 1))))
      (some (Error "Expected b" (some (tokenAt 0 "a" 1)))) = false :=
  ⟨rfl, rfl, rfl,
    (lastError_step_not_downgraded 0 [Consume abcTokens abcIds "b"]
      (Consume abcTokens abcIds "x") earlierParser
      { abxParser with LastError := some (Error "Expected b" (some (tokenAt 0 "a" 1))) }
      { abxParser with LastError := some (Error "Expected b" (some (tokenAt 0 "a" 1))) }
      { abxParser with LastError := some (Error "Expected x" (some (tokenAt 0 "a" 1))) }
      _ _ _ none _ (Error "Expected b" (some (tokenAt 0 "a" 1))) rfl rfl rfl rfl
      (fun _ => rfl)).1⟩

/-! ## More fuel does not change a result -/

theorem refines_self {κ : Type} (c : Consumer κ) : Refines c c := fun _ _ h => h

theorem forall₂_map_refines {κ α : Type} (f f' : α → Consumer κ)
    (h : ∀ a, Refines (f a) (f' a)) (l : List α) :
    List.Forall₂ Refines (l.map f) (l.map f') := by
  induction l with
  | nil => exact List.Forall₂.nil
  | cons a l ih => exact List.Forall₂.cons (h a) ih

theorem concatLoop_mono {κ : Type} (tc : Int) (cs cs' : List (Consumer κ))
    (h : List.Forall₂ Refines cs cs') :
    ∀ (nodes : List (Option Node)) (p : Parser κ)
      (r : (List (Option Node) × Option ParseError) × Parser κ),
      concatLoop tc cs nodes p = some r → concatLoop tc cs' nodes p = some r := by
  induction h with
  | nil => intro nodes p r hr; exact hr
  | @cons c c' l l' hc _ ih =>
    intro nodes p r hr
    simp only [concatLoop] at hr ⊢
    cases hcp : c p with
    | none => simp [hcp] at hr
    | some x =>
      rw [hc p x hcp]
      rw [hcp] at hr
      obtain ⟨⟨n, e⟩, p1⟩ := x
      cases e with
      | none => exact ih _ _ _ hr
      | some err => exact hr

theorem Concat_mono {κ : Type} (cs cs' : List (Consumer κ)) (action : Action κ)
    (h : List.Forall₂ Refines cs cs') : Refines (Concat cs action) (Concat cs' action) := by
  intro p r hr
  simp only [Concat, concat] at hr ⊢
  cases hl : concatLoop p.S.TC cs [] p with
  | none => simp [hl] at hr
  | some x =>
    rw [concatLoop_mono _ _ _ h _ _ _ hl]
    rw [hl] at hr
    exact hr

theorem Effect_mono {κ : Type} (cs cs' : List (Consumer κ)) (act : SideEffect κ)
    (h : List.Forall₂ Refines cs cs') : Refines (Effect cs act) (Effect cs' act) := by
  intro p r hr
  simp only [Effect, concat] at hr ⊢
  cases hl : concatLoop p.S.TC cs [] p with
  | none => simp [hl] at hr
  | some x =>
    rw [concatLoop_mono _ _ _ h _ _ _ hl]
    rw [hl] at hr
    exact hr

theorem altBody_mono {κ : Type} (tc : Int) (c c' : Consumer κ) (h : Refines c c')
    (v : AltVars) (p : Parser κ) (x : AltStep κ) (hx : altBody tc c v p = some x) :
    altBody tc c' v p = some x := by
  simp only [altBody] at hx ⊢
  cases hcp : c (p.setTC tc) with
  | none => simp [hcp] at hx
  | some y =>
    rw [h _ y hcp]
    rw [hcp] at hx
    exact hx

theorem altLoop_mono {κ : Type} (tc : Int) (cs cs' : List (Consumer κ))
    (h : List.Forall₂ Refines cs cs') :
    ∀ (v : AltVars) (p : Parser κ) (r : Result × Parser κ),
      altLoop tc cs v p = some r → altLoop tc cs' v p = some r := by
  induction h with
  | nil => intro v p r hr; exact hr
  | @cons c c' l l' hc _ ih =>
    intro v p r hr
    simp only [altLoop] at hr ⊢
    cases hb : altBody tc c v p with
    | none => simp [hb] at hr
    | some x =>
      rw [altBody_mono tc c c' hc v p x hb]
      rw [hb] at hr
      cases x with
      | ret n p1 => exact hr
      | cont e v1 p1 => exact ih _ _ _ hr

theorem Alt_mono {κ : Type} (cs cs' : List (Consumer κ)) (h : List.Forall₂ Refines cs cs') :
    Refines (Alt cs) (Alt cs') := by
  intro p r hr
  exact altLoop_mono _ _ _ h _ _ _ hr

theorem Memoize_mono {κ : Type} (cell : Nat) (c c' : Consumer κ) (h : Refines c c') :
    Refines (Memoize cell c) (Memoize cell c') := by
  intro p r hr
  simp only [Memoize] at hr ⊢
  split
  · rename_i res hlook
    rw [hlook] at hr
    exact hr
  · rename_i hlook
    rw [hlook] at hr
    simp only at hr
    split at hr
    · simp at hr
    · rename_i n e p1 hc
      rw [h _ _ hc]
      exact hr

theorem Combinator_fuel_succ {κ : Type} (g : Grammar κ) :
    ∀ (fuel : Nat) (c : Combinator κ), Refines (c.Consume g fuel) (c.Consume g (fuel + 1)) := by
  intro fuel
  induction fuel with
  | zero =>
    intro c p r h
    simp [Combinator.Consume] at h
  | succ fuel ih =>
    intro c
    have hmap : ∀ cs : List (Combinator κ), List.Forall₂ Refines
        (cs.map (Combinator.Consume g fuel)) (cs.map (Combinator.Consume g (fuel + 1))) :=
      fun cs => forall₂_map_refines _ _ ih cs
    cases c with
    | consume token => exact refines_self _
    | peek tokens => exact refines_self _
    | epsilon n => exact refines_self _
    | lazy name =>
      intro p r h
      simp only [Combinator.Consume] at h ⊢
      cases hprod : g.productions name with
      | none => simp [hprod] at h
      | some b =>
        simp only [hprod] at h ⊢
        exact ih b p r h
    | concat cs action => exact Concat_mono _ _ _ (hmap cs)
    | effect cs act => exact Effect_mono _ _ _ (hmap cs)
    | alt cs => exact Alt_mono _ _ (hmap cs)
    | memoize cell c => exact Memoize_mono _ _ _ (ih c)

theorem Combinator_fuel_mono {κ : Type} (g : Grammar κ) (c : Combinator κ) (fuel fuel' : Nat)
    (h : fuel ≤ fuel') : Refines (c.Consume g fuel) (c.Consume g fuel') := by
  induction h with
  | refl => exact refines_self _
  | step _ ih => exact fun p r hr => Combinator_fuel_succ g _ c p r (ih p r hr)

theorem consumeStart_fuel_mono {κ : Type} (g : Grammar κ) (fuel fuel' : Nat)
    (h : fuel ≤ fuel') (memo : Nat → MemoVars) (s : Scanner) (parserCtx : κ)
    (r : Result × Parser κ) (hr : g.consumeStart fuel memo s parserCtx = some r) :
    g.consumeStart fuel' memo s parserCtx = some r := by
  simp only [Grammar.consumeStart] at hr ⊢
  cases hprod : g.productions g.startProduction with
  | none => simp [hprod] at hr
  | some c =>
    simp only [hprod] at hr ⊢
    exact Combinator_fuel_mono g c fuel fuel' h _ _ hr

/-! ## Semantic failures -/

theorem Sticky.refl {κ : Type} (p : Parser κ) : Sticky p p :=
  ⟨le_refl _, fun h => h.elim id (fun h => absurd h (lt_irrefl _))⟩

theorem Sticky.trans {κ : Type} {p q r : Parser κ} (h1 : Sticky p q) (h2 : Sticky q r) :
    Sticky p r := by
  refine ⟨le_trans h1.1 h2.1, fun h => ?_⟩
  rcases h with h | h
  · exact h2.2 (Or.inl (h1.2 (Or.inl h)))
  · by_cases hq : p.ActionFailures < q.ActionFailures
    · exact h2.2 (Or.inl (h1.2 (Or.inr hq)))
    · exact h2.2 (Or.inr (by have := h1.1; omega))

theorem Sticky.of_eq {κ : Type} {p q : Parser κ} (hu : q.UserError = p.UserError)
    (hf : q.ActionFailures = p.ActionFailures) : Sticky p q := by
  refine ⟨by rw [hf], fun h => ?_⟩
  rw [hu]
  rcases h with h | h
  · exact h
  · rw [hf] at h; exact absurd h (lt_irrefl _)

theorem Sticky.setTC {κ : Type} {p q : Parser κ} (tc : Int) (h : Sticky p q) :
    Sticky p (q.setTC tc) :=
  h.trans (Sticky.of_eq rfl rfl)

theorem Sticky.fail {κ : Type} {p q : Parser κ} (e : ParseError)
    (hf : q.ActionFailures = p.ActionFailures) :
    Sticky p { q with UserError := some e, ActionFailures := q.ActionFailures + 1 } := by
  refine ⟨?_, fun _ => by simp⟩
  show p.ActionFailures ≤ q.ActionFailures + 1
  omega

theorem Consume_sticky {κ : Type} (tokens : List String) (tokenIds : String → Option Int)
    (token : String) : KeepsSticky (Consume tokens tokenIds token : Consumer κ) := by
  intro p r p' h
  simp only [Consume] at h
  split at h
  · simp only [Option.some.injEq, Prod.mk.injEq] at h
    rw [← h.2]; exact Sticky.of_eq rfl rfl
  · split at h
    · simp only [Option.some.injEq, Prod.mk.injEq] at h
      rw [← h.2]; exact Sticky.of_eq rfl rfl
    · split at h
      · simp at h
      · split at h
        · simp only [Option.some.injEq, Prod.mk.injEq] at h
          rw [← h.2]; exact Sticky.of_eq rfl rfl
        · simp only [Option.some.injEq, Prod.mk.injEq] at h
          rw [← h.2]; exact Sticky.of_eq rfl rfl

theorem Peek_sticky {κ : Type} (tokenIds : String → Option Int) (tokens : List String) :
    KeepsSticky (Peek tokenIds tokens : Consumer κ) := by
  intro p r p' h
  simp only [Peek] at h
  split at h
  · simp only [Option.some.injEq, Prod.mk.injEq] at h
    rw [← h.2]; exact Sticky.of_eq rfl rfl
  · split at h
    · simp only [Option.some.injEq, Prod.mk.injEq] at h
      rw [← h.2]; exact Sticky.of_eq rfl rfl
    · split at h
      · simp at h
      · split at h
        · simp only [Option.some.injEq, Prod.mk.injEq] at h
          rw [← h.2]; exact Sticky.of_eq rfl rfl
        · simp only [Option.some.injEq, Prod.mk.injEq] at h
          rw [← h.2]; exact Sticky.of_eq rfl rfl

theorem Epsilon_sticky {κ : Type} (n : Option Node) : KeepsSticky (Epsilon n : Consumer κ) := by
  intro p r p' h
  simp only [Epsilon, Option.some.injEq, Prod.mk.injEq] at h
  rw [← h.2]; exact Sticky.refl _

theorem concatLoop_sticky {κ : Type} (tc : Int) (cs : List (Consumer κ))
    (hcs : ∀ c ∈ cs, KeepsSticky c) :
    ∀ (nodes : List (Option Node)) (p : Parser κ)
      (r : List (Option Node) × Option ParseError) (p' : Parser κ),
      concatLoop tc cs nodes p = some (r, p') → Sticky p p' := by
  induction cs with
  | nil =>
    intro nodes p r p' h
    simp only [concatLoop, Option.some.injEq, Prod.mk.injEq] at h
    rw [← h.2]; exact Sticky.refl _
  | cons c cs ih =>
    intro nodes p r p' h
    simp only [concatLoop] at h
    split at h
    · simp at h
    · rename_i n p1 hc
      exact (hcs c (List.mem_cons_self _ _) _ _ _ hc).trans
        (ih (fun a ha => hcs a (List.mem_cons_of_mem _ ha)) _ _ _ _ h)
    · rename_i n err p1 hc
      simp only [Option.some.injEq, Prod.mk.injEq] at h
      rw [← h.2]
      exact (hcs c (List.mem_cons_self _ _) _ _ _ hc).setTC tc

theorem Concat_sticky {κ : Type} (cs : List (Consumer κ)) (action : Action κ)
    (hcs : ∀ c ∈ cs, KeepsSticky c) : KeepsSticky (Concat cs action) := by
  intro p r p' h
  simp only [Concat] at h
  split at h
  · simp at h
  · rename_i ns err p1 hc
    simp only [Option.some.injEq, Prod.mk.injEq] at h
    rw [← h.2]
    exact (concatLoop_sticky _ _ hcs _ _ _ _ hc).setTC _
  · rename_i nodes p1 hc
    have h1 := concatLoop_sticky _ _ hcs _ _ _ _ hc
    split at h
    · simp only [Option.some.injEq, Prod.mk.injEq] at h
      rw [← h.2]
      exact h1.trans (Sticky.fail _ rfl)
    · simp only [Option.some.injEq, Prod.mk.injEq] at h
      rw [← h.2]
      exact h1.trans (Sticky.of_eq rfl rfl)

theorem Effect_sticky {κ : Type} (cs : List (Consumer κ)) (act : SideEffect κ)
    (hcs : ∀ c ∈ cs, KeepsSticky c) : KeepsSticky (Effect cs act) := by
  intro p r p' h
  simp only [Effect] at h
  split at h
  · simp at h
  · rename_i ns err p1 hc
    simp only [Option.some.injEq, Prod.mk.injEq] at h
    rw [← h.2]
    exact (concatLoop_sticky _ _ hcs _ _ _ _ hc).setTC _
  · rename_i nodes p1 hc
    have h1 := concatLoop_sticky _ _ hcs _ _ _ _ hc
    split at h
    · simp only [Option.some.injEq, Prod.mk.injEq] at h
      rw [← h.2]
      exact h1.trans (Sticky.fail _ rfl)
    · simp only [Option.some.injEq, Prod.mk.injEq] at h
      rw [← h.2]
      exact h1.trans (Sticky.of_eq rfl rfl)

theorem altBody_sticky {κ : Type} (tc : Int) (c : Consumer κ) (hc : KeepsSticky c)
    (v : AltVars) (p : Parser κ) :
    (∀ n p1, altBody tc c v p = some (.ret n p1) → Sticky p p1) ∧
      (∀ e v1 p1, altBody tc c v p = some (.cont e v1 p1) → Sticky p p1) := by
  constructor
  · intro n p1 h
    simp only [altBody] at h
    split at h
    · simp at h
    · rename_i n' q hq
      simp only [Option.some.injEq, AltStep.ret.injEq] at h
      rw [← h.2]
      exact (Sticky.of_eq rfl rfl : Sticky p (p.setTC tc)).trans (hc _ _ _ hq)
    · split_ifs at h <;> simp at h
  · intro e v1 p1 h
    obtain ⟨n, q', hq, hcase⟩ := altBody_cont_cases _ _ _ _ _ _ _ h
    have h1 : Sticky p q' :=
      (Sticky.of_eq rfl rfl : Sticky p (p.setTC tc)).trans (hc _ _ _ hq)
    rcases hcase with ⟨_, _, rfl⟩ | ⟨_, _, _, _, rfl⟩ | ⟨_, _, _, _, rfl⟩
    · exact h1.trans (Sticky.of_eq rfl rfl)
    · exact h1.trans (Sticky.of_eq rfl rfl)
    · exact h1

theorem altLoop_sticky {κ : Type} (tc : Int) (cs : List (Consumer κ))
    (hcs : ∀ c ∈ cs, KeepsSticky c) :
    ∀ (v : AltVars) (p : Parser κ) (r : Result) (p' : Parser κ),
      altLoop tc cs v p = some (r, p') → Sticky p p' := by
  induction cs with
  | nil =>
    intro v p r p' h
    simp only [altLoop, Option.some.injEq, Prod.mk.injEq] at h
    rw [← h.2]; exact Sticky.of_eq rfl rfl
  | cons c cs ih =>
    intro v p r p' h
    have hb := altBody_sticky tc c (hcs c (List.mem_cons_self _ _)) v p
    simp only [altLoop] at h
    split at h
    · simp at h
    · rename_i n p1 hstep
      simp only [Option.some.injEq, Prod.mk.injEq] at h
      rw [← h.2]; exact hb.1 _ _ hstep
    · rename_i e v1 p1 hstep
      exact (hb.2 _ _ _ hstep).trans
        (ih (fun a ha => hcs a (List.mem_cons_of_mem _ ha)) _ _ _ _ h)

theorem altFailed_sticky {κ : Type} (tc : Int) (cs : List (Consumer κ))
    (hcs : ∀ c ∈ cs, KeepsSticky c) :
    ∀ (v v' : AltVars) (p q : Parser κ) (es : List ParseError),
      altFailed tc cs v p = some (es, v', q) → Sticky p q := by
  induction cs with
  | nil =>
    intro v v' p q es h
    simp only [altFailed, Option.some.injEq, Prod.mk.injEq] at h
    rw [← h.2.2]; exact Sticky.refl _
  | cons c cs ih =>
    intro v v' p q es h
    have hb := altBody_sticky tc c (hcs c (List.mem_cons_self _ _)) v p
    simp only [altFailed] at h
    split at h
    · rename_i e v1 p1 hstep
      split at h
      · rename_i es2 v2 p2 hf
        simp only [Option.some.injEq, Prod.mk.injEq] at h
        obtain ⟨-, -, rfl⟩ := h
        exact (hb.2 _ _ _ hstep).trans
          (ih (fun a ha => hcs a (List.mem_cons_of_mem _ ha)) _ _ _ _ _ hf)
      · simp at h
    · simp at h

theorem Alt_sticky {κ : Type} (cs : List (Consumer κ)) (hcs : ∀ c ∈ cs, KeepsSticky c) :
    KeepsSticky (Alt cs) := by
  intro p r p' h
  exact altLoop_sticky _ _ hcs _ _ _ _ h

theorem Memoize_sticky {κ : Type} (cell : Nat) (c : Consumer κ) (hc : KeepsSticky c) :
    KeepsSticky (Memoize cell c) := by
  intro p r p' h
  simp only [Memoize] at h
  split at h
  · simp only [Option.some.injEq, Prod.mk.injEq] at h
    rw [← h.2]; exact Sticky.of_eq rfl rfl
  · split at h
    · simp at h
    · rename_i n e p1 hq
      have h1 : Sticky p p1 :=
        (Sticky.of_eq rfl rfl : Sticky p (p.setMemo cell _)).trans (hc _ _ _ hq)
      split at h
      · simp at h
      · simp only [Option.some.injEq, Prod.mk.injEq] at h
        rw [← h.2]; exact h1.trans (Sticky.of_eq rfl rfl)

theorem Combinator_sticky {κ : Type} (g : Grammar κ) :
    ∀ (fuel : Nat) (c : Combinator κ), KeepsSticky (c.Consume g fuel) := by
  intro fuel
  induction fuel with
  | zero =>
    intro c p r p' h
    simp [Combinator.Consume] at h
  | succ fuel ih =>
    intro c
    have hmap : ∀ cs : List (Combinator κ),
        ∀ a ∈ cs.map (Combinator.Consume g fuel), KeepsSticky a := by
      intro cs a ha
      obtain ⟨b, -, rfl⟩ := List.mem_map.1 ha
      exact ih b
    cases c with
    | consume token => exact Consume_sticky _ _ _
    | peek tokens => exact Peek_sticky _ _
    | epsilon n => exact Epsilon_sticky _
    | lazy name =>
      intro p r p' h
      simp only [Combinator.Consume] at h
      cases hprod : g.productions name with
      | none => simp [hprod] at h
      | some b =>
        simp only [hprod] at h
        exact ih _ _ _ _ h
    | concat cs action => exact Concat_sticky _ _ (hmap cs)
    | effect cs act => exact Effect_sticky _ _ (hmap cs)
    | alt cs => exact Alt_sticky _ (hmap cs)
    | memoize cell c => exact Memoize_sticky _ _ (ih c)

theorem start_sticky {κ : Type} (g : Grammar κ) (fuel : Nat) (memo : Nat → MemoVars)
    (s : Scanner) (parserCtx : κ) (r : Result) (p : Parser κ)
    (hrun : g.consumeStart fuel memo s parserCtx = some (r, p))
    (hfail : 0 < p.ActionFailures) : p.UserError ≠ none := by
  simp only [Grammar.consumeStart] at hrun
  cases hprod : g.productions g.startProduction with
  | none => simp [hprod] at hrun
  | some c =>
    simp only [hprod] at hrun
    exact (Combinator_sticky g fuel c _ _ _ hrun).2 (Or.inr hfail)

theorem finish_of_error {κ : Type} (n : Option Node) (err : ParseError) (p : Parser κ) :
    Grammar.finish (n, some err) p = some (none, some err) := rfl

theorem finish_of_userError {κ : Type} (n : Option Node) (p : Parser κ) (ue : ParseError)
    (h : p.UserError = some ue) : Grammar.finish (n, none) p = some (none, some ue) := by
  simp [Grammar.finish, h]

/-- C6. A semantic failure prevents a successful parse: for every grammar built
from the combinators, scanner and user context, if the start production
returns (with some bound `fuel` on the depth of nested calls) and a `Concat`
action or an `Effect` function returned a failure during the run, `Parse`
returns no node and a non-nil error, with that bound and every larger one. -/
theorem semantic_failure_fails_parse {κ : Type} (g : Grammar κ) (fuel fuel' : Nat)
    (memo : Nat → MemoVars) (s : Scanner) (parserCtx : κ) (r : Result) (p : Parser κ)
    (hrun : g.consumeStart fuel memo s parserCtx = some (r, p))
    (hfail : 0 < p.ActionFailures) (hfuel : fuel ≤ fuel') :
    ∃ e : ParseError, g.Parse fuel' memo s parserCtx = some (none, some e) := by
  have hue := start_sticky g fuel memo s parserCtx r p hrun hfail
  simp only [Grammar.Parse, consumeStart_fuel_mono g fuel fuel' hfuel memo s parserCtx _ hrun]
  obtain ⟨n, err⟩ := r
  cases err with
  | some e => exact ⟨e, rfl⟩
  | none =>
    cases hu : p.UserError with
    | none => exact absurd hu hue
    | some ue => exact ⟨ue, finish_of_userError n p ue hu⟩

theorem absorb_start :
    absorbGrammar.consumeStart 3 freshMemo (listScanner [tokenAt 0 "a" 1]) () =
      some ((some (NewNode "empty"), none),
        { Grammar.newParser freshMemo (listScanner [tokenAt 0 "a" 1]) () with
          LastError := some (Error "refused" none), UserError := some (Error "refused" none),
          ActionFailures := 1 }) :=
  rfl

/-- Witness of C6: the start production of `absorbGrammar` succeeds through its
second alternative after the action of the first one failed, and `Parse`
returns that failure. -/
theorem semantic_failure_fails_parse_witness :
    (0 < ({ Grammar.newParser freshMemo (listScanner [tokenAt 0 "a" 1]) () with
          LastError := some (Error "refused" none), UserError := some (Error "refused" none),
          ActionFailures := 1 } : Parser Unit).ActionFailures) ∧
      3 ≤ 7 ∧
      ∃ e : ParseError,
        absorbGrammar.Parse 7 freshMemo (listScanner [tokenAt 0 "a" 1]) () =
          some (none, some e) :=
  ⟨by decide, by decide, semantic_failure_fails_parse absorbGrammar 3 7 freshMemo
    (listScanner [tokenAt 0 "a" 1]) () _ _ absorb_start (by decide) (by decide)⟩

theorem mask_start :
    maskGrammar.consumeStart 3 freshMemo (listScanner []) () =
      some ((none, some (Error "Ran off the end of the input. expected 'a''" none)),
        { Grammar.newParser freshMemo (listScanner []) () with
          LastError := some (Error "refused" none), UserError := some (Error "refused" none),
          ActionFailures := 1 }) :=
  rfl

/-- Counterexample to C7. The start production of `maskGrammar` is the choice
between a sequence whose action fails and the token `a`. On the empty input
the action fails (`UserError` is set to `refused`), then `a` fails with the
syntax error `Ran off the end of the input`, which replaces the semantic error
as the best error of the choice. `Parse` returns that syntax error: its reason
is not that of `UserError` and it has no chained cause. -/
theorem parse_returns_syntax_error :
    maskGrammar.consumeStart 3 freshMemo (listScanner []) () =
      some ((none, some (Error "Ran off the end of the input. expected 'a''" none)),
        { Grammar.newParser freshMemo (listScanner []) () with
          LastError := some (Error "refused" none), UserError := some (Error "refused" none),
          ActionFailures := 1 }) ∧
    maskGrammar.Parse 3 freshMemo (listScanner []) () =
      some (none, some (Error "Ran off the end of the input. expected 'a''" none)) ∧
    (Error "Ran off the end of the input. expected 'a''" none).Reason ≠
      (Error "refused" none).Reason ∧
    (Error "Ran off the end of the input. expected 'a''" none).Chained = [] :=
  ⟨mask_start, by simp only [Grammar.Parse, mask_start]; rfl, by decide, rfl⟩

/-- C7, amended. If a `Concat` action or an `Effect` function fails during
`Parse` and the start production returns (with some bound `fuel` on the depth
of nested calls), then `UserError` is set, and `Parse`, with that bound and
every larger one, returns no node together with the error of the start
production when that failed (whatever that error is) and with `UserError`
when it succeeded. -/
theorem parse_error_after_semantic_failure {κ : Type} (g : Grammar κ) (fuel fuel' : Nat)
    (memo : Nat → MemoVars) (s : Scanner) (parserCtx : κ) (r : Result) (p : Parser κ)
    (hrun : g.consumeStart fuel memo s parserCtx = some (r, p))
    (hfail : 0 < p.ActionFailures) (hfuel : fuel ≤ fuel') :
    p.UserError ≠ none ∧
      (∀ err, r.2 = some err → g.Parse fuel' memo s parserCtx = some (none, some err)) ∧
      (r.2 = none → g.Parse fuel' memo s parserCtx = some (none, p.UserError)) := by
  have hue := start_sticky g fuel memo s parserCtx r p hrun hfail
  have hrun' := consumeStart_fuel_mono g fuel fuel' hfuel memo s parserCtx _ hrun
  refine ⟨hue, ?_, ?_⟩
  · intro err herr
    obtain ⟨n, e⟩ := r
    simp only at herr
    subst herr
    simp only [Grammar.Parse, hrun']
    rfl
  · intro hnone
    obtain ⟨n, e⟩ := r
    simp only at hnone
    subst hnone
    simp only [Grammar.Parse, hrun']
    cases hu : p.UserError with
    | none => exact absurd hu hue
    | some ue => exact finish_of_userError n p ue hu

/-- Witness of C7, amended: in `maskGrammar` on the empty input the start
production fails with a syntax error after an action failed, and `Parse`
returns the error of the start production. -/
theorem parse_error_after_semantic_failure_witness :
    (0 < ({ Grammar.newParser freshMemo (listScanner []) () with
          LastError := some (Error "refused" none), UserError := some (Error "refused" none),
          ActionFailures := 1 } : Parser Unit).ActionFailures) ∧
      3 ≤ 7 ∧
      maskGrammar.Parse 7 freshMemo (listScanner []) () =
        some (none, some (Error "Ran off the end of the input. expected 'a''" none)) :=
  ⟨by decide, by decide,
    (parse_error_after_semantic_failure maskGrammar 3 7 freshMemo (listScanner []) ()
      _ _ mask_start (by decide) (by decide)).2.1 _ rfl⟩

/-- Counterexample to C8. The first alternative of the choice is a sequence
whose action fails, which sets `UserError`; the choice goes on to its second
alternative, the empty match, and returns its node with no error. -/
theorem alt_absorbs_semantic_failure :
    altBody abxParser.S.TC (Concat [] failAction) { err := none, always := false } abxParser =
      some (.cont (Error "refused" none)
        { err := some (Error "refused" none), always := false }
        { abxParser with
          LastError := some (Error "refused" none), UserError := some (Error "refused" none),
          ActionFailures := 1 }) ∧
    Alt [Concat [] failAction, Epsilon (some (NewNode "empty"))] abxParser =
      some ((some (NewNode "empty"), none),
        { abxParser with
          LastError := some (Error "refused" none), UserError := some (Error "refused" none),
          ActionFailures := 1 }) :=
  ⟨rfl, rfl⟩

/-- C8, amended. `Alt` does not look at `UserError`. When the alternatives
`before` failed and the alternative `ci` fails because an action or
side-effect function inside it failed, `UserError` is set, the choice carries
on with the remaining alternatives from the state `ci` left (so it succeeds if
one of them does), and `UserError` is still set when the choice returns,
whatever it returns. -/
theorem alt_keeps_semantic_failure {κ : Type} (g : Grammar κ) (fuel : Nat)
    (before after : List (Combinator κ)) (ci : Combinator κ) (p q q1 p' : Parser κ)
    (es : List ParseError) (v v1 : AltVars) (e : ParseError) (res : Result)
    (hbefore : altFailed p.S.TC (before.map (Combinator.Consume g fuel))
      { err := none, always := false } p = some (es, v, q))
    (hci : altBody p.S.TC (ci.Consume g fuel) v q = some (.cont e v1 q1))
    (hsem : q.ActionFailures < q1.ActionFailures)
    (hres : (Combinator.alt (before ++ ci :: after)).Consume g (fuel + 1) p = some (res, p')) :
    q1.UserError ≠ none ∧ p'.UserError ≠ none ∧
      (Combinator.alt (before ++ ci :: after)).Consume g (fuel + 1) p =
        altLoop p.S.TC (after.map (Combinator.Consume g fuel)) v1 q1 := by
  have hq1 : q1.UserError ≠ none :=
    ((altBody_sticky _ _ (Combinator_sticky g fuel ci) v q).2 _ _ _ hci).2 (Or.inr hsem)
  have hloop : (Combinator.alt (before ++ ci :: after)).Consume g (fuel + 1) p =
      altLoop p.S.TC (after.map (Combinator.Consume g fuel)) v1 q1 := by
    simp only [Combinator.Consume, Alt, List.map_append, List.map_cons]
    rw [altLoop_append_failed _ _ _ _ _ _ _ _ hbefore]
    simp only [altLoop, hci]
  refine ⟨hq1, ?_, hloop⟩
  rw [hloop] at hres
  have hmap : ∀ a ∈ after.map (Combinator.Consume g fuel), KeepsSticky a := by
    intro a ha
    obtain ⟨b, -, rfl⟩ := List.mem_map.1 ha
    exact Combinator_sticky g fuel b
  exact (altLoop_sticky _ _ hmap _ _ _ _ hres).2 (Or.inl hq1)

/-- Witness of C8, amended: the choice between a sequence whose action fails
and the empty match; `UserError` is set when the choice returns the node of
the empty match. -/
theorem alt_keeps_semantic_failure_witness :
    abxParser.ActionFailures <
        ({ abxParser with
          LastError := some (Error "refused" none), UserError := some (Error "refused" none),
          ActionFailures := 1 } : Parser Unit).ActionFailures ∧
      ({ abxParser with
          LastError := some (Error "refused" none), UserError := some (Error "refused" none),
          ActionFailures := 1 } : Parser Unit).UserError ≠ none :=
  ⟨by decide,
    (alt_keeps_semantic_failure abcGrammar 1 [] [.epsilon (some (NewNode "empty"))]
      failingSequence abxParser abxParser
      { abxParser with
        LastError := some (Error "refused" none), UserError := some (Error "refused" none),
        ActionFailures := 1 }
      { abxParser with
        LastError := some (Error "refused" none), UserError := some (Error "refused" none),
        ActionFailures := 1 }
      [] { err := none, always := false } { err := some (Error "refused" none), always := false }
      (Error "refused" none) (some (NewNode "empty"), none) rfl rfl (by decide) rfl).2.1⟩

/-! ## Failure of an action or of a side-effect function -/

theorem Effect_failure_state {κ : Type} (consumers : List (Consumer κ)) (act : SideEffect κ)
    (p p1 : Parser κ) (nodes : List (Option Node)) (doerr : GoError)
    (hsub : concat consumers p = some ((nodes, none), p1))
    (hdo : (act p1.Ctx nodes).1 = some doerr) :
    ∃ err p', Effect consumers act p = some ((none, some err), p') ∧
      p'.UserError = some err ∧ p'.S.TC = (p1.S.scan p.S.TC).2 ∧
      err = (Error "Side Effect Error" (p1.S.scan p.S.TC).1.tok).Chain doerr := by
  simp only [Effect, hsub, hdo]
  exact ⟨_, _, rfl, rfl, rfl, rfl⟩

/-- C9: the code at the failing input. On the tokens `a b x`, entered with the
cursor at 0, the consumer built by `Effect` from no sub-consumer and a
side-effect function that fails returns a `Side Effect Error` located at the
first token and stores it in `UserError`, but leaves the cursor at 1: the read
that fetches the token for the location of the error moves the cursor after it
was rolled back. -/
theorem effect_failure_moves_cursor :
    Effect [] refuse abxParser =
      some ((none, some ((Error "Side Effect Error" (some (tokenAt 0 "a" 1))).Chain
          (.foreign "refused"))),
        { abxParser.setTC 1 with
          UserError := some ((Error "Side Effect Error" (some (tokenAt 0 "a" 1))).Chain
            (.foreign "refused")),
          ActionFailures := 1 }) ∧
    abxParser.S.TC = 0 ∧
    ({ abxParser.setTC 1 with
        UserError := some ((Error "Side Effect Error" (some (tokenAt 0 "a" 1))).Chain
          (.foreign "refused")),
        ActionFailures := 1 } : Parser Unit).S.TC = 1 :=
  ⟨rfl, rfl, rfl⟩

/-- Counterexample to C10. The consumer built by `Concat` from no sub-consumer
and an action that fails with the error `refused` returns that very error: its
reason is not `Side Effect Error` and it has no chained cause. -/
theorem concat_returns_action_failure :
    Concat [] failAction abxParser =
      some ((none, some (Error "refused" none)),
        { abxParser with UserError := some (Error "refused" none), ActionFailures := 1 }) ∧
    (Error "refused" none).Reason ≠ "Side Effect Error" ∧
    (Error "refused" none).Chained = [] :=
  ⟨rfl, by decide, rfl⟩

/-- C10, amended. `Concat` does not wrap an action failure: when all
sub-consumers succeed and the action returns a failure `f`, the consumer
returns no node and `f` itself, `UserError` is set to `f`, and the cursor is
the cursor at entry. -/
theorem Concat_action_failure {κ : Type} (consumers : List (Consumer κ)) (action : Action κ)
    (p p1 : Parser κ) (nodes : List (Option Node)) (f : ParseError)
    (hsub : concat consumers p = some ((nodes, none), p1))
    (hact : (action p1.Ctx nodes).1.2 = some f) :
    ∃ p', Concat consumers action p = some ((none, some f), p') ∧
      p'.UserError = some f ∧ p'.S.TC = p.S.TC := by
  simp only [Concat, hsub, hact]
  exact ⟨_, rfl, rfl, rfl⟩

/-- Witness of C10, amended: the sequence that reads `a` on the tokens `a b x`
and whose action fails with `refused`. -/
theorem Concat_action_failure_witness :
    concat [Consume abcTokens abcIds "a"] abxParser =
      some (([some (NewTokenNode abcTokens (tokenAt 0 "a" 1))], none), abxParser.setTC 1) ∧
    ∃ p', Concat [Consume abcTokens abcIds "a"] failAction abxParser =
        some ((none, some (Error "refused" none)), p') ∧
      p'.UserError = some (Error "refused" none) ∧ p'.S.TC = abxParser.S.TC :=
  ⟨rfl, Concat_action_failure [Consume abcTokens abcIds "a"] failAction abxParser
    (abxParser.setTC 1) [some (NewTokenNode abcTokens (tokenAt 0 "a" 1))]
    (Error "refused" none) rfl rfl⟩

/-! ## The comparator is a strict order -/

theorem Less_true_located (a b : Option ParseError) (h : ParseError.Less a b = true) :
    ∃ x y la lb, a = some x ∧ b = some y ∧ x.At = some la ∧ y.At = some lb ∧ spanLess la lb := by
  cases a with
  | none => simp [Less_none_left] at h
  | some x =>
    cases b with
    | none => simp [Less_none_right] at h
    | some y =>
      cases hx : x.At with
      | none => simp [Less_unlocated_left x y hx] at h
      | some la =>
        cases hy : y.At with
        | none => simp [Less_unlocated_right x y hy] at h
        | some lb =>
          exact ⟨x, y, la, lb, rfl, rfl, hx, hy, (Less_located x y la lb hx hy).1 h⟩

theorem Less_trans (a b c : Option ParseError) (hab : ParseError.Less a b = true)
    (hbc : ParseError.Less b c = true) : ParseError.Less a c = true := by
  obtain ⟨x, y, la, lb, rfl, rfl, hx, hy, h1⟩ := Less_true_located a b hab
  obtain ⟨y', z, lb', lc, hy', rfl, hyb, hz, h2⟩ := Less_true_located _ c hbc
  simp only [Option.some.injEq] at hy'
  subst hy'
  rw [hy] at hyb
  simp only [Option.some.injEq] at hyb
  subst hyb
  refine (Less_located x z la lc hx hz).2 ?_
  unfold spanLess at h1 h2 ⊢
  omega

theorem Less_total_located (x y : ParseError) (la lb : SourceLocation)
    (hx : x.At = some la) (hy : y.At = some lb) (hne : la ≠ lb) :
    ParseError.Less (some x) (some y) = true ∨ ParseError.Less (some y) (some x) = true := by
  have hcoord : la.StartLine ≠ lb.StartLine ∨ la.StartColumn ≠ lb.StartColumn ∨
      la.EndLine ≠ lb.EndLine ∨ la.EndColumn ≠ lb.EndColumn := by
    by_contra hcon
    push_neg at hcon
    apply hne
    cases la; cases lb
    simp only [SourceLocation.mk.injEq]
    exact hcon
  rw [Less_located x y la lb hx hy, Less_located y x lb la hy hx]
  unfold spanLess
  omega

/-- C19. The comparator is a strict order that is total on located spans:
`a.Less(a)` is false; `a.Less(b)` implies that `b.Less(a)` is false;
`a.Less(b)` and `b.Less(c)` imply `a.Less(c)`; and of two located errors whose
spans differ in one of the four coordinates exactly one is `Less` than the
other. -/
theorem Less_strict_order (a b c : Option ParseError) :
    ParseError.Less a a = false ∧
      (ParseError.Less a b = true → ParseError.Less b a = false) ∧
      (ParseError.Less a b = true → ParseError.Less b c = true →
        ParseError.Less a c = true) ∧
      (∀ (x y : ParseError) (la lb : SourceLocation), a = some x → b = some y →
        x.At = some la → y.At = some lb →
        (la.StartLine ≠ lb.StartLine ∨ la.StartColumn ≠ lb.StartColumn ∨
          la.EndLine ≠ lb.EndLine ∨ la.EndColumn ≠ lb.EndColumn) →
        (ParseError.Less a b = true ∧ ParseError.Less b a = false) ∨
          (ParseError.Less a b = false ∧ ParseError.Less b a = true)) := by
  refine ⟨Less_irrefl a, Less_asymm a b, Less_trans a b c, ?_⟩
  rintro x y la lb rfl rfl hx hy hne
  have hne' : la ≠ lb := by
    rintro rfl
    simp at hne
  rcases Less_total_located x y la lb hx hy hne' with h | h
  · exact Or.inl ⟨h, Less_asymm _ _ h⟩
  · exact Or.inr ⟨Less_asymm _ _ h, h⟩

/-! ## The error of a failed choice is maximal -/

theorem Less_neg_trans_located (x y z : ParseError) (hy : y.At ≠ none)
    (h : ParseError.Less (some x) (some z) = true) :
    ParseError.Less (some x) (some y) = true ∨ ParseError.Less (some y) (some z) = true := by
  obtain ⟨x', z', la, lc, hx', hz', hx, hz, h1⟩ := Less_true_located _ _ h
  simp only [Option.some.injEq] at hx' hz'
  subst hx' hz'
  cases hyl : y.At with
  | none => exact absurd hyl hy
  | some lb =>
    rw [Less_located x y la lb hx hyl, Less_located y z lb lc hyl hz]
    unfold spanLess at h1 ⊢
    omega

theorem foldl_keepOrReplace_last_max (xs : List ParseError) :
    ∀ b : ParseError, (∀ e ∈ b :: xs, e.At ≠ none) →
      ∃ pre post, b :: xs = pre ++ xs.foldl keepOrReplace b :: post ∧
        (∀ e ∈ b :: xs, ParseError.Less (some (xs.foldl keepOrReplace b)) (some e) = false) ∧
        (∀ y ∈ post, ParseError.Less (some y) (some (xs.foldl keepOrReplace b)) = true) := by
  induction xs using List.reverseRecOn with
  | nil =>
    intro b _
    refine ⟨[], [], rfl, ?_, ?_⟩
    · intro e he
      simp only [List.mem_singleton] at he
      subst he
      exact Less_irrefl _
    · intro y hy
      simp at hy
  | append_singleton xs x ih =>
    intro b hloc
    obtain ⟨pre, post, hsplit, hmax, hpost⟩ :=
      ih b (fun e he => hloc e (by
        rcases List.mem_cons.1 he with h | h
        · exact List.mem_cons.2 (Or.inl h)
        · exact List.mem_cons.2 (Or.inr (List.mem_append_left _ h))))
    have hxloc : x.At ≠ none := hloc x (List.mem_cons.2 (Or.inr (by simp)))
    simp only [List.foldl_append, List.foldl_cons, List.foldl_nil]
    cases hlt : ParseError.Less (some x) (some (xs.foldl keepOrReplace b)) with
    | true =>
      have hkeep : keepOrReplace (xs.foldl keepOrReplace b) x = xs.foldl keepOrReplace b := by
        simp [keepOrReplace, hlt]
      rw [hkeep]
      refine ⟨pre, post ++ [x], ?_, ?_, ?_⟩
      · rw [← List.cons_append, hsplit]
        simp
      · intro e he
        rcases List.mem_cons.1 he with h | h
        · exact hmax e (List.mem_cons.2 (Or.inl h))
        · rcases List.mem_append.1 h with h | h
          · exact hmax e (List.mem_cons.2 (Or.inr h))
          · simp only [List.mem_singleton] at h
            subst h
            exact Less_asymm _ _ hlt
      · intro y hy
        rcases List.mem_append.1 hy with h | h
        · exact hpost y h
        · simp only [List.mem_singleton] at h
          subst h
          exact hlt
    | false =>
      have hrep : keepOrReplace (xs.foldl keepOrReplace b) x = x := by
        simp [keepOrReplace, hlt]
      rw [hrep]
      refine ⟨b :: xs, [], ?_, ?_, ?_⟩
      · simp
      · intro e he
        have he' : e ∈ b :: xs ∨ e = x := by
          rcases List.mem_cons.1 he with h | h
          · exact Or.inl (List.mem_cons.2 (Or.inl h))
          · rcases List.mem_append.1 h with h | h
            · exact Or.inl (List.mem_cons.2 (Or.inr h))
            · exact Or.inr (by simpa using h)
        rcases he' with h | h
        · cases hxe : ParseError.Less (some x) (some e) with
          | false => rfl
          | true =>
            have hr : (xs.foldl keepOrReplace b).At ≠ none := by
              have hmem := foldl_keepOrReplace_mem xs b
              exact hloc _ (by
                rcases List.mem_cons.1 hmem with h' | h'
                · exact List.mem_cons.2 (Or.inl h')
                · exact List.mem_cons.2 (Or.inr (List.mem_append_left _ h')))
            rcases Less_neg_trans_located x _ e hr hxe with h' | h'
            · rw [hlt] at h'; exact absurd h' (by simp)
            · rw [hmax e h] at h'; exact absurd h' (by simp)
        · subst h
          exact Less_irrefl _
      · intro y hy
        simp at hy

/-- C20. The error of a failed choice is maximal when all errors are located:
when the alternatives of `Alt(c1, ..., cn)`, n >= 1, all fail, with errors
`e1, ..., en` that all have a location, the error `r` that the choice returns
is one of them, `r.Less(ei)` is false for every `i`, and every error after
the returned occurrence of `r` is `Less` than `r`: `r` is the last maximal
one. -/
theorem maximal_error_of_failed_choice {κ : Type} (consumers : List (Consumer κ))
    (p q : Parser κ) (es : List ParseError) (v : AltVars) (hn : consumers ≠ [])
    (hfail : altFailed p.S.TC consumers { err := none, always := false } p = some (es, v, q))
    (hloc : ∀ e ∈ es, e.At ≠ none) :
    ∃ r pre post, Alt consumers p = some ((none, some r), q.setTC p.S.TC) ∧
      es = pre ++ r :: post ∧
      (∀ e ∈ es, ParseError.Less (some r) (some e) = false) ∧
      (∀ y ∈ post, ParseError.Less (some y) (some r) = true) := by
  obtain ⟨hl, herr⟩ := altFailed_err _ _ _ _ _ _ _ hfail
  simp only at herr
  cases es with
  | nil =>
    cases consumers with
    | nil => exact absurd rfl hn
    | cons c cs => simp at hl
  | cons e rest =>
    obtain ⟨pre, post, hsplit, hmax, hpost⟩ := foldl_keepOrReplace_last_max rest e hloc
    refine ⟨rest.foldl keepOrReplace e, pre, post, ?_, hsplit, hmax, hpost⟩
    have h := altLoop_append_failed p.S.TC consumers [] _ _ _ _ _ hfail
    simp only [List.append_nil] at h
    simp only [Alt, h, altLoop, herr, representative]

/-- Witness of C20: on the tokens `a b x` the sequences `a c` and `a x` fail at
the second token and `b` fails at the first one; the choice returns the error
of `a x`, the later of the two errors at the second token. -/
theorem maximal_error_of_failed_choice_witness :
    altFailed abxParser.S.TC
        [Concat [Consume abcTokens abcIds "a", Consume abcTokens abcIds "c"] wrapAction,
          Concat [Consume abcTokens abcIds "a", Consume abcTokens abcIds "x"] wrapAction,
          Consume abcTokens abcIds "b"]
        { err := none, always := false } abxParser =
      some ([Error "Expected c" (some (tokenAt 1 "b" 2)),
          Error "Expected x" (some (tokenAt 1 "b" 2)),
          Error "Expected b" (some (tokenAt 0 "a" 1))],
        { err := some (Error "Expected x" (some (tokenAt 1 "b" 2))), always := false },
        { abxParser with LastError := some (Error "Expected c" (some (tokenAt 1 "b" 2))) }) ∧
    ∃ r pre post,
      Alt [Concat [Consume abcTokens abcIds "a", Consume abcTokens abcIds "c"] wrapAction,
          Concat [Consume abcTokens abcIds "a", Consume abcTokens abcIds "x"] wrapAction,
          Consume abcTokens abcIds "b"] abxParser =
        some ((none, some r),
          ({ abxParser with
            LastError := some (Error "Expected c" (some (tokenAt 1 "b" 2))) }).setTC
              abxParser.S.TC) ∧
      [Error "Expected c" (some (tokenAt 1 "b" 2)),
          Error "Expected x" (some (tokenAt 1 "b" 2)),
          Error "Expected b" (some (tokenAt 0 "a" 1))] = pre ++ r :: post ∧
      (∀ e ∈ [Error "Expected c" (some (tokenAt 1 "b" 2)),
          Error "Expected x" (some (tokenAt 1 "b" 2)),
          Error "Expected b" (some (tokenAt 0 "a" 1))],
        ParseError.Less (some r) (some e) = false) ∧
      (∀ y ∈ post, ParseError.Less (some y) (some r) = true) :=
  ⟨rfl, maximal_error_of_failed_choice _ abxParser _ _ _ (by simp) rfl
    (by
      intro e he
      simp only [List.mem_cons, List.mem_singleton, List.not_mem_nil, or_false] at he
      rcases he with rfl | rfl | rfl <;> simp [Error, ParseError.At])⟩

/-! ## `UserError` is sticky -/

/-- C17. `UserError` is sticky: for every consumer built from the combinators
(`Consume`, `Peek`, `Epsilon`, `P`, `Concat`, `Effect`, `Alt`, `Memoize`) and
every parse state in which `UserError` is set, `UserError` is still set when
the consumer returns. -/
theorem userError_sticky {κ : Type} (g : Grammar κ) (fuel : Nat) (c : Combinator κ)
    (p p' : Parser κ) (r : Result) (hrun : c.Consume g fuel p = some (r, p'))
    (hset : p.UserError ≠ none) : p'.UserError ≠ none :=
  (Combinator_sticky g fuel c p r p' hrun).2 (Or.inl hset)

/-- Witness of C17: entered with `UserError` set, the choice between `b` and
the memoized `a` succeeds on the tokens `a b x` and leaves `UserError` set. -/
theorem userError_sticky_witness :
    (Combinator.alt [.consume "b", .memoize 0 (.consume "a")]).Consume abcGrammar 3
        refusedParser =
      some ((some (NewTokenNode abcTokens (tokenAt 0 "a" 1)), none), refusedAfterChoice) ∧
    refusedParser.UserError ≠ none ∧ refusedAfterChoice.UserError ≠ none :=
  ⟨rfl, by simp [refusedParser],
    userError_sticky abcGrammar 3 (.alt [.consume "b", .memoize 0 (.consume "a")])
      refusedParser _ _ rfl (by simp [refusedParser])⟩

/-! ## Sequencing -/

theorem concatLoop_runInOrder {κ : Type} (tc : Int) (cs rest : List (Consumer κ)) :
    ∀ (nodes ns : List (Option Node)) (p q : Parser κ),
      runInOrder cs p = some (ns, q) →
        concatLoop tc (cs ++ rest) nodes p = concatLoop tc rest (nodes ++ ns) q := by
  induction cs with
  | nil =>
    intro nodes ns p q h
    simp only [runInOrder, Option.some.injEq, Prod.mk.injEq] at h
    obtain ⟨rfl, rfl⟩ := h
    simp
  | cons c cs ih =>
    intro nodes ns p q h
    simp only [runInOrder] at h
    split at h
    · rename_i n p1 hc
      split at h
      · rename_i ns2 q2 hr
        simp only [Option.some.injEq, Prod.mk.injEq] at h
        obtain ⟨rfl, rfl⟩ := h
        have h2 := ih (nodes ++ [n]) _ _ _ hr
        simp only [List.append_assoc, List.singleton_append] at h2
        simp only [List.cons_append, concatLoop, hc]
        exact h2
      · simp at h
    · simp at h

/-- C14. Sequencing semantics of `Concat`. The sub-consumers are called in
order, each from the state (cursor included) the previous one left. If `ck` is
the first to fail, with error `e`, the consumer returns exactly `e`, in the
state `ck` left with the cursor reset to the entry cursor, whatever
`c(k+1), ..., cn` and the action are: they are not called and `UserError` is
as `ck` left it. If all succeed with nodes `n1, ..., nn`, the action is
applied to the user context and `(n1, ..., nn)`, and when it succeeds the
consumer returns the node of the action with the cursor where `cn` left it. -/
theorem Concat_sequencing {κ : Type} (before after : List (Consumer κ)) (ck : Consumer κ)
    (action : Action κ) (p q q' : Parser κ) (ns : List (Option Node)) (n : Option Node)
    (e : ParseError) (hbefore : runInOrder before p = some (ns, q)) :
    (ck q = some ((n, some e), q') →
      Concat (before ++ ck :: after) action p = some ((none, some e), q'.setTC p.S.TC) ∧
        (q'.setTC p.S.TC).UserError = q'.UserError) ∧
    ((action q.Ctx ns).1.2 = none →
      Concat before action p =
        some (((action q.Ctx ns).1.1, none), { q with Ctx := (action q.Ctx ns).2 }) ∧
        ({ q with Ctx := (action q.Ctx ns).2 } : Parser κ).S.TC = q.S.TC) := by
  constructor
  · intro hck
    refine ⟨?_, rfl⟩
    simp only [Concat, concat]
    rw [concatLoop_runInOrder _ _ _ _ _ _ _ hbefore]
    simp only [concatLoop, hck]
    rfl
  · intro hact
    refine ⟨?_, rfl⟩
    have h := concatLoop_runInOrder p.S.TC before [] [] ns p q hbefore
    simp only [List.append_nil, List.nil_append, concatLoop] at h
    simp only [Concat, concat, h, hact]

/-- Witness of C14: on the tokens `a b x` the sequence `a c x` fails at its
second consumer with `Expected c` and the cursor back at 0, and the sequence
`a` returns the node its action builds from the leaf of `a`, with the cursor
at 1. -/
theorem Concat_sequencing_witness :
    runInOrder [Consume abcTokens abcIds "a"] abxParser =
      some ([some (NewTokenNode abcTokens (tokenAt 0 "a" 1))], abxParser.setTC 1) ∧
    Concat ([Consume abcTokens abcIds "a"] ++
        Consume abcTokens abcIds "c" :: [Consume abcTokens abcIds "x"]) wrapAction abxParser =
      some ((none, some (Error "Expected c" (some (tokenAt 1 "b" 2)))), abxParser) ∧
    Concat [Consume abcTokens abcIds "a"] wrapAction abxParser =
      some ((some (.mk "wrap" none [some (NewTokenNode abcTokens (tokenAt 0 "a" 1))]), none),
        abxParser.setTC 1) :=
  ⟨rfl,
    ((Concat_sequencing [Consume abcTokens abcIds "a"] [Consume abcTokens abcIds "x"]
      (Consume abcTokens abcIds "c") wrapAction abxParser (abxParser.setTC 1)
      (abxParser.setTC 1) _ none (Error "Expected c" (some (tokenAt 1 "b" 2))) rfl).1 rfl).1,
    ((Concat_sequencing [Consume abcTokens abcIds "a"] [] (Consume abcTokens abcIds "c")
      wrapAction abxParser (abxParser.setTC 1) abxParser _ none (Error "" none) rfl).2 rfl).1⟩

/-! ## Terminals -/

theorem next_eq {κ : Type} (p : Parser κ) :
    p.next = ((p.S.scan p.S.TC).1, p.setTC (p.S.scan p.S.TC).2) := rfl

theorem setTC_self {κ : Type} (p : Parser κ) (tc : Int) :
    (p.setTC tc).setTC p.S.TC = p := rfl

/-- C15. Terminal match. The consumer built by `Grammar.Consume(token)`
returns without error exactly when the read of the scanner reports neither the
end of the stream nor an error and yields a token whose type is
`TokenIds[token]`; it then returns the leaf of that token and leaves the
cursor where the read left it. Whenever it returns an error the state, cursor
included, is the state at entry, and on a token of another type the error is
`Expected token`, located at the span of that token. -/
theorem Consume_terminal {κ : Type} (tokens : List String) (tokenIds : String → Option Int)
    (token : String) (p : Parser κ) :
    (∀ n p', Consume tokens tokenIds token p = some ((n, none), p') ↔
      ((p.S.scan p.S.TC).1.eof = false ∧ (p.S.scan p.S.TC).1.err = none ∧
        ∃ tk, (p.S.scan p.S.TC).1.tok = some tk ∧ tk.Type_ = (tokenIds token).getD 0 ∧
          n = some (NewTokenNode tokens tk) ∧ p' = p.setTC (p.S.scan p.S.TC).2)) ∧
    (∀ n e p', Consume tokens tokenIds token p = some ((n, some e), p') →
      p' = p ∧ p'.S.TC = p.S.TC) ∧
    (∀ tk, (p.S.scan p.S.TC).1.eof = false → (p.S.scan p.S.TC).1.err = none →
      (p.S.scan p.S.TC).1.tok = some tk → tk.Type_ ≠ (tokenIds token).getD 0 →
      Consume tokens tokenIds token p =
          some ((none, some (Error ("Expected " ++ token) (some tk))), p) ∧
        (Error ("Expected " ++ token) (some tk)).At = some (TokenLocation tk)) := by
  refine ⟨?_, ?_, ?_⟩
  · intro n p'
    simp only [Consume, next_eq]
    cases heof : (p.S.scan p.S.TC).1.eof with
    | true => simp
    | false =>
      cases herr : (p.S.scan p.S.TC).1.err with
      | some err => simp
      | none =>
        cases htok : (p.S.scan p.S.TC).1.tok with
        | none => simp
        | some tk =>
          by_cases hty : tk.Type_ = (tokenIds token).getD 0
          · simp only [Bool.false_eq_true, if_false, hty, if_true, Option.some.injEq,
              Prod.mk.injEq, and_true, true_and, exists_eq_left']
            constructor
            · rintro ⟨h1, h2⟩
              exact ⟨h1.symm, h2.symm⟩
            · rintro ⟨h1, h2⟩
              exact ⟨h1.symm, h2.symm⟩
          · simp [hty]
  · intro n e p' h
    simp only [Consume, next_eq] at h
    have key : p' = p := by
      split at h
      · simp only [Option.some.injEq, Prod.mk.injEq] at h
        rw [← h.2]; rfl
      · split at h
        · simp only [Option.some.injEq, Prod.mk.injEq] at h
          rw [← h.2]; rfl
        · split at h
          · simp at h
          · split at h
            · simp at h
            · simp only [Option.some.injEq, Prod.mk.injEq] at h
              rw [← h.2]; rfl
    exact ⟨key, by rw [key]⟩
  · intro tk heof herr htok hty
    refine ⟨?_, rfl⟩
    simp only [Consume, next_eq, heof, herr, htok, hty]
    rfl

/-- C16. Lookahead never moves the cursor: whenever the consumer built by
`Grammar.Peek(tokens...)` returns, with or without error, the state, cursor
included, is the state at entry. It returns without error, and then without
node, exactly when the read of the scanner reports neither the end of the
stream nor an error and yields a token whose type is `TokenIds[t]` for some
`t` in `tokens`; with an empty list it never returns without error. -/
theorem Peek_lookahead {κ : Type} (tokenIds : String → Option Int) (tokens : List String)
    (p : Parser κ) :
    (∀ r p', Peek tokenIds tokens p = some (r, p') → p' = p ∧ p'.S.TC = p.S.TC) ∧
    (∀ n p', Peek tokenIds tokens p = some ((n, none), p') ↔
      ((p.S.scan p.S.TC).1.eof = false ∧ (p.S.scan p.S.TC).1.err = none ∧
        ∃ tk, (p.S.scan p.S.TC).1.tok = some tk ∧
          (∃ t ∈ tokens, tk.Type_ = (tokenIds t).getD 0) ∧ n = none ∧ p' = p)) ∧
    (∀ n p', Peek tokenIds [] p ≠ some ((n, none), p')) := by
  have hsucc : ∀ (toks : List String) n p', Peek tokenIds toks p = some ((n, none), p') ↔
      ((p.S.scan p.S.TC).1.eof = false ∧ (p.S.scan p.S.TC).1.err = none ∧
        ∃ tk, (p.S.scan p.S.TC).1.tok = some tk ∧
          (∃ t ∈ toks, tk.Type_ = (tokenIds t).getD 0) ∧ n = none ∧ p' = p) := by
    intro toks n p'
    simp only [Peek, next_eq, setTC_self]
    cases heof : (p.S.scan p.S.TC).1.eof with
    | true => simp
    | false =>
      cases herr : (p.S.scan p.S.TC).1.err with
      | some err => simp
      | none =>
        cases htok : (p.S.scan p.S.TC).1.tok with
        | none => simp
        | some tk =>
          by_cases hany : (toks.any fun t => decide (tk.Type_ = (tokenIds t).getD 0)) = true
          · have hex : ∃ t ∈ toks, tk.Type_ = (tokenIds t).getD 0 := by
              simpa using hany
            simp only [Bool.false_eq_true, if_false, hany, if_true, Option.some.injEq,
              Prod.mk.injEq, and_true, true_and, exists_eq_left', hex]
            constructor
            · rintro ⟨h1, h2⟩
              exact ⟨h1.symm, h2.symm⟩
            · rintro ⟨h1, h2⟩
              exact ⟨h1.symm, h2.symm⟩
          · have hex : ¬ ∃ t ∈ toks, tk.Type_ = (tokenIds t).getD 0 := by
              simpa using hany
            simp [hany, hex]
  refine ⟨?_, hsucc tokens, ?_⟩
  · intro r p' h
    simp only [Peek, next_eq, setTC_self] at h
    have key : p' = p := by
      split at h
      · simp only [Option.some.injEq, Prod.mk.injEq] at h
        exact h.2.symm
      · split at h
        · simp only [Option.some.injEq, Prod.mk.injEq] at h
          exact h.2.symm
        · split at h
          · simp at h
          · split at h
            · simp only [Option.some.injEq, Prod.mk.injEq] at h
              exact h.2.symm
            · simp only [Option.some.injEq, Prod.mk.injEq] at h
              exact h.2.symm
    exact ⟨key, by rw [key]⟩
  · intro n p' h
    have := (hsucc [] n p').1 h
    obtain ⟨-, -, tk, -, ⟨t, ht, -⟩, -⟩ := this
    simp at ht

/-! ## Unconsumed input -/

theorem finish_unconsumed {κ : Type} (n : Option Node) (p : Parser κ)
    (hu : p.UserError = none) (heof : (p.S.scan p.S.TC).1.eof = false) :
    (∀ le, p.LastError = some le → Grammar.finish (n, none) p = some (none, some le)) ∧
    (∀ serr, p.LastError = none → (p.S.scan p.S.TC).1.err = some serr →
      Grammar.finish (n, none) p =
        some (none, some ((Error "Unconsumed Input" none).Chain (.boxed none)))) ∧
    (∀ t, p.LastError = none → (p.S.scan p.S.TC).1.err = none →
      (p.S.scan p.S.TC).1.tok = some t →
      Grammar.finish (n, none) p = some (none, some (Error "Unconsumed Input" (some t)))) := by
  refine ⟨?_, ?_, ?_⟩
  · intro le hl
    simp [Grammar.finish, hu, Scanner.Next, heof, hl]
  · intro serr hl herr
    simp [Grammar.finish, hu, Scanner.Next, heof, hl, herr]
  · intro t hl herr htok
    simp [Grammar.finish, hu, Scanner.Next, heof, hl, herr, htok]

/-- C13: the code at the failing input. The start production reads the token
`a`; the next read of the scanner reports the lexical error `bad input`, and
`LastError` and `UserError` are unset. `Parse` returns an `Unconsumed Input`
error whose only chained cause is the nil error of the start production: the
error of the scanner is not among its causes. -/
theorem unconsumed_input_drops_lexer_error :
    (abcGrammar.Start "a").consumeStart 2 freshMemo badInputScanner () =
      some ((some (NewTokenNode abcTokens (tokenAt 0 "a" 1)), none),
        (Grammar.newParser freshMemo badInputScanner ()).setTC 1) ∧
    (badInputScan 1).1.err = some (.foreign "bad input") ∧
    (abcGrammar.Start "a").Parse 2 freshMemo badInputScanner () =
      some (none, some ((Error "Unconsumed Input" none).Chain (.boxed none))) ∧
    ((Error "Unconsumed Input" none).Chain (.boxed none)).Chained = [.boxed none] ∧
    GoError.foreign "bad input" ∉ [GoError.boxed none] :=
  ⟨rfl, rfl, rfl, rfl, by simp⟩

/-! ## Rendering of an error chain -/

theorem foldl_Chain (cs : List GoError) :
    ∀ (r : String) (a : Option SourceLocation) (c0 : List GoError),
      cs.foldl ParseError.Chain (.mk r a c0) = .mk r a (c0 ++ cs) := by
  induction cs with
  | nil => intro r a c0; simp
  | cons c cs ih =>
    intro r a c0
    simp only [List.foldl_cons, ParseError.Chain, ih]
    simp

theorem renderChained_of_forall₂ (cs : List GoError) (lines : List String)
    (h : List.Forall₂ (fun c l => c.Error = some l) cs lines) :
    renderChained cs = some lines := by
  induction h with
  | nil => simp [renderChained]
  | cons hc _ ih => simp [renderChained, hc, ih]

/-- Counterexample to C18. The causes `x` and then `y` are chained to an error
without location; `Error()` renders `y` first, then `x`, then the line of the
error itself, not `x` before `y`. -/
theorem Error_renders_latest_cause_first :
    (([GoError.foreign "x", GoError.foreign "y"].foldl ParseError.Chain
        (Error "r" none)).Error = some "y\nx\nParse Error @ EOS : r") ∧
      (some "y\nx\nParse Error @ EOS : r" : Option String) ≠
        some "x\ny\nParse Error @ EOS : r" :=
  ⟨rfl, by decide⟩

/-- C18, amended. Rendering order of an error chain: when the causes
`c1, ..., ck` are chained in that order to an error `p` without causes and
each `ci` renders as `li`, `Error()` of the result is `lk, ..., l1` (the cause
chained last comes first), followed last by the line of `p` itself, joined by
newlines; that line is `Parse Error @ EOS : reason` without a location and
`Parse Error @ startLine:startCol-endLine:endCol : reason` with one. -/
theorem Error_rendering (p : ParseError) (cs : List GoError) (lines : List String)
    (hp : p.Chained = [])
    (hlines : List.Forall₂ (fun c l => c.Error = some l) cs lines) :
    (cs.foldl ParseError.Chain p).Error =
        some ("\n".intercalate (lines.reverse ++ [p.error])) ∧
      (p.At = none → p.error = "Parse Error @ EOS : " ++ p.Reason) ∧
      (∀ l, p.At = some l → p.error =
        "Parse Error @ " ++ toString l.StartLine ++ ":" ++ toString l.StartColumn ++ "-" ++
          toString l.EndLine ++ ":" ++ toString l.EndColumn ++ " : " ++ p.Reason) := by
  refine ⟨?_, ?_, ?_⟩
  · obtain ⟨r, a, c0⟩ := p
    simp only [ParseError.Chained] at hp
    subst hp
    rw [foldl_Chain]
    simp only [List.nil_append, ParseError.Error, renderChained_of_forall₂ cs lines hlines]
    rfl
  · intro h
    simp [ParseError.error, h]
  · intro l h
    simp [ParseError.error, h]

/-- Witness of C18, amended: a foreign cause `x` and then a located
`ParseError` with a cause of its own are chained to an error at end of
stream. -/
theorem Error_rendering_witness :
    (Error "r" none).Chained = [] ∧
    List.Forall₂ (fun c l => c.Error = some l)
      [GoError.foreign "x",
        GoError.boxed (some ((Error "inner" (some (tokenAt 0 "a" 1))).Chain (.foreign "deep")))]
      ["x", "deep\nParse Error @ 1:1-1:1 : inner"] ∧
    ([GoError.foreign "x",
        GoError.boxed (some ((Error "inner" (some (tokenAt 0 "a" 1))).Chain
          (.foreign "deep")))].foldl ParseError.Chain (Error "r" none)).Error =
      some ("\n".intercalate
        (["x", "deep\nParse Error @ 1:1-1:1 : inner"].reverse ++ [(Error "r" none).error])) :=
  ⟨rfl, List.Forall₂.cons rfl (List.Forall₂.cons rfl List.Forall₂.nil),
    (Error_rendering (Error "r" none)
      [GoError.foreign "x",
        GoError.boxed (some ((Error "inner" (some (tokenAt 0 "a" 1))).Chain (.foreign "deep")))]
      ["x", "deep\nParse Error @ 1:1-1:1 : inner"] rfl
      (List.Forall₂.cons rfl (List.Forall₂.cons rfl List.Forall₂.nil))).1⟩

/-! ## Memoize -/

theorem MemoKept.rfl' {κ : Type} (p : Parser κ) : MemoKept p p :=
  ⟨rfl, fun _ _ _ l hs hc hl => ⟨l, hs, hc, hl⟩⟩

theorem MemoKept.trans' {κ : Type} {p q r : Parser κ} (h1 : MemoKept p q)
    (h2 : MemoKept q r) : MemoKept p r := by
  refine ⟨h2.1.trans h1.1, fun j k res l hs hc hl => ?_⟩
  obtain ⟨l1, hs1, hc1, hl1⟩ := h1.2 j k res l hs hc hl
  rw [← h1.1] at hs1
  obtain ⟨l2, hs2, hc2, hl2⟩ := h2.2 j k res l1 hs1 hc1 hl1
  exact ⟨l2, by rw [hs2, h1.1], hc2, hl2⟩

theorem MemoKept.of_same {κ : Type} {p q : Parser κ} (hid : q.S.Id = p.S.Id)
    (hm : q.Memo = p.Memo) : MemoKept p q :=
  ⟨hid, fun j k res l hs hc hl => ⟨l, by rw [hm]; exact hs, by rw [hm]; exact hc, hl⟩⟩

theorem MemoKept.withTC {κ : Type} {p q : Parser κ} (tc : Int) (h : MemoKept p q) :
    MemoKept p (q.setTC tc) :=
  h.trans' (MemoKept.of_same rfl rfl)

theorem Consume_keepsMemo {κ : Type} (tokens : List String) (tokenIds : String → Option Int)
    (token : String) : KeepsMemo (Consume tokens tokenIds token : Consumer κ) := by
  intro p r p' h
  simp only [Consume] at h
  split at h
  · simp only [Option.some.injEq, Prod.mk.injEq] at h
    rw [← h.2]; exact MemoKept.of_same rfl rfl
  · split at h
    · simp only [Option.some.injEq, Prod.mk.injEq] at h
      rw [← h.2]; exact MemoKept.of_same rfl rfl
    · split at h
      · simp at h
      · split at h
        · simp only [Option.some.injEq, Prod.mk.injEq] at h
          rw [← h.2]; exact MemoKept.of_same rfl rfl
        · simp only [Option.some.injEq, Prod.mk.injEq] at h
          rw [← h.2]; exact MemoKept.of_same rfl rfl

theorem Peek_keepsMemo {κ : Type} (tokenIds : String → Option Int) (tokens : List String) :
    KeepsMemo (Peek tokenIds tokens : Consumer κ) := by
  intro p r p' h
  simp only [Peek] at h
  split at h
  · simp only [Option.some.injEq, Prod.mk.injEq] at h
    rw [← h.2]; exact MemoKept.of_same rfl rfl
  · split at h
    · simp only [Option.some.injEq, Prod.mk.injEq] at h
      rw [← h.2]; exact MemoKept.of_same rfl rfl
    · split at h
      · simp at h
      · split at h
        · simp only [Option.some.injEq, Prod.mk.injEq] at h
          rw [← h.2]; exact MemoKept.of_same rfl rfl
        · simp only [Option.some.injEq, Prod.mk.injEq] at h
          rw [← h.2]; exact MemoKept.of_same rfl rfl

theorem Epsilon_keepsMemo {κ : Type} (n : Option Node) :
    KeepsMemo (Epsilon n : Consumer κ) := by
  intro p r p' h
  simp only [Epsilon, Option.some.injEq, Prod.mk.injEq] at h
  rw [← h.2]; exact MemoKept.rfl' _

theorem concatLoop_keepsMemo {κ : Type} (tc : Int) (cs : List (Consumer κ))
    (hcs : ∀ c ∈ cs, KeepsMemo c) :
    ∀ (nodes : List (Option Node)) (p : Parser κ)
      (r : List (Option Node) × Option ParseError) (p' : Parser κ),
      concatLoop tc cs nodes p = some (r, p') → MemoKept p p' := by
  induction cs with
  | nil =>
    intro nodes p r p' h
    simp only [concatLoop, Option.some.injEq, Prod.mk.injEq] at h
    rw [← h.2]; exact MemoKept.rfl' _
  | cons c cs ih =>
    intro nodes p r p' h
    simp only [concatLoop] at h
    split at h
    · simp at h
    · rename_i n p1 hc
      exact (hcs c (List.mem_cons_self _ _) _ _ _ hc).trans'
        (ih (fun a ha => hcs a (List.mem_cons_of_mem _ ha)) _ _ _ _ h)
    · rename_i n err p1 hc
      simp only [Option.some.injEq, Prod.mk.injEq] at h
      rw [← h.2]
      exact (hcs c (List.mem_cons_self _ _) _ _ _ hc).withTC tc

theorem Concat_keepsMemo {κ : Type} (cs : List (Consumer κ)) (action : Action κ)
    (hcs : ∀ c ∈ cs, KeepsMemo c) : KeepsMemo (Concat cs action) := by
  intro p r p' h
  simp only [Concat] at h
  split at h
  · simp at h
  · rename_i ns err p1 hc
    simp only [Option.some.injEq, Prod.mk.injEq] at h
    rw [← h.2]
    exact (concatLoop_keepsMemo _ _ hcs _ _ _ _ hc).withTC _
  · rename_i nodes p1 hc
    have h1 := concatLoop_keepsMemo _ _ hcs _ _ _ _ hc
    split at h
    · simp only [Option.some.injEq, Prod.mk.injEq] at h
      rw [← h.2]
      exact h1.trans' (MemoKept.of_same rfl rfl)
    · simp only [Option.some.injEq, Prod.mk.injEq] at h
      rw [← h.2]
      exact h1.trans' (MemoKept.of_same rfl rfl)

theorem Effect_keepsMemo {κ : Type} (cs : List (Consumer κ)) (act : SideEffect κ)
    (hcs : ∀ c ∈ cs, KeepsMemo c) : KeepsMemo (Effect cs act) := by
  intro p r p' h
  simp only [Effect] at h
  split at h
  · simp at h
  · rename_i ns err p1 hc
    simp only [Option.some.injEq, Prod.mk.injEq] at h
    rw [← h.2]
    exact (concatLoop_keepsMemo _ _ hcs _ _ _ _ hc).withTC _
  · rename_i nodes p1 hc
    have h1 := concatLoop_keepsMemo _ _ hcs _ _ _ _ hc
    split at h
    · simp only [Option.some.injEq, Prod.mk.injEq] at h
      rw [← h.2]
      exact h1.trans' (MemoKept.of_same rfl rfl)
    · simp only [Option.some.injEq, Prod.mk.injEq] at h
      rw [← h.2]
      exact h1.trans' (MemoKept.of_same rfl rfl)

theorem altBody_keepsMemo {κ : Type} (tc : Int) (c : Consumer κ) (hc : KeepsMemo c)
    (v : AltVars) (p : Parser κ) :
    (∀ n p1, altBody tc c v p = some (.ret n p1) → MemoKept p p1) ∧
      (∀ e v1 p1, altBody tc c v p = some (.cont e v1 p1) → MemoKept p p1) := by
  constructor
  · intro n p1 h
    simp only [altBody] at h
    split at h
    · simp at h
    · rename_i n' q hq
      simp only [Option.some.injEq, AltStep.ret.injEq] at h
      rw [← h.2]
      exact (MemoKept.of_same rfl rfl : MemoKept p (p.setTC tc)).trans' (hc _ _ _ hq)
    · split_ifs at h <;> simp at h
  · intro e v1 p1 h
    obtain ⟨n, q', hq, hcase⟩ := altBody_cont_cases _ _ _ _ _ _ _ h
    have h1 : MemoKept p q' :=
      (MemoKept.of_same rfl rfl : MemoKept p (p.setTC tc)).trans' (hc _ _ _ hq)
    rcases hcase with ⟨_, _, rfl⟩ | ⟨_, _, _, _, rfl⟩ | ⟨_, _, _, _, rfl⟩
    · exact h1.trans' (MemoKept.of_same rfl rfl)
    · exact h1.trans' (MemoKept.of_same rfl rfl)
    · exact h1

theorem altLoop_keepsMemo {κ : Type} (tc : Int) (cs : List (Consumer κ))
    (hcs : ∀ c ∈ cs, KeepsMemo c) :
    ∀ (v : AltVars) (p : Parser κ) (r : Result) (p' : Parser κ),
      altLoop tc cs v p = some (r, p') → MemoKept p p' := by
  induction cs with
  | nil =>
    intro v p r p' h
    simp only [altLoop, Option.some.injEq, Prod.mk.injEq] at h
    rw [← h.2]; exact MemoKept.of_same rfl rfl
  | cons c cs ih =>
    intro v p r p' h
    have hb := altBody_keepsMemo tc c (hcs c (List.mem_cons_self _ _)) v p
    simp only [altLoop] at h
    split at h
    · simp at h
    · rename_i n p1 hstep
      simp only [Option.some.injEq, Prod.mk.injEq] at h
      rw [← h.2]; exact hb.1 _ _ hstep
    · rename_i e v1 p1 hstep
      exact (hb.2 _ _ _ hstep).trans'
        (ih (fun a ha => hcs a (List.mem_cons_of_mem _ ha)) _ _ _ _ h)

theorem Alt_keepsMemo {κ : Type} (cs : List (Consumer κ)) (hcs : ∀ c ∈ cs, KeepsMemo c) :
    KeepsMemo (Alt cs) := by
  intro p r p' h
  exact altLoop_keepsMemo _ _ hcs _ _ _ _ h

theorem memoEntry_noReset {κ : Type} (p : Parser κ) (cell : Nat)
    (l : List (Int × MemoResult)) (hs : (p.Memo cell).s = some p.S.Id)
    (hc : (p.Memo cell).cache = some l) :
    (if (p.Memo cell).cache.isNone || (p.Memo cell).s != some p.S.Id then
        ({ s := some p.S.Id, cache := some [] } : MemoVars)
      else p.Memo cell) = p.Memo cell := by
  simp [hs, hc]

theorem setMemo_kept {κ : Type} (p : Parser κ) (cell : Nat) :
    MemoKept p (p.setMemo cell
      (if (p.Memo cell).cache.isNone || (p.Memo cell).s != some p.S.Id then
        ({ s := some p.S.Id, cache := some [] } : MemoVars)
      else p.Memo cell)) := by
  refine ⟨rfl, fun j k res l hs hc hl => ?_⟩
  by_cases hj : j = cell
  · subst hj
    rw [memoEntry_noReset p j l hs hc]
    refine ⟨l, ?_, ?_, hl⟩
    · simp [Parser.setMemo, hs]
    · simp [Parser.setMemo, hc]
  · refine ⟨l, ?_, ?_, hl⟩
    · simp [Parser.setMemo, Function.update_noteq hj, hs]
    · simp [Parser.setMemo, Function.update_noteq hj, hc]

theorem Memoize_keepsMemo {κ : Type} (cell : Nat) (c : Consumer κ) (hc : KeepsMemo c) :
    KeepsMemo (Memoize cell c) := by
  intro p r p' h
  have hA := setMemo_kept p cell
  simp only [Memoize] at h
  split at h
  · simp only [Option.some.injEq, Prod.mk.injEq] at h
    rw [← h.2]; exact hA.withTC _
  · rename_i hmiss
    split at h
    · simp at h
    · rename_i n e p1 hq
      have hB := hA.trans' (hc _ _ _ hq)
      split at h
      · simp at h
      · rename_i l1 hl1
        simp only [Option.some.injEq, Prod.mk.injEq] at h
        rw [← h.2]
        refine ⟨hB.1, fun j k res l hs hcache hl => ?_⟩
        obtain ⟨l', hs', hc', hl'⟩ := hB.2 j k res l hs hcache hl
        by_cases hj : j = cell
        · subst hj
          rw [hl1] at hc'
          simp only [Option.some.injEq] at hc'
          subst hc'
          rw [memoEntry_noReset p j l hs hcache, hcache] at hmiss
          simp only [Option.getD_some] at hmiss
          have hne : (p.setMemo j (p.Memo j)).S.TC ≠ k := by
            intro heq
            rw [heq, hl] at hmiss
            simp at hmiss
          have hmem : ∀ M : MemoVars, (p1.setMemo j M).Memo j = M := by
            intro M
            simp [Parser.setMemo]
          rw [hmem]
          refine ⟨_, hs', rfl, ?_⟩
          rw [memoEntry_noReset p j l hs hcache]
          simp only [memoLookup, hne, if_false]
          exact hl'
        · refine ⟨l', ?_, ?_, hl'⟩
          · simp only [Parser.setMemo, Function.update_noteq hj]
            exact hs'
          · simp only [Parser.setMemo, Function.update_noteq hj]
            exact hc'

theorem Combinator_keepsMemo {κ : Type} (g : Grammar κ) :
    ∀ (fuel : Nat) (c : Combinator κ), KeepsMemo (c.Consume g fuel) := by
  intro fuel
  induction fuel with
  | zero =>
    intro c p r p' h
    simp [Combinator.Consume] at h
  | succ fuel ih =>
    intro c
    have hmap : ∀ cs : List (Combinator κ),
        ∀ a ∈ cs.map (Combinator.Consume g fuel), KeepsMemo a := by
      intro cs a ha
      obtain ⟨b, -, rfl⟩ := List.mem_map.1 ha
      exact ih b
    cases c with
    | consume token => exact Consume_keepsMemo _ _ _
    | peek tokens => exact Peek_keepsMemo _ _
    | epsilon n => exact Epsilon_keepsMemo _
    | lazy name =>
      intro p r p' h
      simp only [Combinator.Consume] at h
      cases hprod : g.productions name with
      | none => simp [hprod] at h
      | some b =>
        simp only [hprod] at h
        exact ih _ _ _ _ h
    | concat cs action => exact Concat_keepsMemo _ _ (hmap cs)
    | effect cs act => exact Effect_keepsMemo _ _ (hmap cs)
    | alt cs => exact Alt_keepsMemo _ (hmap cs)
    | memoize cell c => exact Memoize_keepsMemo _ _ (ih c)

theorem setMemo_self {κ : Type} (p : Parser κ) (cell : Nat) :
    p.setMemo cell (p.Memo cell) = p := by
  simp [Parser.setMemo]

/-- C12. `Memoize` replays on a hit. A call at a cursor `k` for which the
closure holds no entry calls `c` once, returns its node and error, and leaves
the state `c` left with the entry `k -> (node, error, cursor after c)` added.
A call at a cursor for which the closure holds an entry for this scanner
returns the recorded node and error and sets the cursor to the recorded one,
whatever the wrapped consumer is (it is not called), and leaves the rest of
the state, `LastError` and `UserError` included, as it was at entry. An entry
held for this scanner is still held, unchanged, after any call of a consumer
built from the combinators. -/
theorem Memoize_replay {κ : Type} (g : Grammar κ) (cell : Nat) (c : Consumer κ)
    (p : Parser κ) :
    (∀ n e p1 l, memoLookup p.S.TC ((memoAtEntry p cell).cache.getD []) = none →
      c (p.setMemo cell (memoAtEntry p cell)) = some ((n, e), p1) →
      (p1.Memo cell).cache = some l →
      Memoize cell c p = some ((n, e), p1.setMemo cell
          { s := (p1.Memo cell).s,
            cache := some ((p.S.TC, { n := n, e := e, tc := p1.S.TC }) :: l) }) ∧
        memoLookup p.S.TC ((p.S.TC, { n := n, e := e, tc := p1.S.TC }) :: l) =
          some { n := n, e := e, tc := p1.S.TC }) ∧
    (∀ l res (c' : Consumer κ), (p.Memo cell).s = some p.S.Id →
      (p.Memo cell).cache = some l → memoLookup p.S.TC l = some res →
      Memoize cell c' p = some ((res.n, res.e), p.setTC res.tc) ∧
        (p.setTC res.tc).LastError = p.LastError ∧
        (p.setTC res.tc).UserError = p.UserError ∧ (p.setTC res.tc).Memo = p.Memo) ∧
    (∀ fuel (t : Combinator κ) r q k l res, t.Consume g fuel p = some (r, q) →
      (p.Memo cell).s = some p.S.Id → (p.Memo cell).cache = some l →
      memoLookup k l = some res →
      q.S.Id = p.S.Id ∧ ∃ l', (q.Memo cell).s = some q.S.Id ∧
        (q.Memo cell).cache = some l' ∧ memoLookup k l' = some res) := by
  refine ⟨?_, ?_, ?_⟩
  · intro n e p1 l hmiss hc hl
    refine ⟨?_, by simp [memoLookup]⟩
    have hmiss' : memoLookup (p.setMemo cell (memoAtEntry p cell)).S.TC
        ((memoAtEntry p cell).cache.getD []) = none := hmiss
    simp only [memoAtEntry] at hmiss' hc
    simp only [Memoize, hmiss', hc, hl]
    rfl
  · intro l res c' hs hcache hlook
    refine ⟨?_, rfl, rfl, rfl⟩
    have hentry := memoEntry_noReset p cell l hs hcache
    simp only [Memoize]
    rw [hentry]
    simp only [setMemo_self, hcache, Option.getD_some, hlook]
  · intro fuel t r q k l res hrun hs hcache hlook
    have hk := Combinator_keepsMemo g fuel t p r q hrun
    obtain ⟨l', hs', hc', hl'⟩ := hk.2 cell k res l hs hcache hlook
    exact ⟨hk.1, l', by rw [hk.1]; exact hs', hc', hl'⟩

/-- Witness of C12: on the tokens `a b x` the first call of the memoized `a`
records the leaf of `a` and the cursor 1 under the cursor 0; a second call at
cursor 0 replays them, whatever consumer is wrapped. -/
theorem Memoize_replay_witness :
    Memoize 0 (Consume abcTokens abcIds "a") abxParser =
      some ((some (NewTokenNode abcTokens (tokenAt 0 "a" 1)), none), memoizedOnce) ∧
    Memoize 0 (fun _ => none) (memoizedOnce.setTC 0) =
      some ((some (NewTokenNode abcTokens (tokenAt 0 "a" 1)), none),
        (memoizedOnce.setTC 0).setTC 1) :=
  ⟨((Memoize_replay abcGrammar 0 (Consume abcTokens abcIds "a") abxParser).1
      (some (NewTokenNode abcTokens (tokenAt 0 "a" 1))) none
      (Parser.setTC (Parser.setMemo abxParser 0 { s := some 0, cache := some [] }) 1) []
      rfl rfl rfl).1,
    ((Memoize_replay abcGrammar 0 (Consume abcTokens abcIds "a") (memoizedOnce.setTC 0)).2.1
      [(0, ⟨some (NewTokenNode abcTokens (tokenAt 0 "a" 1)), none, 1⟩)]
      ⟨some (NewTokenNode abcTokens (tokenAt 0 "a" 1)), none, 1⟩ (fun _ => none)
      rfl rfl rfl).1⟩

/-! ## Memoization and the reported error -/

theorem replay_plain_parse :
    reported (replayPlain.Parse 5 freshMemo
        (listScanner [tokenAt 0 "a" 1, tokenAt 1 "b" 2, tokenAt 4 "x" 3]) ()) =
      some (false, some ("Expected c", some (TokenLocation (tokenAt 1 "b" 2)))) := by
  decide!

theorem replay_memoized_parse :
    reported (replayMemoized.Parse 5 freshMemo
        (listScanner [tokenAt 0 "a" 1, tokenAt 1 "b" 2, tokenAt 4 "x" 3]) ()) =
      some (false, some ("Expected b", some (TokenLocation (tokenAt 0 "a" 1)))) := by
  decide!

/-- Counterexample to C11. In the grammar `replayPlain` the sub-production
`replayTarget`, the choice between `c` and `b`, is called twice at the second
token of `a b x`; each call stores `Expected c` in `LastError` before it
succeeds on `b`, and between the two calls the start production, whose flag
`always` is set, lowers `LastError` to `Expected b` at the first token. The
start production succeeds on `a b` and input is left, so `Parse` reports
`LastError`: `Expected c` at column 2. With `replayTarget` replaced by
`Memoize(replayTarget)` and a fresh cache the second call is a cache hit,
which does not touch `LastError`, and `Parse` reports `Expected b` at
column 1. No action of the grammar has a side effect. -/
theorem memoize_changes_reported_error :
    reported (replayPlain.Parse 5 freshMemo
        (listScanner [tokenAt 0 "a" 1, tokenAt 1 "b" 2, tokenAt 4 "x" 3]) ()) =
      some (false, some ("Expected c", some (TokenLocation (tokenAt 1 "b" 2)))) ∧
    reported (replayMemoized.Parse 5 freshMemo
        (listScanner [tokenAt 0 "a" 1, tokenAt 1 "b" 2, tokenAt 4 "x" 3]) ()) =
      some (false, some ("Expected b", some (TokenLocation (tokenAt 0 "a" 1)))) ∧
    replayPlain.Parse 5 freshMemo
        (listScanner [tokenAt 0 "a" 1, tokenAt 1 "b" 2, tokenAt 4 "x" 3]) () ≠
      replayMemoized.Parse 5 freshMemo
        (listScanner [tokenAt 0 "a" 1, tokenAt 1 "b" 2, tokenAt 4 "x" 3]) () ∧
    (∀ (ctx : Unit) (nodes : List (Option Node)), (wrapAction ctx nodes).2 = ctx) := by
  refine ⟨replay_plain_parse, replay_memoized_parse, ?_, fun _ _ => rfl⟩
  intro h
  have h2 := congrArg reported h
  rw [replay_plain_parse, replay_memoized_parse] at h2
  revert h2
  decide

/-! ## Memoization: the simulation -/

theorem up_same {κ : Type} (f : Parser κ → Prop) (p p' q q' : Parser κ)
    (h : f q ↔ f p) (h' : f q' ↔ f p') : Up f p p' q q' :=
  ⟨h.2, h'.2, fun hq => Or.inl (h.1 hq), fun hq => Or.inl (h'.1 hq)⟩

theorem up_both {κ : Type} (f : Parser κ → Prop) (p p' q q' : Parser κ)
    (h : f q) (h' : f q') : Up f p p' q q' :=
  ⟨fun _ => h, fun _ => h', fun _ => Or.inr h', fun _ => Or.inr h⟩

theorem up_chain {κ : Type} (f : Parser κ → Prop) {p p' q q' r r' : Parser κ}
    (h1 : Up f p p' q q') (h2 : Up f q q' r r') : Up f p p' r r' := by
  obtain ⟨a1, b1, c1, d1⟩ := h1
  obtain ⟨a2, b2, c2, d2⟩ := h2
  refine ⟨fun h => a2 (a1 h), fun h => b2 (b1 h), fun h => ?_, fun h => ?_⟩
  · rcases c2 h with h3 | h3
    · rcases c1 h3 with h4 | h4
      · exact Or.inl h4
      · exact Or.inr (b2 h4)
    · exact Or.inr h3
  · rcases d2 h with h3 | h3
    · rcases d1 h3 with h4 | h4
      · exact Or.inl h4
      · exact Or.inr (a2 h4)
    · exact Or.inr h3

theorem track_same {κ : Type} (p p' q q' : Parser κ)
    (hu : q.UserError = p.UserError) (hl : q.LastError = p.LastError)
    (hu' : q'.UserError = p'.UserError) (hl' : q'.LastError = p'.LastError) :
    Track p p' q q' :=
  ⟨up_same ueSet p p' q q' (by simp [ueSet, hu]) (by simp [ueSet, hu']),
    up_same leSet p p' q q' (by simp [leSet, hl]) (by simp [leSet, hl'])⟩

theorem track_chain {κ : Type} {p p' q q' r r' : Parser κ}
    (h1 : Track p p' q q') (h2 : Track q q' r r') : Track p p' r r' :=
  ⟨up_chain ueSet h1.1 h2.1, up_chain leSet h1.2 h2.2⟩

theorem entryOK_mono {κ : Type} (w : MemoWorld κ) {U L U' L' : Prop} (hU : U → U')
    (hL : L → L') (t : Combinator κ) (k : Int) (res : MemoResult)
    (h : EntryOK w U L t k res) : EntryOK w U' L' t k res := by
  intro q h1 h2 h3 h4
  obtain ⟨m, q1, hrun, a, b, c, d, e1, e2, e3, e4⟩ := h q h1 h2 h3 h4
  exact ⟨m, q1, hrun, a, b, c, d, e1, fun hq => (e2 hq).imp id hU, e3,
    fun hq => (e4 hq).imp id hL⟩

theorem memoOK_mono {κ : Type} (w : MemoWorld κ) {U L U' L' : Prop} (hU : U → U')
    (hL : L → L') (memo : Nat → MemoVars) (h : MemoOK w U L memo) : MemoOK w U' L' memo :=
  fun j l k res hs hc hl => entryOK_mono w hU hL _ _ _ (h j l k res hs hc hl)

theorem memoInv_step {κ : Type} (w : MemoWorld κ) (p' q' : Parser κ) (h : MemoInv w p')
    (hscan : q'.S.scan = p'.S.scan) (hid : q'.S.Id = p'.S.Id) (hctx : q'.Ctx = w.ctx)
    (hmemo : q'.Memo = p'.Memo) (hu : ueSet p' → ueSet q') (hl : leSet p' → leSet q') :
    MemoInv w q' := by
  obtain ⟨h1, h2, _, h4⟩ := h
  refine ⟨hscan.trans h1, hid.trans h2, hctx, ?_⟩
  rw [hmemo]
  exact memoOK_mono w hu hl _ h4

theorem scanner_ext (s s' : Scanner) (hid : s.Id = s'.Id) (htc : s.TC = s'.TC)
    (hscan : s.scan = s'.scan) : s = s' := by
  cases s; cases s'
  simp only at hid htc hscan
  subst hid htc hscan
  rfl

theorem Consume_transfer {κ : Type} (tokens : List String) (tokenIds : String → Option Int)
    (token : String) (p p2 : Parser κ) (r : Result) (q : Parser κ)
    (h : Consume tokens tokenIds token p = some (r, q)) (h2 : p2.S = p.S) :
    Consume tokens tokenIds token p2 = some (r, { p2 with S := q.S }) ∧
      q.S.scan = p.S.scan ∧ q.S.Id = p.S.Id ∧ q.Ctx = p.Ctx ∧
      q.UserError = p.UserError ∧ q.LastError = p.LastError ∧ q.Memo = p.Memo := by
  simp only [Consume, next_eq] at h ⊢
  rw [h2]
  split at h
  · rename_i heof
    simp only [Option.some.injEq, Prod.mk.injEq] at h
    obtain ⟨rfl, rfl⟩ := h
    simp only [heof, if_true]
    exact ⟨by simp [Parser.setTC, ← h2], rfl, rfl, rfl, rfl, rfl, rfl⟩
  · rename_i heof
    split at h
    · rename_i err herr
      simp only [Option.some.injEq, Prod.mk.injEq] at h
      obtain ⟨rfl, rfl⟩ := h
      simp only [heof, if_false, herr]
      exact ⟨by simp [Parser.setTC, ← h2], rfl, rfl, rfl, rfl, rfl, rfl⟩
    · rename_i herr
      split at h
      · simp at h
      · rename_i tk htok
        split at h
        · rename_i hty
          simp only [Option.some.injEq, Prod.mk.injEq] at h
          obtain ⟨rfl, rfl⟩ := h
          simp only [heof, if_false, herr, htok, hty, if_true]
          exact ⟨by simp [Parser.setTC, ← h2], rfl, rfl, rfl, rfl, rfl, rfl⟩
        · rename_i hty
          simp only [Option.some.injEq, Prod.mk.injEq] at h
          obtain ⟨rfl, rfl⟩ := h
          simp only [heof, if_false, herr, htok, hty]
          exact ⟨by simp [Parser.setTC, ← h2], rfl, rfl, rfl, rfl, rfl, rfl⟩

theorem Peek_transfer {κ : Type} (tokenIds : String → Option Int) (tokens : List String)
    (p p2 : Parser κ) (r : Result) (q : Parser κ)
    (h : Peek tokenIds tokens p = some (r, q)) (h2 : p2.S = p.S) :
    Peek tokenIds tokens p2 = some (r, { p2 with S := q.S }) ∧
      q.S.scan = p.S.scan ∧ q.S.Id = p.S.Id ∧ q.Ctx = p.Ctx ∧
      q.UserError = p.UserError ∧ q.LastError = p.LastError ∧ q.Memo = p.Memo := by
  simp only [Peek, next_eq] at h ⊢
  rw [h2]
  split at h
  · rename_i heof
    simp only [Option.some.injEq, Prod.mk.injEq] at h
    obtain ⟨rfl, rfl⟩ := h
    simp only [heof, if_true]
    exact ⟨by simp [Parser.setTC, ← h2], rfl, rfl, rfl, rfl, rfl, rfl⟩
  · rename_i heof
    split at h
    · rename_i err herr
      simp only [Option.some.injEq, Prod.mk.injEq] at h
      obtain ⟨rfl, rfl⟩ := h
      simp only [heof, if_false, herr]
      exact ⟨by simp [Parser.setTC, ← h2], rfl, rfl, rfl, rfl, rfl, rfl⟩
    · rename_i herr
      split at h
      · simp at h
      · rename_i tk htok
        split at h
        · rename_i hty
          simp only [Option.some.injEq, Prod.mk.injEq] at h
          obtain ⟨rfl, rfl⟩ := h
          simp only [heof, if_false, herr, htok, hty, if_true]
          exact ⟨by simp [Parser.setTC, ← h2], rfl, rfl, rfl, rfl, rfl, rfl⟩
        · rename_i hty
          simp only [Option.some.injEq, Prod.mk.injEq] at h
          obtain ⟨rfl, rfl⟩ := h
          simp only [heof, if_false, herr, htok, hty]
          exact ⟨by simp [Parser.setTC, ← h2], rfl, rfl, rfl, rfl, rfl, rfl⟩

theorem Epsilon_transfer {κ : Type} (n : Option Node) (p p2 : Parser κ) (r : Result)
    (q : Parser κ) (h : (Epsilon n : Consumer κ) p = some (r, q)) (h2 : p2.S = p.S) :
    (Epsilon n : Consumer κ) p2 = some (r, { p2 with S := q.S }) ∧
      q.S.scan = p.S.scan ∧ q.S.Id = p.S.Id ∧ q.Ctx = p.Ctx ∧
      q.UserError = p.UserError ∧ q.LastError = p.LastError ∧ q.Memo = p.Memo := by
  simp only [Epsilon, Option.some.injEq, Prod.mk.injEq] at h ⊢
  obtain ⟨rfl, rfl⟩ := h
  exact ⟨⟨rfl, by rw [← h2]⟩, rfl, rfl, rfl, rfl, rfl, rfl⟩

theorem leaf_sim {κ : Type} (w : MemoWorld κ) (t : Combinator κ) (c : Consumer κ)
    (ht : t.Consume w.plain 1 = c)
    (hc : ∀ (p p2 : Parser κ) (r : Result) (q : Parser κ), c p = some (r, q) → p2.S = p.S →
      c p2 = some (r, { p2 with S := q.S }) ∧
        q.S.scan = p.S.scan ∧ q.S.Id = p.S.Id ∧ q.Ctx = p.Ctx ∧
        q.UserError = p.UserError ∧ q.LastError = p.LastError ∧ q.Memo = p.Memo) :
    SimT w t c := by
  intro p' r' q' hinv hrun p hS hctx
  obtain ⟨h1, hscan, hid, hcx, hu, hl, hm⟩ := hc p' p r' q' hrun hS
  refine ⟨1, r', { p with S := q'.S }, by rw [ht]; exact h1, rfl, rfl, hctx, ?_, ?_⟩
  · exact memoInv_step w p' q' hinv hscan hid (hcx.trans hinv.2.2.1) hm
      (by simp [ueSet, hu]) (by simp [leSet, hl])
  · exact track_same _ _ _ _ rfl rfl hu hl

theorem altBody_ret_inv {κ : Type} (tc : Int) (c : Consumer κ) (v : AltVars)
    (p p1 : Parser κ) (n : Option Node) (h : altBody tc c v p = some (.ret n p1)) :
    c (p.setTC tc) = some ((n, none), p1) := by
  simp only [altBody] at h
  split at h
  · simp at h
  · rename_i n' q hq
    simp only [Option.some.injEq, AltStep.ret.injEq] at h
    obtain ⟨rfl, rfl⟩ := h
    exact hq
  · split_ifs at h <;> simp at h

theorem altBody_cont_facts {κ : Type} (tc : Int) (c : Consumer κ) (v v1 : AltVars)
    (p p1 : Parser κ) (e : ParseError) (h : altBody tc c v p = some (.cont e v1 p1)) :
    ∃ n q, c (p.setTC tc) = some ((n, some e), q) ∧ p1.S = q.S ∧ p1.Ctx = q.Ctx ∧
      p1.UserError = q.UserError ∧ p1.Memo = q.Memo ∧ p1.LastError ≠ none ∧
      v1.err = (match v.err with
        | none => some e
        | some b => some (keepOrReplace b e)) := by
  have herr := altBody_cont_err _ _ _ _ _ _ _ h
  have hne : v1.err ≠ none := by
    rw [herr]
    cases v.err <;> simp
  obtain ⟨n, q, hq, hcase⟩ := altBody_cont_cases _ _ _ _ _ _ _ h
  refine ⟨n, q, hq, ?_⟩
  rcases hcase with ⟨_, _, rfl⟩ | ⟨_, _, _, _, rfl⟩ | ⟨hq2, _, _, _, rfl⟩
  · exact ⟨rfl, rfl, rfl, rfl, hne, herr⟩
  · exact ⟨rfl, rfl, rfl, rfl, hne, herr⟩
  · exact ⟨rfl, rfl, rfl, rfl, hq2, herr⟩

theorem altBody_fail_exists {κ : Type} (tc : Int) (c : Consumer κ) (v : AltVars)
    (p q : Parser κ) (n : Option Node) (e : ParseError)
    (h : c (p.setTC tc) = some ((n, some e), q)) :
    ∃ v1 p1, altBody tc c v p = some (.cont e v1 p1) := by
  simp only [altBody, h]
  split_ifs <;> exact ⟨_, _, rfl⟩

theorem memoInv_setTC {κ : Type} (w : MemoWorld κ) (p' : Parser κ) (tc : Int)
    (h : MemoInv w p') : MemoInv w (p'.setTC tc) :=
  memoInv_step w p' _ h rfl rfl h.2.2.1 rfl id id

theorem setTC_S_congr {κ : Type} (p p' : Parser κ) (tc : Int) (h : p.S = p'.S) :
    (p.setTC tc).S = (p'.setTC tc).S := by
  simp [Parser.setTC, h]

theorem altLoop_sim {κ : Type} (w : MemoWorld κ) (ts : List (Combinator κ))
    (cs' : List (Consumer κ)) (h : List.Forall₂ (SimT w) ts cs') (tc : Int) :
    ∀ (v v' : AltVars), v.err = v'.err →
      ∀ (p' : Parser κ) (r' : Result) (q' : Parser κ), MemoInv w p' →
        altLoop tc cs' v' p' = some (r', q') → ∀ p : Parser κ, p.S = p'.S → p.Ctx = w.ctx →
          ∃ m r q, altLoop tc (ts.map (Combinator.Consume w.plain m)) v p = some (r, q) ∧
            Agree w p p' r r' q q' := by
  induction h with
  | nil =>
    intro v v' hv p' r' q' hinv hrun p hS hctx
    simp only [altLoop, Option.some.injEq, Prod.mk.injEq] at hrun
    obtain ⟨rfl, rfl⟩ := hrun
    refine ⟨0, (none, v.err), p.setTC tc, rfl, by rw [hv], setTC_S_congr p p' tc hS, hctx,
      memoInv_setTC w p' tc hinv, track_same _ _ _ _ rfl rfl rfl rfl⟩
  | @cons t c' ts cs' hhead _ ih =>
    intro v v' hv p' r' q' hinv hrun p hS hctx
    simp only [altLoop] at hrun
    split at hrun
    · simp at hrun
    · rename_i n p1' hstep
      simp only [Option.some.injEq, Prod.mk.injEq] at hrun
      obtain ⟨rfl, rfl⟩ := hrun
      have hc' := altBody_ret_inv _ _ _ _ _ _ hstep
      obtain ⟨m, r, q, hrun0, hr, hS2, hc2, hinv2, htr⟩ :=
        hhead _ _ _ (memoInv_setTC w p' tc hinv) hc' (p.setTC tc) (setTC_S_congr p p' tc hS) hctx
      subst hr
      refine ⟨m, (n, none), q, ?_, rfl, hS2, hc2, hinv2, htr⟩
      simp only [List.map_cons, altLoop, altBody_success _ _ _ _ _ _ hrun0]
    · rename_i e v1' p1' hstep
      obtain ⟨n, q1', hc', hS1', hC1', hU1', hM1', hL1', hv1'⟩ :=
        altBody_cont_facts _ _ _ _ _ _ _ hstep
      obtain ⟨m1, r, q1, hrun0, hr, hS2, hc2, hinv2, htr⟩ :=
        hhead _ _ _ (memoInv_setTC w p' tc hinv) hc' (p.setTC tc) (setTC_S_congr p p' tc hS) hctx
      subst hr
      obtain ⟨v1, p1, hbody⟩ := altBody_fail_exists tc _ v p q1 n e hrun0
      obtain ⟨n2, q2, hc2', hS1, hC1, hU1, hM1, hL1, hv1⟩ :=
        altBody_cont_facts _ _ _ _ _ _ _ hbody
      rw [hrun0] at hc2'
      simp only [Option.some.injEq, Prod.mk.injEq, true_and] at hc2'
      obtain ⟨-, rfl⟩ := hc2'
      have hvv : v1.err = v1'.err := by rw [hv1, hv1', hv]
      have hinv1 : MemoInv w p1' :=
        memoInv_step w q1' p1' hinv2 (by rw [hS1']) (by rw [hS1']) (hC1'.trans hinv2.2.2.1) hM1'
          (by simp [ueSet, hU1']) (fun _ => hL1')
      have hS3 : p1.S = p1'.S := by rw [hS1, hS1', hS2]
      obtain ⟨m2, r, q, hrun2, hr, hS4, hc4, hinv4, htr4⟩ :=
        ih v1 v1' hvv p1' r' q' hinv1 hrun p1 hS3 (hC1.trans hc2)
      have hmono1 : Refines (t.Consume w.plain m1) (t.Consume w.plain (max m1 m2)) :=
        Combinator_fuel_mono w.plain t m1 _ (le_max_left _ _)
      have hmono2 : List.Forall₂ Refines (ts.map (Combinator.Consume w.plain m2))
          (ts.map (Combinator.Consume w.plain (max m1 m2))) :=
        forall₂_map_refines _ _
          (fun a => Combinator_fuel_mono w.plain a m2 _ (le_max_right _ _)) ts
      refine ⟨max m1 m2, r, q, ?_, hr, hS4, hc4, hinv4, ?_⟩
      · simp only [List.map_cons, altLoop, altBody_mono tc _ _ hmono1 v p _ hbody]
        exact altLoop_mono tc _ _ hmono2 _ _ _ hrun2
      · have hstep1 : Track p p' p1 p1' :=
          ⟨up_chain ueSet htr.1 (up_same ueSet _ _ _ _ (by simp [ueSet, hU1])
            (by simp [ueSet, hU1'])), up_both leSet _ _ _ _ hL1 hL1'⟩
        exact track_chain hstep1 htr4

theorem concatLoop_sim {κ : Type} (w : MemoWorld κ) (ts : List (Combinator κ))
    (cs' : List (Consumer κ)) (h : List.Forall₂ (SimT w) ts cs') (tc : Int) :
    ∀ (nodes : List (Option Node)) (p' : Parser κ)
      (R' : List (Option Node) × Option ParseError) (q' : Parser κ), MemoInv w p' →
        concatLoop tc cs' nodes p' = some (R', q') → ∀ p : Parser κ, p.S = p'.S →
          p.Ctx = w.ctx →
          ∃ m q, concatLoop tc (ts.map (Combinator.Consume w.plain m)) nodes p = some (R', q) ∧
            q.S = q'.S ∧ q.Ctx = w.ctx ∧ MemoInv w q' ∧ Track p p' q q' := by
  induction h with
  | nil =>
    intro nodes p' R' q' hinv hrun p hS hctx
    simp only [concatLoop, Option.some.injEq, Prod.mk.injEq] at hrun
    obtain ⟨rfl, rfl⟩ := hrun
    exact ⟨0, p, rfl, hS, hctx, hinv, track_same _ _ _ _ rfl rfl rfl rfl⟩
  | @cons t c' ts cs' hhead _ ih =>
    intro nodes p' R' q' hinv hrun p hS hctx
    simp only [concatLoop] at hrun
    split at hrun
    · simp at hrun
    · rename_i n p1' hc'
      obtain ⟨m1, r, q1, hrun0, hr, hS2, hc2, hinv2, htr⟩ := hhead _ _ _ hinv hc' p hS hctx
      subst hr
      obtain ⟨m2, q, hrun2, hS4, hc4, hinv4, htr4⟩ :=
        ih (nodes ++ [n]) p1' R' q' hinv2 hrun q1 hS2 hc2
      have hmono1 : Refines (t.Consume w.plain m1) (t.Consume w.plain (max m1 m2)) :=
        Combinator_fuel_mono w.plain t m1 _ (le_max_left _ _)
      have hmono2 : List.Forall₂ Refines (ts.map (Combinator.Consume w.plain m2))
          (ts.map (Combinator.Consume w.plain (max m1 m2))) :=
        forall₂_map_refines _ _
          (fun a => Combinator_fuel_mono w.plain a m2 _ (le_max_right _ _)) ts
      refine ⟨max m1 m2, q, ?_, hS4, hc4, hinv4, track_chain htr htr4⟩
      simp only [List.map_cons, concatLoop, hmono1 _ _ hrun0]
      exact concatLoop_mono tc _ _ hmono2 _ _ _ hrun2
    · rename_i n err p1' hc'
      simp only [Option.some.injEq, Prod.mk.injEq] at hrun
      obtain ⟨rfl, rfl⟩ := hrun
      obtain ⟨m1, r, q1, hrun0, hr, hS2, hc2, hinv2, htr⟩ := hhead _ _ _ hinv hc' p hS hctx
      subst hr
      refine ⟨m1, q1.setTC tc, ?_, setTC_S_congr _ _ tc hS2, hc2, memoInv_setTC w _ tc hinv2,
        htr⟩
      simp only [List.map_cons, concatLoop, hrun0]

theorem Concat_sim {κ : Type} (w : MemoWorld κ) (ts : List (Combinator κ))
    (cs' : List (Consumer κ)) (action : Action κ) (h : List.Forall₂ (SimT w) ts cs')
    (hpure : ∀ ctx nodes, (action ctx nodes).2 = ctx) :
    SimT w (.concat ts action) (Concat cs' action) := by
  intro p' r' q' hinv hrun p hS hctx
  have htc : p.S.TC = p'.S.TC := by rw [hS]
  simp only [Concat, concat] at hrun
  split at hrun
  · simp at hrun
  · rename_i ns err p1' hloop
    simp only [Option.some.injEq, Prod.mk.injEq] at hrun
    obtain ⟨rfl, rfl⟩ := hrun
    obtain ⟨m, q1, hrun1, hS1, hc1, hinv1, htr1⟩ :=
      concatLoop_sim w ts cs' h _ _ _ _ _ hinv hloop p hS hctx
    refine ⟨m + 1, (none, some err), q1.setTC p.S.TC, ?_, rfl, ?_, hc1, memoInv_setTC w _ _ hinv1,
      htr1⟩
    · simp only [Combinator.Consume, Concat, concat, htc, hrun1]
    · rw [htc]; exact setTC_S_congr _ _ _ hS1
  · rename_i nodes p1' hloop
    obtain ⟨m, q1, hrun1, hS1, hc1, hinv1, htr1⟩ :=
      concatLoop_sim w ts cs' h _ _ _ _ _ hinv hloop p hS hctx
    have hctx' : p1'.Ctx = w.ctx := hinv1.2.2.1
    have hact : action q1.Ctx nodes = action p1'.Ctx nodes := by rw [hc1, hctx']
    split at hrun
    · rename_i aerr haerr
      simp only [Option.some.injEq, Prod.mk.injEq] at hrun
      obtain ⟨rfl, rfl⟩ := hrun
      refine ⟨m + 1, (none, some aerr),
        { ({ q1 with Ctx := (action q1.Ctx nodes).2 } : Parser κ).setTC p.S.TC with
          UserError := some aerr, ActionFailures := q1.ActionFailures + 1 }, ?_, rfl, ?_, ?_, ?_,
        ?_⟩
      · simp only [Combinator.Consume, Concat, concat, htc, hrun1, hact, haerr]
      · show ({ q1.S with TC := p.S.TC } : Scanner) = { p1'.S with TC := p'.S.TC }
        rw [hS1, htc]
      · show (action q1.Ctx nodes).2 = w.ctx
        rw [hpure, hc1]
      · refine memoInv_step w p1' _ hinv1 rfl rfl ?_ rfl (fun _ => by simp [ueSet]) id
        show (action p1'.Ctx nodes).2 = w.ctx
        rw [hpure, hctx']
      · exact track_chain htr1
          ⟨up_both ueSet _ _ _ _ (by simp [ueSet]) (by simp [ueSet]),
            up_same leSet _ _ _ _ Iff.rfl Iff.rfl⟩
    · rename_i haerr
      simp only [Option.some.injEq, Prod.mk.injEq] at hrun
      obtain ⟨rfl, rfl⟩ := hrun
      refine ⟨m + 1, ((action p1'.Ctx nodes).1.1, none),
        { q1 with Ctx := (action q1.Ctx nodes).2 }, ?_, rfl, hS1, ?_, ?_, ?_⟩
      · simp only [Combinator.Consume, Concat, concat, htc, hrun1, hact, haerr]
      · show (action q1.Ctx nodes).2 = w.ctx
        rw [hpure, hc1]
      · refine memoInv_step w p1' _ hinv1 rfl rfl ?_ rfl id id
        show (action p1'.Ctx nodes).2 = w.ctx
        rw [hpure, hctx']
      · exact track_chain htr1 (track_same _ _ _ _ rfl rfl rfl rfl)

theorem Effect_sim {κ : Type} (w : MemoWorld κ) (ts : List (Combinator κ))
    (cs' : List (Consumer κ)) (act : SideEffect κ) (h : List.Forall₂ (SimT w) ts cs')
    (hpure : ∀ ctx nodes, (act ctx nodes).2 = ctx) :
    SimT w (.effect ts act) (Effect cs' act) := by
  intro p' r' q' hinv hrun p hS hctx
  have htc : p.S.TC = p'.S.TC := by rw [hS]
  simp only [Effect, concat] at hrun
  split at hrun
  · simp at hrun
  · rename_i ns err p1' hloop
    simp only [Option.some.injEq, Prod.mk.injEq] at hrun
    obtain ⟨rfl, rfl⟩ := hrun
    obtain ⟨m, q1, hrun1, hS1, hc1, hinv1, htr1⟩ :=
      concatLoop_sim w ts cs' h _ _ _ _ _ hinv hloop p hS hctx
    refine ⟨m + 1, (none, some err), q1.setTC p.S.TC, ?_, rfl, ?_, hc1, memoInv_setTC w _ _ hinv1,
      htr1⟩
    · simp only [Combinator.Consume, Effect, concat, htc, hrun1]
    · rw [htc]; exact setTC_S_congr _ _ _ hS1
  · rename_i nodes p1' hloop
    obtain ⟨m, q1, hrun1, hS1, hc1, hinv1, htr1⟩ :=
      concatLoop_sim w ts cs' h _ _ _ _ _ hinv hloop p hS hctx
    have hctx' : p1'.Ctx = w.ctx := hinv1.2.2.1
    have hact : act q1.Ctx nodes = act p1'.Ctx nodes := by rw [hc1, hctx']
    split at hrun
    · rename_i doerr hdo
      simp only [Option.some.injEq, Prod.mk.injEq, next_eq] at hrun
      obtain ⟨rfl, rfl⟩ := hrun
      have hscan : (q1.S.scan p.S.TC) = (p1'.S.scan p'.S.TC) := by rw [hS1, htc]
      refine ⟨m + 1,
        (none, some ((Error "Side Effect Error" (q1.S.scan p.S.TC).1.tok).Chain doerr)),
        { (({ q1 with Ctx := (act q1.Ctx nodes).2 } : Parser κ).setTC p.S.TC).next.2 with
          UserError := some ((Error "Side Effect Error"
            (({ q1 with Ctx := (act q1.Ctx nodes).2 } : Parser κ).setTC p.S.TC).next.1.tok).Chain
              doerr),
          ActionFailures := q1.ActionFailures + 1 }, ?_, ?_, ?_, ?_, ?_, ?_⟩
      · simp only [Combinator.Consume, Effect, concat, htc, hrun1, hact, hdo]
        rfl
      · show (none, some ((Error "Side Effect Error" (p1'.S.scan p'.S.TC).1.tok).Chain doerr)) =
          (none, some ((Error "Side Effect Error" (q1.S.scan p.S.TC).1.tok).Chain doerr))
        rw [hscan]
      · show ({ q1.S with TC := (q1.S.scan p.S.TC).2 } : Scanner) =
          { p1'.S with TC := (p1'.S.scan p'.S.TC).2 }
        rw [hscan, hS1]
      · show (act q1.Ctx nodes).2 = w.ctx
        rw [hpure, hc1]
      · refine memoInv_step w p1' _ hinv1 rfl rfl ?_ rfl (fun _ => by simp [ueSet]) id
        show (act p1'.Ctx nodes).2 = w.ctx
        rw [hpure, hctx']
      · exact track_chain htr1
          ⟨up_both ueSet _ _ _ _ (by simp [ueSet]) (by simp [ueSet]),
            up_same leSet _ _ _ _ Iff.rfl Iff.rfl⟩
    · rename_i hdo
      simp only [Option.some.injEq, Prod.mk.injEq] at hrun
      obtain ⟨rfl, rfl⟩ := hrun
      refine ⟨m + 1, (some ((NewNode "Effect").setChildren nodes), none),
        { q1 with Ctx := (act q1.Ctx nodes).2 }, ?_, rfl, hS1, ?_, ?_, ?_⟩
      · simp only [Combinator.Consume, Effect, concat, htc, hrun1, hact, hdo]
      · show (act q1.Ctx nodes).2 = w.ctx
        rw [hpure, hc1]
      · refine memoInv_step w p1' _ hinv1 rfl rfl ?_ rfl id id
        show (act p1'.Ctx nodes).2 = w.ctx
        rw [hpure, hctx']
      · exact track_chain htr1 (track_same _ _ _ _ rfl rfl rfl rfl)

theorem Alt_sim {κ : Type} (w : MemoWorld κ) (ts : List (Combinator κ))
    (cs' : List (Consumer κ)) (h : List.Forall₂ (SimT w) ts cs') :
    SimT w (.alt ts) (Alt cs') := by
  intro p' r' q' hinv hrun p hS hctx
  have htc : p.S.TC = p'.S.TC := by rw [hS]
  obtain ⟨m, r, q, hrun1, hagree⟩ :=
    altLoop_sim w ts cs' h p'.S.TC _ _ rfl p' r' q' hinv hrun p hS hctx
  refine ⟨m + 1, r, q, ?_, hagree⟩
  simp only [Combinator.Consume, Alt, htc]
  exact hrun1

theorem Memoize_eq {κ : Type} (cell : Nat) (c : Consumer κ) (p : Parser κ) :
    Memoize cell c p =
      match memoLookup p.S.TC ((memoAtEntry p cell).cache.getD []) with
      | some res => some ((res.n, res.e), (p.setMemo cell (memoAtEntry p cell)).setTC res.tc)
      | none =>
        match c (p.setMemo cell (memoAtEntry p cell)) with
        | none => none
        | some ((n, e), p1) =>
          match (p1.Memo cell).cache with
          | none => none
          | some l =>
            some ((n, e), p1.setMemo cell
              { s := (p1.Memo cell).s,
                cache := some ((p.S.TC, { n := n, e := e, tc := p1.S.TC }) :: l) }) :=
  rfl

theorem memoAtEntry_shape {κ : Type} (p : Parser κ) (cell : Nat) :
    (memoAtEntry p cell).s = some p.S.Id ∧
      (((memoAtEntry p cell).cache = some [] ∨ memoAtEntry p cell = p.Memo cell) ∧
        ∃ l, (memoAtEntry p cell).cache = some l) := by
  unfold memoAtEntry
  split
  · exact ⟨rfl, Or.inl rfl, [], rfl⟩
  · rename_i hcond
    simp only [Bool.or_eq_true, Option.isNone_iff_eq_none, bne_iff_ne, ne_eq, not_or,
      Decidable.not_not] at hcond
    refine ⟨hcond.2, Or.inr rfl, ?_⟩
    cases hc : (p.Memo cell).cache with
    | none => exact absurd hc hcond.1
    | some l => exact ⟨l, rfl⟩

theorem setMemo_get {κ : Type} (p : Parser κ) (cell : Nat) (m : MemoVars) :
    (p.setMemo cell m).Memo cell = m := by
  simp [Parser.setMemo]

theorem setMemo_get_ne {κ : Type} (p : Parser κ) (cell j : Nat) (m : MemoVars)
    (h : j ≠ cell) : (p.setMemo cell m).Memo j = p.Memo j := by
  simp [Parser.setMemo, Function.update_noteq h]

theorem memoInv_entry {κ : Type} (w : MemoWorld κ) (p' : Parser κ) (cell : Nat)
    (h : MemoInv w p') : MemoInv w (p'.setMemo cell (memoAtEntry p' cell)) := by
  obtain ⟨h1, h2, h3, h4⟩ := h
  refine ⟨h1, h2, h3, ?_⟩
  intro j l k res hs hc hl
  by_cases hj : j = cell
  · subst hj
    rw [setMemo_get] at hs hc
    rcases (memoAtEntry_shape p' j).2.1 with hempty | hsame
    · rw [hempty] at hc
      simp only [Option.some.injEq] at hc
      subst hc
      simp [memoLookup] at hl
    · rw [hsame] at hs hc
      exact h4 j l k res hs hc hl
  · rw [setMemo_get_ne _ _ _ _ hj] at hs hc
    exact h4 j l k res hs hc hl

theorem Memoize_sim {κ : Type} (w : MemoWorld κ) (cell : Nat) (t : Combinator κ)
    (c' : Consumer κ) (hcell : w.cellTree cell = t) (hin : SimT w t c') :
    SimT w t (Memoize cell c') := by
  intro p' r' q' hinv hrun p hS hctx
  have hinv0 := memoInv_entry w p' cell hinv
  have hS0 : p.S = (p'.setMemo cell (memoAtEntry p' cell)).S := hS
  rw [Memoize_eq] at hrun
  split at hrun
  · rename_i res hlook
    simp only [Option.some.injEq, Prod.mk.injEq] at hrun
    obtain ⟨rfl, rfl⟩ := hrun
    obtain ⟨hs, -, l, hl⟩ := memoAtEntry_shape p' cell
    rw [hl] at hlook
    simp only [Option.getD_some] at hlook
    have hentry : EntryOK w (ueSet p') (leSet p') t p'.S.TC res := by
      have := hinv0.2.2.2 cell l p'.S.TC res
        (by rw [setMemo_get, hs, hinv.2.1]) (by rw [setMemo_get, hl]) hlook
      rw [hcell] at this
      exact this
    obtain ⟨m, q1, hrun1, a, b, c, d, e1, e2, e3, e4⟩ :=
      hentry p (by rw [hS]; exact hinv.1) (by rw [hS]; exact hinv.2.1) (by rw [hS]) hctx
    refine ⟨m, (res.n, res.e), q1, hrun1, rfl, ?_, d, memoInv_setTC w _ _ hinv0, ?_⟩
    · exact scanner_ext _ _ (b.trans hinv.2.1.symm) c (a.trans hinv.1.symm)
    · exact ⟨⟨e1, id, e2, fun h => Or.inl h⟩, ⟨e3, id, e4, fun h => Or.inl h⟩⟩
  · rename_i hlook
    split at hrun
    · simp at hrun
    · rename_i n e p1' hc'
      split at hrun
      · simp at hrun
      · rename_i l1 hl1
        simp only [Option.some.injEq, Prod.mk.injEq] at hrun
        obtain ⟨rfl, rfl⟩ := hrun
        obtain ⟨m, r, q, hrun1, hr, hS1, hc1, hinv1, htr1⟩ := hin _ _ _ hinv0 hc' p hS0 hctx
        subst hr
        refine ⟨m, (n, e), q, hrun1, rfl, hS1, hc1, ?_, htr1⟩
        refine ⟨hinv1.1, hinv1.2.1, hinv1.2.2.1, ?_⟩
        intro j l k res hs hc hl
        by_cases hj : j = cell
        · subst hj
          rw [setMemo_get] at hs hc
          simp only [Option.some.injEq] at hc
          subst hc
          simp only [memoLookup] at hl
          split at hl
          · rename_i hk
            simp only [Option.some.injEq] at hl
            subst hl
            rw [hcell]
            intro q0 h1 h2 h3 h4
            have hS2 : q0.S = (p'.setMemo j (memoAtEntry p' j)).S :=
              scanner_ext _ _ (h2.trans hinv.2.1.symm) (h3.trans hk.symm)
                (h1.trans hinv.1.symm)
            obtain ⟨m2, r2, q2, hrun2, hr2, hS3, hc3, -, htr3⟩ :=
              hin _ _ _ hinv0 hc' q0 hS2 h4
            subst hr2
            refine ⟨m2, q2, hrun2, ?_, ?_, ?_, hc3, htr3.1.1, htr3.1.2.2.1, htr3.2.1,
              htr3.2.2.2.1⟩
            · rw [hS3]; exact hinv1.1
            · rw [hS3]; exact hinv1.2.1
            · rw [hS3]
          · exact hinv1.2.2.2 j l1 k res hs hl1 hl
        · rw [setMemo_get_ne _ _ _ _ hj] at hs hc
          exact hinv1.2.2.2 j l k res hs hc hl

theorem forall₂_simT_map {κ : Type} (w : MemoWorld κ) (f : Combinator κ → Consumer κ)
    (ts ts' : List (Combinator κ)) (h : List.Forall₂ (Memoized w.cellTree) ts ts')
    (hf : ∀ t t', Memoized w.cellTree t t' → SimT w t (f t')) :
    List.Forall₂ (SimT w) ts (ts'.map f) := by
  induction h with
  | nil => exact List.Forall₂.nil
  | cons hhead _ ih => exact List.Forall₂.cons (hf _ _ hhead) ih

theorem memoized_sim {κ : Type} (w : MemoWorld κ) (g' : Grammar κ)
    (hg : GrammarMemoized w.cellTree w.plain g') :
    ∀ (n : Nat) (t t' : Combinator κ), Memoized w.cellTree t t' →
      SimT w t (t'.Consume g' n) := by
  intro n
  induction n with
  | zero =>
    intro t t' _ p' r' q' _ hrun
    simp [Combinator.Consume] at hrun
  | succ n ih =>
    intro t t' hrel
    obtain ⟨htok, hids, -, hprod⟩ := hg
    cases hrel with
    | consume token =>
      simp only [Combinator.Consume, htok, hids]
      exact leaf_sim w _ _ rfl (Consume_transfer _ _ _)
    | peek tokens =>
      simp only [Combinator.Consume, hids]
      exact leaf_sim w _ _ rfl (Peek_transfer _ _)
    | epsilon node =>
      simp only [Combinator.Consume]
      exact leaf_sim w _ _ rfl (Epsilon_transfer _)
    | lazy name =>
      intro p' r' q' hinv hrun p hS hctx
      simp only [Combinator.Consume] at hrun
      rcases hprod name with ⟨_, h2⟩ | ⟨t1, t1', h1, h2, hrel1⟩
      · simp [h2] at hrun
      · simp only [h2] at hrun
        obtain ⟨m, r, q, hrun1, hagree⟩ := ih t1 t1' hrel1 p' r' q' hinv hrun p hS hctx
        refine ⟨m + 1, r, q, ?_, hagree⟩
        simp only [Combinator.Consume, h1]
        exact hrun1
    | concat cs cs' action hf hpure =>
      simp only [Combinator.Consume]
      exact Concat_sim w cs _ action (forall₂_simT_map w _ cs cs' hf ih) hpure
    | effect cs cs' act hf hpure =>
      simp only [Combinator.Consume]
      exact Effect_sim w cs _ act (forall₂_simT_map w _ cs cs' hf ih) hpure
    | alt cs cs' hf =>
      simp only [Combinator.Consume]
      exact Alt_sim w cs _ (forall₂_simT_map w _ cs cs' hf ih)
    | wrap cell c c' hcell hrel' =>
      simp only [Combinator.Consume]
      exact Memoize_sim w cell t _ hcell (ih t c' hrel')

theorem finish_compare {κ : Type} (r : Result) (q q' : Parser κ) (hS : q.S = q'.S)
    (hU : q.UserError = none ↔ q'.UserError = none)
    (hL : q.LastError = none ↔ q'.LastError = none) :
    Grammar.finish r q = Grammar.finish r q' ∨
      ∃ e e', Grammar.finish r q = some (none, some e) ∧
        Grammar.finish r q' = some (none, some e') ∧ r.2 = none ∧
        ((q.UserError = some e ∧ q'.UserError = some e') ∨
          (q.UserError = none ∧ q'.UserError = none ∧
            q.LastError = some e ∧ q'.LastError = some e')) := by
  obtain ⟨n, err⟩ := r
  cases err with
  | some e => exact Or.inl rfl
  | none =>
    cases hu : q.UserError with
    | some ue =>
      cases hu' : q'.UserError with
      | none => rw [hU.2 hu'] at hu; exact absurd hu (by simp)
      | some ue' =>
        exact Or.inr ⟨ue, ue', finish_of_userError n q ue hu, finish_of_userError n q' ue' hu',
          rfl, Or.inl ⟨rfl, rfl⟩⟩
    | none =>
      have hu' : q'.UserError = none := hU.1 hu
      cases hl : q.LastError with
      | some le =>
        cases hl' : q'.LastError with
        | none => rw [hL.2 hl'] at hl; exact absurd hl (by simp)
        | some le' =>
          by_cases heof : (q'.S.Next.1).eof = true
          · left
            simp [Grammar.finish, hu, hu', hS, heof]
          · right
            refine ⟨le, le', ?_, ?_, rfl, Or.inr ⟨rfl, hu', rfl, rfl⟩⟩
            · simp [Grammar.finish, hu, hS, heof, hl]
            · simp [Grammar.finish, hu', heof, hl']
      | none =>
        have hl' : q'.LastError = none := hL.1 hl
        left
        simp [Grammar.finish, hu, hu', hS, hl, hl']

/-! ## The small memoized grammar -/

theorem foldl_AddRule_productions {κ : Type} (name : String) :
    ∀ (tokens : List String) (g : Grammar κ),
      (tokens.foldl (fun g token => g.AddRule token (.consume token)) g).productions name =
        if name ∈ tokens then some (.consume name) else g.productions name := by
  intro tokens
  induction tokens with
  | nil => intro g; simp
  | cons t ts ih =>
    intro g
    rw [List.foldl_cons, ih]
    by_cases h1 : name ∈ ts
    · simp [h1]
    · by_cases h2 : name = t
      · subst h2
        simp [h1, Grammar.AddRule]
      · simp [h1, h2, Grammar.AddRule]

theorem foldl_AddRule_fields {κ : Type} :
    ∀ (tokens : List String) (g : Grammar κ),
      (tokens.foldl (fun g token => g.AddRule token (.consume token)) g).Tokens = g.Tokens ∧
      (tokens.foldl (fun g token => g.AddRule token (.consume token)) g).TokenIds =
        g.TokenIds ∧
      (tokens.foldl (fun g token => g.AddRule token (.consume token)) g).startProduction =
        g.startProduction := by
  intro tokens
  induction tokens with
  | nil => intro g; simp
  | cons t ts ih =>
    intro g
    rw [List.foldl_cons]
    exact ih _

theorem grammarMemoized_new {κ : Type} (cellTree : Nat → Combinator κ) (tokens : List String)
    (tokenIds : String → Option Int) :
    GrammarMemoized cellTree (NewGrammar tokens tokenIds) (NewGrammar tokens tokenIds) := by
  refine ⟨rfl, rfl, rfl, ?_⟩
  intro name
  simp only [NewGrammar, foldl_AddRule_productions]
  by_cases h : name ∈ tokens
  · right
    exact ⟨_, _, by simp [h], by simp [h], Memoized.consume name⟩
  · left
    simp [h]

theorem grammarMemoized_addRule {κ : Type} (cellTree : Nat → Combinator κ) (g g' : Grammar κ)
    (h : GrammarMemoized cellTree g g') (name : String) (t t' : Combinator κ)
    (ht : Memoized cellTree t t') :
    GrammarMemoized cellTree (g.AddRule name t) (g'.AddRule name t') := by
  obtain ⟨h1, h2, h3, h4⟩ := h
  refine ⟨h1, h2, h3, ?_⟩
  intro k
  by_cases hk : k = name
  · right
    exact ⟨t, t', by simp [Grammar.AddRule, hk], by simp [Grammar.AddRule, hk], ht⟩
  · simpa [Grammar.AddRule, hk] using h4 k

theorem grammarMemoized_start {κ : Type} (cellTree : Nat → Combinator κ) (g g' : Grammar κ)
    (h : GrammarMemoized cellTree g g') (name : String) :
    GrammarMemoized cellTree (g.Start name) (g'.Start name) := by
  obtain ⟨h1, h2, -, h4⟩ := h
  exact ⟨h1, h2, rfl, h4⟩

theorem cached_grammarMemoized :
    GrammarMemoized (fun _ => .consume "a") cachedPlain cachedMemoized := by
  refine grammarMemoized_start _ _ _ (grammarMemoized_addRule _ _ _
    (grammarMemoized_new _ _ _) _ _ _ ?_) _
  have hm : Memoized (fun _ => Combinator.consume "a") (.consume "a" : Combinator Unit)
      (.memoize 0 (.consume "a")) :=
    Memoized.wrap 0 _ _ rfl (Memoized.consume "a")
  exact Memoized.alt _ _ (List.Forall₂.cons
    (Memoized.concat _ _ _ (List.Forall₂.cons hm
      (List.Forall₂.cons (Memoized.consume "d") List.Forall₂.nil)) (fun _ _ => rfl))
    (List.Forall₂.cons hm List.Forall₂.nil))

theorem cached_memoized_start :
    cachedMemoized.consumeStart 4 freshMemo (listScanner [tokenAt 0 "a" 1]) () =
      some ((some (NewTokenNode abcTokens (tokenAt 0 "a" 1)), none), cachedExit) :=
  rfl

theorem cached_plain_start :
    cachedPlain.consumeStart 3 freshMemo (listScanner [tokenAt 0 "a" 1]) () =
      some ((some (NewTokenNode abcTokens (tokenAt 0 "a" 1)), none),
        { cachedExit with Memo := freshMemo }) :=
  rfl

/-! ## The map of a closure is never set back to nil -/

theorem cacheLive_same {κ : Type} {p q : Parser κ} (hm : q.Memo = p.Memo) : CacheLive p q := by
  intro j h
  rw [hm]
  exact h

theorem CacheLive.chain {κ : Type} {p q r : Parser κ} (h1 : CacheLive p q)
    (h2 : CacheLive q r) : CacheLive p r :=
  fun j h => h2 j (h1 j h)

theorem CacheLive.atTC {κ : Type} {p q : Parser κ} (tc : Int) (h : CacheLive p q) :
    CacheLive p (q.setTC tc) :=
  h.chain (cacheLive_same rfl)

theorem cacheLive_setMemo {κ : Type} (p : Parser κ) (cell : Nat) (M : MemoVars)
    (h : M.cache ≠ none) : CacheLive p (p.setMemo cell M) := by
  intro j hj
  by_cases hjc : j = cell
  · subst hjc
    rw [setMemo_get]
    exact h
  · rw [setMemo_get_ne _ _ _ _ hjc]
    exact hj

theorem Consume_keepsLive {κ : Type} (tokens : List String) (tokenIds : String → Option Int)
    (token : String) : KeepsLive (Consume tokens tokenIds token : Consumer κ) :=
  fun p r p' h => cacheLive_same (Consume_transfer tokens tokenIds token p p r p' h rfl).2.2.2.2.2.2

theorem Peek_keepsLive {κ : Type} (tokenIds : String → Option Int) (tokens : List String) :
    KeepsLive (Peek tokenIds tokens : Consumer κ) :=
  fun p r p' h => cacheLive_same (Peek_transfer tokenIds tokens p p r p' h rfl).2.2.2.2.2.2

theorem Epsilon_keepsLive {κ : Type} (n : Option Node) :
    KeepsLive (Epsilon n : Consumer κ) :=
  fun p r p' h => cacheLive_same (Epsilon_transfer n p p r p' h rfl).2.2.2.2.2.2

theorem concatLoop_keepsLive {κ : Type} (tc : Int) (cs : List (Consumer κ))
    (hcs : ∀ c ∈ cs, KeepsLive c) :
    ∀ (nodes : List (Option Node)) (p : Parser κ)
      (r : List (Option Node) × Option ParseError) (p' : Parser κ),
      concatLoop tc cs nodes p = some (r, p') → CacheLive p p' := by
  induction cs with
  | nil =>
    intro nodes p r p' h
    simp only [concatLoop, Option.some.injEq, Prod.mk.injEq] at h
    rw [← h.2]; exact cacheLive_same rfl
  | cons c cs ih =>
    intro nodes p r p' h
    simp only [concatLoop] at h
    split at h
    · simp at h
    · rename_i n p1 hc
      exact (hcs c (List.mem_cons_self _ _) _ _ _ hc).chain
        (ih (fun a ha => hcs a (List.mem_cons_of_mem _ ha)) _ _ _ _ h)
    · rename_i n err p1 hc
      simp only [Option.some.injEq, Prod.mk.injEq] at h
      rw [← h.2]
      exact (hcs c (List.mem_cons_self _ _) _ _ _ hc).atTC tc

theorem Concat_keepsLive {κ : Type} (cs : List (Consumer κ)) (action : Action κ)
    (hcs : ∀ c ∈ cs, KeepsLive c) : KeepsLive (Concat cs action) := by
  intro p r p' h
  simp only [Concat] at h
  split at h
  · simp at h
  · rename_i ns err p1 hc
    simp only [Option.some.injEq, Prod.mk.injEq] at h
    rw [← h.2]
    exact (concatLoop_keepsLive _ _ hcs _ _ _ _ hc).atTC _
  · rename_i nodes p1 hc
    have h1 := concatLoop_keepsLive _ _ hcs _ _ _ _ hc
    split at h
    · simp only [Option.some.injEq, Prod.mk.injEq] at h
      rw [← h.2]
      exact h1.chain (cacheLive_same rfl)
    · simp only [Option.some.injEq, Prod.mk.injEq] at h
      rw [← h.2]
      exact h1.chain (cacheLive_same rfl)

theorem Effect_keepsLive {κ : Type} (cs : List (Consumer κ)) (act : SideEffect κ)
    (hcs : ∀ c ∈ cs, KeepsLive c) : KeepsLive (Effect cs act) := by
  intro p r p' h
  simp only [Effect] at h
  split at h
  · simp at h
  · rename_i ns err p1 hc
    simp only [Option.some.injEq, Prod.mk.injEq] at h
    rw [← h.2]
    exact (concatLoop_keepsLive _ _ hcs _ _ _ _ hc).atTC _
  · rename_i nodes p1 hc
    have h1 := concatLoop_keepsLive _ _ hcs _ _ _ _ hc
    split at h
    · simp only [Option.some.injEq, Prod.mk.injEq] at h
      rw [← h.2]
      exact h1.chain (cacheLive_same rfl)
    · simp only [Option.some.injEq, Prod.mk.injEq] at h
      rw [← h.2]
      exact h1.chain (cacheLive_same rfl)

theorem altBody_keepsLive {κ : Type} (tc : Int) (c : Consumer κ) (hc : KeepsLive c)
    (v : AltVars) (p : Parser κ) :
    (∀ n p1, altBody tc c v p = some (.ret n p1) → CacheLive p p1) ∧
      (∀ e v1 p1, altBody tc c v p = some (.cont e v1 p1) → CacheLive p p1) := by
  constructor
  · intro n p1 h
    simp only [altBody] at h
    split at h
    · simp at h
    · rename_i n' q hq
      simp only [Option.some.injEq, AltStep.ret.injEq] at h
      rw [← h.2]
      exact (cacheLive_same rfl : CacheLive p (p.setTC tc)).chain (hc _ _ _ hq)
    · split_ifs at h <;> simp at h
  · intro e v1 p1 h
    obtain ⟨n, q', hq, hcase⟩ := altBody_cont_cases _ _ _ _ _ _ _ h
    have h1 : CacheLive p q' :=
      (cacheLive_same rfl : CacheLive p (p.setTC tc)).chain (hc _ _ _ hq)
    rcases hcase with ⟨_, _, rfl⟩ | ⟨_, _, _, _, rfl⟩ | ⟨_, _, _, _, rfl⟩
    · exact h1.chain (cacheLive_same rfl)
    · exact h1.chain (cacheLive_same rfl)
    · exact h1

theorem altLoop_keepsLive {κ : Type} (tc : Int) (cs : List (Consumer κ))
    (hcs : ∀ c ∈ cs, KeepsLive c) :
    ∀ (v : AltVars) (p : Parser κ) (r : Result) (p' : Parser κ),
      altLoop tc cs v p = some (r, p') → CacheLive p p' := by
  induction cs with
  | nil =>
    intro v p r p' h
    simp only [altLoop, Option.some.injEq, Prod.mk.injEq] at h
    rw [← h.2]; exact cacheLive_same rfl
  | cons c cs ih =>
    intro v p r p' h
    have hb := altBody_keepsLive tc c (hcs c (List.mem_cons_self _ _)) v p
    simp only [altLoop] at h
    split at h
    · simp at h
    · rename_i n p1 hstep
      simp only [Option.some.injEq, Prod.mk.injEq] at h
      rw [← h.2]; exact hb.1 _ _ hstep
    · rename_i e v1 p1 hstep
      exact (hb.2 _ _ _ hstep).chain
        (ih (fun a ha => hcs a (List.mem_cons_of_mem _ ha)) _ _ _ _ h)

theorem Alt_keepsLive {κ : Type} (cs : List (Consumer κ)) (hcs : ∀ c ∈ cs, KeepsLive c) :
    KeepsLive (Alt cs) := by
  intro p r p' h
  exact altLoop_keepsLive _ _ hcs _ _ _ _ h

theorem Memoize_keepsLive {κ : Type} (cell : Nat) (c : Consumer κ) (hc : KeepsLive c) :
    KeepsLive (Memoize cell c) := by
  intro p r p' h
  obtain ⟨-, -, l0, hl0⟩ := memoAtEntry_shape p cell
  have hA : CacheLive p (p.setMemo cell (memoAtEntry p cell)) :=
    cacheLive_setMemo p cell _ (by rw [hl0]; simp)
  rw [Memoize_eq] at h
  split at h
  · simp only [Option.some.injEq, Prod.mk.injEq] at h
    rw [← h.2]; exact hA.atTC _
  · split at h
    · simp at h
    · rename_i n e p1 hq
      split at h
      · simp at h
      · simp only [Option.some.injEq, Prod.mk.injEq] at h
        rw [← h.2]
        exact (hA.chain (hc _ _ _ hq)).chain (cacheLive_setMemo _ _ _ (by simp))

theorem Combinator_keepsLive {κ : Type} (g : Grammar κ) :
    ∀ (fuel : Nat) (c : Combinator κ), KeepsLive (c.Consume g fuel) := by
  intro fuel
  induction fuel with
  | zero =>
    intro c p r p' h
    simp [Combinator.Consume] at h
  | succ fuel ih =>
    intro c
    have hmap : ∀ cs : List (Combinator κ),
        ∀ a ∈ cs.map (Combinator.Consume g fuel), KeepsLive a := by
      intro cs a ha
      obtain ⟨b, -, rfl⟩ := List.mem_map.1 ha
      exact ih b
    cases c with
    | consume token => exact Consume_keepsLive _ _ _
    | peek tokens => exact Peek_keepsLive _ _
    | epsilon n => exact Epsilon_keepsLive _
    | lazy name =>
      intro p r p' h
      simp only [Combinator.Consume] at h
      cases hprod : g.productions name with
      | none => simp [hprod] at h
      | some b =>
        simp only [hprod] at h
        exact ih _ _ _ _ h
    | concat cs action => exact Concat_keepsLive _ _ (hmap cs)
    | effect cs act => exact Effect_keepsLive _ _ (hmap cs)
    | alt cs => exact Alt_keepsLive _ (hmap cs)
    | memoize cell c => exact Memoize_keepsLive _ _ (ih c)

/-! ## Memoization: the memoized run returns when the plain run does -/

theorem runs_agree {κ : Type} (w : MemoWorld κ) (g' : Grammar κ)
    (hg : GrammarMemoized w.cellTree w.plain g') (t t' : Combinator κ)
    (hrel : Memoized w.cellTree t t') (n : Nat) (p' : Parser κ) (r' : Result) (q' : Parser κ)
    (hinv : MemoInv w p') (hrun' : t'.Consume g' n p' = some (r', q')) (m : Nat)
    (p : Parser κ) (r : Result) (q : Parser κ) (hrun : t.Consume w.plain m p = some (r, q))
    (hS : p.S = p'.S) (hctx : p.Ctx = w.ctx) : Agree w p p' r r' q q' := by
  obtain ⟨m1, r1, q1, hrun1, hagree⟩ :=
    memoized_sim w g' hg n t t' hrel p' r' q' hinv hrun' p hS hctx
  have h1 := Combinator_fuel_mono w.plain t m (max m m1) (le_max_left _ _) _ _ hrun
  have h2 := Combinator_fuel_mono w.plain t m1 (max m m1) (le_max_right _ _) _ _ hrun1
  rw [h1] at h2
  simp only [Option.some.injEq, Prod.mk.injEq] at h2
  obtain ⟨rfl, rfl⟩ := h2
  exact hagree

theorem concatLoop_back {κ : Type} (w : MemoWorld κ) (g' : Grammar κ)
    (hg : GrammarMemoized w.cellTree w.plain g') (m : Nat)
    (ih : ∀ t t', Memoized w.cellTree t t' → Returns w g' m t t')
    (ts ts' : List (Combinator κ)) (h : List.Forall₂ (Memoized w.cellTree) ts ts')
    (tc : Int) :
    ∀ (nodes : List (Option Node)) (p : Parser κ)
      (R : List (Option Node) × Option ParseError) (q : Parser κ),
      concatLoop tc (ts.map (Combinator.Consume w.plain m)) nodes p = some (R, q) →
      ∀ p' : Parser κ, MemoInv w p' → p.S = p'.S → p.Ctx = w.ctx →
        ∃ n x, concatLoop tc (ts'.map (Combinator.Consume g' n)) nodes p' = some x := by
  induction h with
  | nil =>
    intro nodes p R q _ p' _ _ _
    exact ⟨0, _, rfl⟩
  | @cons t t' ts ts' hhead _ ihl =>
    intro nodes p R q hrun p' hinv hS hctx
    simp only [List.map_cons, concatLoop] at hrun
    cases hc : t.Consume w.plain m p with
    | none => simp [hc] at hrun
    | some x =>
      obtain ⟨⟨n1, e1⟩, p1⟩ := x
      obtain ⟨k1, ⟨r', q1'⟩, hc'⟩ := ih t t' hhead p _ _ hc p' hinv hS hctx
      obtain ⟨hr, hS1, hc1, hinv1, -⟩ :=
        runs_agree w g' hg t t' hhead k1 p' r' q1' hinv hc' m p _ _ hc hS hctx
      subst hr
      cases e1 with
      | some err =>
        refine ⟨k1, (([], some err), q1'.setTC tc), ?_⟩
        simp only [List.map_cons, concatLoop, hc']
      | none =>
        rw [hc] at hrun
        simp only at hrun
        obtain ⟨k2, x2, hrest⟩ := ihl (nodes ++ [n1]) p1 R q hrun q1' hinv1 hS1 hc1
        have hmono1 := Combinator_fuel_mono g' t' k1 (max k1 k2) (le_max_left _ _) _ _ hc'
        have hmono2 : List.Forall₂ Refines (ts'.map (Combinator.Consume g' k2))
            (ts'.map (Combinator.Consume g' (max k1 k2))) :=
          forall₂_map_refines _ _
            (fun a => Combinator_fuel_mono g' a k2 _ (le_max_right _ _)) ts'
        refine ⟨max k1 k2, x2, ?_⟩
        simp only [List.map_cons, concatLoop, hmono1]
        exact concatLoop_mono tc _ _ hmono2 _ _ _ hrest

theorem altLoop_back {κ : Type} (w : MemoWorld κ) (g' : Grammar κ)
    (hg : GrammarMemoized w.cellTree w.plain g') (m : Nat)
    (ih : ∀ t t', Memoized w.cellTree t t' → Returns w g' m t t')
    (ts ts' : List (Combinator κ)) (h : List.Forall₂ (Memoized w.cellTree) ts ts')
    (tc : Int) :
    ∀ (v : AltVars) (p : Parser κ) (r : Result) (q : Parser κ),
      altLoop tc (ts.map (Combinator.Consume w.plain m)) v p = some (r, q) →
      ∀ (v' : AltVars) (p' : Parser κ), MemoInv w p' → p.S = p'.S → p.Ctx = w.ctx →
        ∃ n x, altLoop tc (ts'.map (Combinator.Consume g' n)) v' p' = some x := by
  induction h with
  | nil =>
    intro v p r q _ v' p' _ _ _
    exact ⟨0, _, rfl⟩
  | @cons t t' ts ts' hhead _ ihl =>
    intro v p r q hrun v' p' hinv hS hctx
    simp only [List.map_cons, altLoop] at hrun
    cases hb : altBody tc (t.Consume w.plain m) v p with
    | none => simp [hb] at hrun
    | some step =>
      rw [hb] at hrun
      cases step with
      | ret n1 p1 =>
        have hc := altBody_ret_inv _ _ _ _ _ _ hb
        obtain ⟨k1, ⟨r', q1'⟩, hc'⟩ := ih t t' hhead _ _ _ hc (p'.setTC tc)
          (memoInv_setTC w p' tc hinv) (setTC_S_congr p p' tc hS) hctx
        obtain ⟨hr, -⟩ := runs_agree w g' hg t t' hhead k1 _ r' q1'
          (memoInv_setTC w p' tc hinv) hc' m _ _ _ hc (setTC_S_congr p p' tc hS) hctx
        subst hr
        refine ⟨k1, ((n1, none), q1'), ?_⟩
        simp only [List.map_cons, altLoop, altBody_success _ _ _ _ _ _ hc']
      | cont e v1 p1 =>
        simp only at hrun
        obtain ⟨n1, q1, hc, hS1, hC1, hU1, hM1, hL1, -⟩ :=
          altBody_cont_facts _ _ _ _ _ _ _ hb
        obtain ⟨k1, ⟨r', q1'⟩, hc'⟩ := ih t t' hhead _ _ _ hc (p'.setTC tc)
          (memoInv_setTC w p' tc hinv) (setTC_S_congr p p' tc hS) hctx
        obtain ⟨hr, hS2, hc2, hinv2, -⟩ := runs_agree w g' hg t t' hhead k1 _ r' q1'
          (memoInv_setTC w p' tc hinv) hc' m _ _ _ hc (setTC_S_congr p p' tc hS) hctx
        subst hr
        obtain ⟨v1', p1', hbody'⟩ := altBody_fail_exists tc _ v' p' q1' n1 e hc'
        obtain ⟨n2, q2, hc2', hS1', hC1', hU1', hM1', hL1', -⟩ :=
          altBody_cont_facts _ _ _ _ _ _ _ hbody'
        rw [hc'] at hc2'
        simp only [Option.some.injEq, Prod.mk.injEq, true_and] at hc2'
        obtain ⟨-, rfl⟩ := hc2'
        have hinv1 : MemoInv w p1' :=
          memoInv_step w q1' p1' hinv2 (by rw [hS1']) (by rw [hS1']) (hC1'.trans hinv2.2.2.1)
            hM1' (by simp [ueSet, hU1']) (fun _ => hL1')
        have hS3 : p1.S = p1'.S := by rw [hS1, hS1', hS2]
        obtain ⟨k2, x2, hrest⟩ := ihl v1 p1 r q hrun v1' p1' hinv1 hS3 (hC1.trans hc2)
        have hmono1 : Refines (t'.Consume g' k1) (t'.Consume g' (max k1 k2)) :=
          Combinator_fuel_mono g' t' k1 _ (le_max_left _ _)
        have hmono2 : List.Forall₂ Refines (ts'.map (Combinator.Consume g' k2))
            (ts'.map (Combinator.Consume g' (max k1 k2))) :=
          forall₂_map_refines _ _
            (fun a => Combinator_fuel_mono g' a k2 _ (le_max_right _ _)) ts'
        refine ⟨max k1 k2, x2, ?_⟩
        simp only [List.map_cons, altLoop, altBody_mono tc _ _ hmono1 v' p' _ hbody']
        exact altLoop_mono tc _ _ hmono2 _ _ _ hrest

theorem Concat_back {κ : Type} (w : MemoWorld κ) (g' : Grammar κ)
    (hg : GrammarMemoized w.cellTree w.plain g') (m : Nat)
    (ih : ∀ t t', Memoized w.cellTree t t' → Returns w g' m t t')
    (ts ts' : List (Combinator κ)) (h : List.Forall₂ (Memoized w.cellTree) ts ts')
    (action : Action κ) : Returns w g' (m + 1) (.concat ts action) (.concat ts' action) := by
  intro p r q hrun p' hinv hS hctx
  simp only [Combinator.Consume, Concat, concat] at hrun
  cases hl : concatLoop p.S.TC (ts.map (Combinator.Consume w.plain m)) [] p with
  | none => simp [hl] at hrun
  | some x =>
    obtain ⟨R, q1⟩ := x
    obtain ⟨n, ⟨⟨nodes, e⟩, q1'⟩, hl'⟩ :=
      concatLoop_back w g' hg m ih ts ts' h p.S.TC [] p R q1 hl p' hinv hS hctx
    have htc : p.S.TC = p'.S.TC := by rw [hS]
    rw [htc] at hl'
    refine ⟨n + 1, ?_⟩
    simp only [Combinator.Consume, Concat, concat, hl']
    cases e with
    | some err => exact ⟨_, rfl⟩
    | none =>
      simp only
      split <;> exact ⟨_, rfl⟩

theorem Effect_back {κ : Type} (w : MemoWorld κ) (g' : Grammar κ)
    (hg : GrammarMemoized w.cellTree w.plain g') (m : Nat)
    (ih : ∀ t t', Memoized w.cellTree t t' → Returns w g' m t t')
    (ts ts' : List (Combinator κ)) (h : List.Forall₂ (Memoized w.cellTree) ts ts')
    (act : SideEffect κ) : Returns w g' (m + 1) (.effect ts act) (.effect ts' act) := by
  intro p r q hrun p' hinv hS hctx
  simp only [Combinator.Consume, Effect, concat] at hrun
  cases hl : concatLoop p.S.TC (ts.map (Combinator.Consume w.plain m)) [] p with
  | none => simp [hl] at hrun
  | some x =>
    obtain ⟨R, q1⟩ := x
    obtain ⟨n, ⟨⟨nodes, e⟩, q1'⟩, hl'⟩ :=
      concatLoop_back w g' hg m ih ts ts' h p.S.TC [] p R q1 hl p' hinv hS hctx
    have htc : p.S.TC = p'.S.TC := by rw [hS]
    rw [htc] at hl'
    refine ⟨n + 1, ?_⟩
    simp only [Combinator.Consume, Effect, concat, hl']
    cases e with
    | some err => exact ⟨_, rfl⟩
    | none =>
      simp only
      split <;> exact ⟨_, rfl⟩

theorem Alt_back {κ : Type} (w : MemoWorld κ) (g' : Grammar κ)
    (hg : GrammarMemoized w.cellTree w.plain g') (m : Nat)
    (ih : ∀ t t', Memoized w.cellTree t t' → Returns w g' m t t')
    (ts ts' : List (Combinator κ)) (h : List.Forall₂ (Memoized w.cellTree) ts ts') :
    Returns w g' (m + 1) (.alt ts) (.alt ts') := by
  intro p r q hrun p' hinv hS hctx
  simp only [Combinator.Consume, Alt] at hrun
  obtain ⟨n, x, hx⟩ :=
    altLoop_back w g' hg m ih ts ts' h p.S.TC _ p r q hrun
      { err := none, always := false } p' hinv hS hctx
  have htc : p.S.TC = p'.S.TC := by rw [hS]
  rw [htc] at hx
  exact ⟨n + 1, x, by simp only [Combinator.Consume, Alt]; exact hx⟩

theorem memoized_returns {κ : Type} (w : MemoWorld κ) (g' : Grammar κ)
    (hg : GrammarMemoized w.cellTree w.plain g') :
    ∀ (m : Nat) (t t' : Combinator κ), Memoized w.cellTree t t' → Returns w g' m t t' := by
  intro m
  induction m with
  | zero =>
    intro t t' _ p r q hrun
    simp [Combinator.Consume] at hrun
  | succ m ih =>
    suffices H : ∀ (k : Nat) (t t' : Combinator κ), sizeOf t' < k →
        Memoized w.cellTree t t' → Returns w g' (m + 1) t t' from
      fun t t' hrel => H _ t t' (Nat.lt_succ_self _) hrel
    intro k
    induction k with
    | zero =>
      intro t t' hk
      exact absurd hk (Nat.not_lt_zero _)
    | succ k ihk =>
      intro t t' hk hrel
      obtain ⟨htok, hids, -, hprod⟩ := id hg
      cases hrel with
      | consume token =>
        intro p r q hrun p' hinv hS hctx
        simp only [Combinator.Consume] at hrun
        refine ⟨1, (r, { p' with S := q.S }), ?_⟩
        simp only [Combinator.Consume, htok, hids]
        exact (Consume_transfer _ _ _ p p' r q hrun hS.symm).1
      | peek tokens =>
        intro p r q hrun p' hinv hS hctx
        simp only [Combinator.Consume] at hrun
        refine ⟨1, (r, { p' with S := q.S }), ?_⟩
        simp only [Combinator.Consume, hids]
        exact (Peek_transfer _ _ p p' r q hrun hS.symm).1
      | epsilon node =>
        intro p r q hrun p' hinv hS hctx
        exact ⟨1, _, rfl⟩
      | lazy name =>
        intro p r q hrun p' hinv hS hctx
        simp only [Combinator.Consume] at hrun
        rcases hprod name with ⟨h1, _⟩ | ⟨t1, t1', h1, h2, hrel1⟩
        · simp [h1] at hrun
        · simp only [h1] at hrun
          obtain ⟨n, x, hx⟩ := ih t1 t1' hrel1 p r q hrun p' hinv hS hctx
          refine ⟨n + 1, x, ?_⟩
          simp only [Combinator.Consume, h2]
          exact hx
      | concat cs cs' action hf hpure => exact Concat_back w g' hg m ih cs cs' hf action
      | effect cs cs' act hf hpure => exact Effect_back w g' hg m ih cs cs' hf act
      | alt cs cs' hf => exact Alt_back w g' hg m ih cs cs' hf
      | wrap cell c c' hcell hrel' =>
        have hsz : sizeOf c' < k := by
          simp only [Combinator.memoize.sizeOf_spec] at hk
          omega
        intro p r q hrun p' hinv hS hctx
        have hinv0 := memoInv_entry w p' cell hinv
        cases hlook : memoLookup p'.S.TC ((memoAtEntry p' cell).cache.getD []) with
        | some res =>
          refine ⟨1, ((res.n, res.e), (p'.setMemo cell (memoAtEntry p' cell)).setTC res.tc), ?_⟩
          simp only [Combinator.Consume]
          rw [Memoize_eq]
          simp only [hlook]
        | none =>
          obtain ⟨n, ⟨⟨n1, e1⟩, p1'⟩, hx⟩ := ihk t c' hsz hrel' p r q hrun _ hinv0 hS hctx
          have hlive : (p1'.Memo cell).cache ≠ none := by
            refine Combinator_keepsLive g' n c' _ _ _ hx cell ?_
            obtain ⟨-, -, l, hl⟩ := memoAtEntry_shape p' cell
            rw [setMemo_get, hl]
            simp
          cases hcache : (p1'.Memo cell).cache with
          | none => exact absurd hcache hlive
          | some l =>
            refine ⟨n + 1, ((n1, e1), p1'.setMemo cell
              { s := (p1'.Memo cell).s,
                cache := some ((p'.S.TC, { n := n1, e := e1, tc := p1'.S.TC }) :: l) }), ?_⟩
            simp only [Combinator.Consume]
            rw [Memoize_eq]
            simp only [hlook, hx, hcache]

/-! ## Memoization: the two runs of `Parse` -/

theorem memoInv_newParser {κ : Type} (w : MemoWorld κ) (memo : Nat → MemoVars) (s : Scanner)
    (hscan : w.scan = s.scan) (hid : w.sid = s.Id) (hfresh : ∀ j, (memo j).cache = none) :
    MemoInv w (Grammar.newParser memo s w.ctx) := by
  refine ⟨hscan.symm, hid.symm, rfl, ?_⟩
  intro j l k res _ hc _
  have := hfresh j
  simp only [Grammar.newParser] at hc
  rw [this] at hc
  exact absurd hc (by simp)

theorem memoized_start_sim {κ : Type} (cellTree : Nat → Combinator κ)
    (g g' : Grammar κ) (hg : GrammarMemoized cellTree g g') (n : Nat)
    (memo memo₀ : Nat → MemoVars) (s : Scanner) (ctx : κ)
    (hfresh : ∀ j, (memo j).cache = none) (rs' : Result) (q' : Parser κ)
    (hrun : g'.consumeStart n memo s ctx = some (rs', q')) :
    ∃ m q, g.consumeStart m memo₀ s ctx = some (rs', q) ∧ q.S = q'.S ∧
      (q.UserError = none ↔ q'.UserError = none) ∧
      (q.LastError = none ↔ q'.LastError = none) := by
  let w : MemoWorld κ :=
    { plain := g, cellTree := cellTree, scan := s.scan, sid := s.Id, ctx := ctx }
  have hinv : MemoInv w (Grammar.newParser memo s ctx) :=
    memoInv_newParser w memo s rfl rfl hfresh
  obtain ⟨-, -, hstart, hprod⟩ := id hg
  simp only [Grammar.consumeStart] at hrun
  rcases hprod g.startProduction with ⟨_, h2⟩ | ⟨t, t', h1, h2, hrel⟩
  · rw [hstart] at hrun
    simp [h2] at hrun
  · rw [hstart] at hrun
    simp only [h2] at hrun
    obtain ⟨m, r, q, hrun1, hr, hS, -, -, htr⟩ :=
      memoized_sim w g' hg n t t' hrel _ _ _ hinv hrun (Grammar.newParser memo₀ s ctx) rfl rfl
    subst hr
    have hstart1 : g.consumeStart m memo₀ s ctx = some (rs', q) := by
      simp only [Grammar.consumeStart, h1]
      exact hrun1
    have hU : q.UserError = none ↔ q'.UserError = none := by
      obtain ⟨-, -, h3, h4⟩ := htr.1
      simp only [ueSet, Grammar.newParser, ne_eq, not_true_eq_false, false_or] at h3 h4
      constructor
      · intro hq
        by_contra hq'
        exact h4 hq' hq
      · intro hq'
        by_contra hq
        exact h3 hq hq'
    have hL : q.LastError = none ↔ q'.LastError = none := by
      obtain ⟨-, -, h3, h4⟩ := htr.2
      simp only [leSet, Grammar.newParser, ne_eq, not_true_eq_false, false_or] at h3 h4
      constructor
      · intro hq
        by_contra hq'
        exact h4 hq' hq
      · intro hq'
        by_contra hq
        exact h3 hq hq'
    exact ⟨m, q, hstart1, hS, hU, hL⟩

theorem memoized_start_returns {κ : Type} (cellTree : Nat → Combinator κ)
    (g g' : Grammar κ) (hg : GrammarMemoized cellTree g g') (m : Nat)
    (memo memo₀ : Nat → MemoVars) (s : Scanner) (ctx : κ)
    (hfresh : ∀ j, (memo j).cache = none) (rs : Result) (q : Parser κ)
    (hrun : g.consumeStart m memo₀ s ctx = some (rs, q)) :
    ∃ n x, g'.consumeStart n memo s ctx = some x := by
  let w : MemoWorld κ :=
    { plain := g, cellTree := cellTree, scan := s.scan, sid := s.Id, ctx := ctx }
  have hinv : MemoInv w (Grammar.newParser memo s ctx) :=
    memoInv_newParser w memo s rfl rfl hfresh
  obtain ⟨-, -, hstart, hprod⟩ := id hg
  simp only [Grammar.consumeStart] at hrun
  rcases hprod g.startProduction with ⟨h1, _⟩ | ⟨t, t', h1, h2, hrel⟩
  · simp [h1] at hrun
  · simp only [h1] at hrun
    obtain ⟨n, x, hx⟩ :=
      memoized_returns w g' hg m t t' hrel _ _ _ hrun (Grammar.newParser memo s ctx) hinv rfl rfl
    refine ⟨n, x, ?_⟩
    simp only [Grammar.consumeStart, hstart, h2]
    exact hx

theorem starts_agree {κ : Type} (cellTree : Nat → Combinator κ)
    (g g' : Grammar κ) (hg : GrammarMemoized cellTree g g')
    (memo memo₀ : Nat → MemoVars) (s : Scanner) (ctx : κ)
    (hfresh : ∀ j, (memo j).cache = none) (m n : Nat) (rs rs' : Result) (q q' : Parser κ)
    (hrun : g.consumeStart m memo₀ s ctx = some (rs, q))
    (hrun' : g'.consumeStart n memo s ctx = some (rs', q')) :
    rs' = rs ∧ q.S = q'.S ∧ (q.UserError = none ↔ q'.UserError = none) ∧
      (q.LastError = none ↔ q'.LastError = none) := by
  obtain ⟨m1, q1, hrun1, hS, hU, hL⟩ :=
    memoized_start_sim cellTree g g' hg n memo memo₀ s ctx hfresh rs' q' hrun'
  have h1 := consumeStart_fuel_mono g m (max m m1) (le_max_left _ _) memo₀ s ctx _ hrun
  have h2 := consumeStart_fuel_mono g m1 (max m m1) (le_max_right _ _) memo₀ s ctx _ hrun1
  rw [h1] at h2
  simp only [Option.some.injEq, Prod.mk.injEq] at h2
  obtain ⟨rfl, rfl⟩ := h2
  exact ⟨rfl, hS, hU, hL⟩

theorem parse_of_start {κ : Type} (g : Grammar κ) (m : Nat) (memo : Nat → MemoVars)
    (s : Scanner) (ctx : κ) (rs : Result) (q : Parser κ)
    (hrun : g.consumeStart m memo s ctx = some (rs, q)) :
    g.Parse m memo s ctx = Grammar.finish rs q := by
  simp only [Grammar.Parse, hrun]

theorem start_of_parse {κ : Type} (g : Grammar κ) (m : Nat) (memo : Nat → MemoVars)
    (s : Scanner) (ctx : κ) (r : Result) (h : g.Parse m memo s ctx = some r) :
    ∃ rs q, g.consumeStart m memo s ctx = some (rs, q) := by
  cases hrun : g.consumeStart m memo s ctx with
  | none => simp [Grammar.Parse, hrun] at h
  | some x => exact ⟨x.1, x.2, rfl⟩

/-- C11, amended. Memoization is transparent up to the reported `UserError`
and `LastError`. Let `g'` be a grammar `g` without `Memoize` in which
sub-productions are wrapped in `Memoize`, the actions and side-effect
functions leaving the user context as it is, and let the caches be fresh.
The start production returns on `g'` with some fuel exactly when it returns on
`g` with some fuel, and `Parse` returns on `g'` exactly when it returns on `g`.
Whenever both start productions return they return the same node and the same
error and leave the same cursor, and `UserError` and `LastError` are set in
both runs or in neither. `Parse` then returns the same result on `g` and `g'`,
except when the start production succeeded and `Parse` fails with
`UserError`, or with `LastError` for unconsumed input: both runs then fail,
each with the value of its own run. -/
theorem memoize_transparent_up_to_reported_error {κ : Type} (cellTree : Nat → Combinator κ)
    (g g' : Grammar κ) (hg : GrammarMemoized cellTree g g')
    (memo memo₀ : Nat → MemoVars) (s : Scanner) (ctx : κ)
    (hfresh : ∀ j, (memo j).cache = none) :
    (∀ n rs' q', g'.consumeStart n memo s ctx = some (rs', q') →
      ∃ m q, g.consumeStart m memo₀ s ctx = some (rs', q)) ∧
    (∀ m rs q, g.consumeStart m memo₀ s ctx = some (rs, q) →
      ∃ n q', g'.consumeStart n memo s ctx = some (rs, q')) ∧
    ((∃ n r', g'.Parse n memo s ctx = some r') ↔ (∃ m r, g.Parse m memo₀ s ctx = some r)) ∧
    (∀ m n rs q rs' q', g.consumeStart m memo₀ s ctx = some (rs, q) →
      g'.consumeStart n memo s ctx = some (rs', q') →
        rs' = rs ∧ q.S = q'.S ∧ (q.UserError = none ↔ q'.UserError = none) ∧
        (q.LastError = none ↔ q'.LastError = none) ∧
        (g.Parse m memo₀ s ctx = g'.Parse n memo s ctx ∨
          ∃ e e', g.Parse m memo₀ s ctx = some (none, some e) ∧
            g'.Parse n memo s ctx = some (none, some e') ∧ rs.2 = none ∧
            ((q.UserError = some e ∧ q'.UserError = some e') ∨
              (q.UserError = none ∧ q'.UserError = none ∧
                q.LastError = some e ∧ q'.LastError = some e')))) := by
  have hfwd : ∀ n rs' q', g'.consumeStart n memo s ctx = some (rs', q') →
      ∃ m q, g.consumeStart m memo₀ s ctx = some (rs', q) := by
    intro n rs' q' hrun'
    obtain ⟨m, q, hrun, -⟩ :=
      memoized_start_sim cellTree g g' hg n memo memo₀ s ctx hfresh rs' q' hrun'
    exact ⟨m, q, hrun⟩
  have hback : ∀ m rs q, g.consumeStart m memo₀ s ctx = some (rs, q) →
      ∃ n q', g'.consumeStart n memo s ctx = some (rs, q') := by
    intro m rs q hrun
    obtain ⟨n, ⟨rs', q'⟩, hrun'⟩ :=
      memoized_start_returns cellTree g g' hg m memo memo₀ s ctx hfresh rs q hrun
    obtain ⟨hr, -⟩ := starts_agree cellTree g g' hg memo memo₀ s ctx hfresh m n rs rs' q q'
      hrun hrun'
    subst hr
    exact ⟨n, q', hrun'⟩
  have hboth : ∀ m n rs q rs' q', g.consumeStart m memo₀ s ctx = some (rs, q) →
      g'.consumeStart n memo s ctx = some (rs', q') →
        rs' = rs ∧ q.S = q'.S ∧ (q.UserError = none ↔ q'.UserError = none) ∧
        (q.LastError = none ↔ q'.LastError = none) ∧
        (g.Parse m memo₀ s ctx = g'.Parse n memo s ctx ∨
          ∃ e e', g.Parse m memo₀ s ctx = some (none, some e) ∧
            g'.Parse n memo s ctx = some (none, some e') ∧ rs.2 = none ∧
            ((q.UserError = some e ∧ q'.UserError = some e') ∨
              (q.UserError = none ∧ q'.UserError = none ∧
                q.LastError = some e ∧ q'.LastError = some e'))) := by
    intro m n rs q rs' q' hrun hrun'
    obtain ⟨hr, hS, hU, hL⟩ :=
      starts_agree cellTree g g' hg memo memo₀ s ctx hfresh m n rs rs' q q' hrun hrun'
    subst hr
    refine ⟨rfl, hS, hU, hL, ?_⟩
    rw [parse_of_start g m memo₀ s ctx _ q hrun, parse_of_start g' n memo s ctx _ q' hrun']
    exact finish_compare _ q q' hS hU hL
  refine ⟨hfwd, hback, ⟨?_, ?_⟩, hboth⟩
  · rintro ⟨n, r', hparse'⟩
    obtain ⟨rs', q', hrun'⟩ := start_of_parse g' n memo s ctx r' hparse'
    obtain ⟨m, q, hrun⟩ := hfwd n rs' q' hrun'
    rcases (hboth m n _ _ _ _ hrun hrun').2.2.2.2 with heq | ⟨e, _, he, _⟩
    · exact ⟨m, r', by rw [heq]; exact hparse'⟩
    · exact ⟨m, _, he⟩
  · rintro ⟨m, r, hparse⟩
    obtain ⟨rs, q, hrun⟩ := start_of_parse g m memo₀ s ctx r hparse
    obtain ⟨n, q', hrun'⟩ := hback m rs q hrun
    rcases (hboth m n _ _ _ _ hrun hrun').2.2.2.2 with heq | ⟨_, e', _, he', _⟩
    · exact ⟨n, r, by rw [← heq]; exact hparse⟩
    · exact ⟨n, _, he'⟩

theorem memoize_transparent_up_to_reported_error_witness :
    GrammarMemoized (fun _ => .consume "a") cachedPlain cachedMemoized ∧
    (∀ j, (freshMemo j).cache = none) ∧
    (∃ n q', cachedMemoized.consumeStart n freshMemo (listScanner [tokenAt 0 "a" 1]) () =
      some ((some (NewTokenNode abcTokens (tokenAt 0 "a" 1)), none), q')) ∧
    (cachedPlain.Parse 3 freshMemo (listScanner [tokenAt 0 "a" 1]) () =
        cachedMemoized.Parse 4 freshMemo (listScanner [tokenAt 0 "a" 1]) () ∨
      ∃ e e', cachedPlain.Parse 3 freshMemo (listScanner [tokenAt 0 "a" 1]) () =
          some (none, some e) ∧
        cachedMemoized.Parse 4 freshMemo (listScanner [tokenAt 0 "a" 1]) () =
          some (none, some e') ∧
        ((some (NewTokenNode abcTokens (tokenAt 0 "a" 1)), none) : Result).2 = none ∧
        ((({ cachedExit with Memo := freshMemo } : Parser Unit).UserError = some e ∧
            cachedExit.UserError = some e') ∨
          (({ cachedExit with Memo := freshMemo } : Parser Unit).UserError = none ∧
            cachedExit.UserError = none ∧
            ({ cachedExit with Memo := freshMemo } : Parser Unit).LastError = some e ∧
            cachedExit.LastError = some e'))) :=
  ⟨cached_grammarMemoized, fun _ => rfl,
    (memoize_transparent_up_to_reported_error (fun _ => .consume "a") cachedPlain
      cachedMemoized cached_grammarMemoized freshMemo freshMemo
      (listScanner [tokenAt 0 "a" 1]) () (fun _ => rfl)).2.1 3 _ _ cached_plain_start,
    ((memoize_transparent_up_to_reported_error (fun _ => .consume "a") cachedPlain
      cachedMemoized cached_grammarMemoized freshMemo freshMemo
      (listScanner [tokenAt 0 "a" 1]) () (fun _ => rfl)).2.2.2 3 4 _ _ _ _
      cached_plain_start cached_memoized_start).2.2.2.2⟩

end Combos
